import Mathlib

/-!
# Verification of the sta-xwalk boilerplate detection and conversion scripts

This development gives a shallow embedding of the boilerplate detection and
conversion logic of the repository's script variants:

* `sta-boilerplate-detector.js`  (the strict detector),
* `sta-boilerplate-converter.js` (the converter),
* the combined detector+converter script (together with `xwalk-content.js`,
  which shares its path extractor).

Strings are modelled as `List Char` where text scanning matters and as `String`
where the code manipulates whole path entries.  The JavaScript regular
expressions used by the scripts are concrete patterns, and each is embedded as
a deterministic scanner over `List Char` that mirrors the leftmost,
non-overlapping semantics of `String.prototype.replace` and of repeated
`RegExp.exec` with the `g` flag.  Replacement-string `$`-expansion of
JavaScript is not modelled; theorems quantifying over the repository name carry
a `'$' ∉ repo` hypothesis wherever the source feeds a data string back through
`replace`.
-/

namespace Swetabar

/-- The placeholder the scripts look for, as a character list. -/
def needle : List Char := "sta-xwalk-boilerplate".data

/-- Boolean substring test, `a.includes(b)` of JavaScript. -/
def isSub (ndl : List Char) : List Char → Bool
  | [] => ndl.isEmpty
  | c :: cs => ndl.isPrefixOf (c :: cs) || isSub ndl cs

/-- `BOILERPLATE_PATHS` from the scripts: the three reference paths whose
presence marks a boilerplate package. -/
def BOILERPLATE_PATHS : List String :=
  [ "/content/sta-xwalk-boilerplate/tools"
  , "/content/sta-xwalk-boilerplate/block-collection"
  , "/content/dam/sta-xwalk-boilerplate/block-collection" ]

/-- `path.includes('sta-xwalk-boilerplate')` of JavaScript: substring test. -/
def containsNeedle (p : String) : Bool := isSub needle p.data

/-- `isBoilerplatePackage` of the converter script and of the combined script
(the two files contain the identical permissive classifier):

```js
if (!paths || paths.length === 0) return false;
const requiredPathsFound = BOILERPLATE_PATHS.every(rp => paths.some(p => p === rp));
const boilerplateRelatedPaths = paths.filter(p => p.includes('sta-xwalk-boilerplate'));
return requiredPathsFound ||
  (boilerplateRelatedPaths.length >= 2 && boilerplateRelatedPaths.length >= paths.length * 0.6);
```

The JavaScript comparison `count >= n * 0.6` is over binary doubles; for every
list length that fits a double it coincides with the exact rational comparison
`5 * count ≥ 3 * n` (for `n` divisible by 5 the product `n * 0.6` rounds to the
exact integer `3n/5`, and otherwise the exact value is at least 0.2 away from
any integer while the rounding error stays below one part in 2⁵²), which is how
it is embedded here. -/
def isBoilerplatePackage_perm (paths : List String) : Bool :=
  if paths.length = 0 then
    false
  else
    let requiredPathsFound :=
      BOILERPLATE_PATHS.all (fun rp => paths.any (fun p => p == rp))
    let boilerplateRelated := paths.filter containsNeedle
    requiredPathsFound ||
      (decide (2 ≤ boilerplateRelated.length) &&
       decide (3 * paths.length ≤ 5 * boilerplateRelated.length))

/-- `isBoilerplatePackage` of the detector script (the strict classifier):

```js
if (paths.length !== 3) return false;
const sortedPaths = [...paths].sort();
const sortedBoilerplate = [...BOILERPLATE_PATHS].sort();
return sortedPaths.every((p, i) => p === sortedBoilerplate[i]);
```

JavaScript `Array.prototype.sort` on these ASCII strings is the lexicographic
order on code points, i.e. the `≤` of `String`; comparing the two sorted
length-3 arrays index by index is list equality. -/
def isBoilerplatePackage_det (paths : List String) : Bool :=
  if paths.length ≠ 3 then
    false
  else
    List.insertionSort (· ≤ ·) paths == List.insertionSort (· ≤ ·) BOILERPLATE_PATHS

/-! ## Text scanning infrastructure

Each JavaScript regular expression of the scripts is embedded as an anchored
matcher `List Char → Option (matched × payload × rest)`; a fueled scanner then
replays the leftmost, non-overlapping global matching of `replace`/`exec`. -/

/-- Result of an anchored match attempt: the matched text, the captured
payload, and the rest of the input. -/
abbrev MRes (κ : Type) := Option (List Char × κ × List Char)

/-- Expect a literal; return the rest of the input. -/
def lit : List Char → List Char → Option (List Char)
  | [], s => some s
  | _ :: _, [] => none
  | c :: cs, d :: ds => if c = d then lit cs ds else none

/-- JavaScript `\s` (the ASCII part; the manifests contain no exotic space). -/
def isWS (c : Char) : Bool :=
  c = ' ' || c = '\t' || c = '\n' || c = '\r' || c = '\x0b' || c = '\x0c'

/-- Greedy `p+`: maximal nonempty run of characters satisfying `p`. -/
def many1 (p : Char → Bool) : List Char → Option (List Char × List Char)
  | [] => none
  | c :: cs =>
      if p c then some ((c :: cs).takeWhile p, (c :: cs).dropWhile p) else none

/-- Lazy `.*?stop`: shortest run of `ok` characters followed by `stop`. -/
def lazyUpto (stop : List Char) (ok : Char → Bool) : List Char → Option (List Char × List Char)
  | [] => if stop.isEmpty then some ([], []) else none
  | c :: cs =>
      if stop.isPrefixOf (c :: cs) then some ([], (c :: cs).drop stop.length)
      else if ok c then (lazyUpto stop ok cs).map (fun r => (c :: r.1, r.2)) else none

/-- An anchored matcher is sound when every reported match reassembles the
input and is nonempty. -/
def MSound {κ : Type} (tryM : List Char → MRes κ) : Prop :=
  ∀ s m cap rest, tryM s = some (m, cap, rest) → s = m ++ rest ∧ m ≠ []

/-- Fueled global-replace scanner: at each position either replace an anchored
match and continue after it, or keep one character.  This is the semantics of
JavaScript `String.prototype.replace` with a `g`-flagged regex and a callback:
matches are found left to right on the original text and never overlap. -/
def scanReplAux {κ : Type} (tryM : List Char → MRes κ) (cb : List Char → κ → List Char) :
    Nat → List Char → List Char
  | 0, s => s
  | Nat.succ fuel, s =>
      match tryM s with
      | some (m, cap, rest) => cb m cap ++ scanReplAux tryM cb fuel rest
      | none =>
          match s with
          | [] => []
          | c :: cs => c :: scanReplAux tryM cb fuel cs

def scanRepl {κ : Type} (tryM : List Char → MRes κ) (cb : List Char → κ → List Char)
    (s : List Char) : List Char :=
  scanReplAux tryM cb s.length s

/-- Fueled global-extraction scanner: collect every capture, left to right,
matches never overlapping — the `while ((match = pattern.exec(xml)))` loop. -/
def scanExtractAux {κ : Type} (tryM : List Char → MRes κ) : Nat → List Char → List κ
  | 0, _ => []
  | Nat.succ fuel, s =>
      match tryM s with
      | some (_, cap, rest) => cap :: scanExtractAux tryM fuel rest
      | none =>
          match s with
          | [] => []
          | _ :: cs => scanExtractAux tryM fuel cs

def scanExtract {κ : Type} (tryM : List Char → MRes κ) (s : List Char) : List κ :=
  scanExtractAux tryM s.length s

/-! ## The concrete patterns of the scripts -/

def tagOpen : List Char := "<filter".data

def rootAttr : List Char := "root=\"".data

def closeTag : List Char := "</filter>".data

def notQuote (c : Char) : Bool := decide (c ≠ '"')

def notGt (c : Char) : Bool := decide (c ≠ '>')

/-- JavaScript `.` without the `s` flag: any character but a line terminator. -/
def dotOk (c : Char) : Bool :=
  decide (c ≠ '\n') && decide (c ≠ '\r') && decide (c ≠ '\u2028') &&
    decide (c ≠ '\u2029')

/-- `/<filter\s+root="([^"]+)"\s*\/>/` anchored at the head of the input. -/
def tryP1 (s : List Char) : Option (List Char × List Char × List Char) := do
  let r1 ← lit tagOpen s
  let (w, r2) ← many1 isWS r1
  let r3 ← lit rootAttr r2
  let (cap, r4) ← many1 notQuote r3
  let r5 ← lit ['"'] r4
  let e := r5.takeWhile isWS
  let r6 := r5.dropWhile isWS
  let r7 ← lit ("/>".data) r6
  pure (tagOpen ++ w ++ rootAttr ++ cap ++ ['"'] ++ e ++ ("/>".data), cap, r7)

/-- `/<filter\s+root="([^"]+)"><\/filter>/` anchored at the head. -/
def tryP2 (s : List Char) : Option (List Char × List Char × List Char) := do
  let r1 ← lit tagOpen s
  let (w, r2) ← many1 isWS r1
  let r3 ← lit rootAttr r2
  let (cap, r4) ← many1 notQuote r3
  let r5 ← lit ("\"></filter>".data) r4
  pure (tagOpen ++ w ++ rootAttr ++ cap ++ ("\"></filter>".data), cap, r5)

/-- `/<filter\s+root="([^"]+)"[^>]*>.*?<\/filter>/` anchored at the head. -/
def tryP3 (s : List Char) : Option (List Char × List Char × List Char) := do
  let r1 ← lit tagOpen s
  let (w, r2) ← many1 isWS r1
  let r3 ← lit rootAttr r2
  let (cap, r4) ← many1 notQuote r3
  let r5 ← lit ['"'] r4
  let e := r5.takeWhile notGt
  let r6 := r5.dropWhile notGt
  let r7 ← lit ['>'] r6
  let (content, r8) ← lazyUpto closeTag dotOk r7
  pure (tagOpen ++ w ++ rootAttr ++ cap ++ ['"'] ++ e ++ ['>'] ++ content ++ closeTag,
    cap, r8)

/-- The deterministic tail `root="([^"]+)"[^>]*>` of the fourth pattern. -/
def tryP4Tail (rest : List Char) : Option (List Char × List Char × List Char) := do
  let r2 ← lit rootAttr rest
  let (cap, r3) ← many1 notQuote r2
  let r4 ← lit ['"'] r3
  let e := r4.takeWhile notGt
  let r5 := r4.dropWhile notGt
  let r6 ← lit ['>'] r5
  pure (rootAttr ++ cap ++ ['"'] ++ e ++ ['>'], cap, r6)

/-- Greedy backtracking of `[^>]+` in `/<filter[^>]+root="([^"]+)"[^>]*>/`:
candidate lengths are tried longest first, mirroring the regex engine. -/
def tryP4Go (t : List Char) : Nat → MRes (List Char)
  | 0 => none
  | Nat.succ j =>
      match tryP4Tail (t.drop (j + 1)) with
      | some (m2, cap, r) => some (t.take (j + 1) ++ m2, cap, r)
      | none => tryP4Go t j

/-- `/<filter[^>]+root="([^"]+)"[^>]*>/` anchored at the head. -/
def tryP4 (s : List Char) : Option (List Char × List Char × List Char) := do
  let r1 ← lit tagOpen s
  match tryP4Go r1 ((r1.takeWhile notGt).length) with
  | some (m2, cap, r) => some (tagOpen ++ m2, cap, r)
  | none => none

/-- `/root="([^"]*sta-xwalk-boilerplate[^"]*)"/` anchored at the head; both
`[^"]*` are greedy, so a successful match captures the whole quote-free run,
which must contain the placeholder. -/
def tryPB (s : List Char) : Option (List Char × List Char × List Char) := do
  let r1 ← lit rootAttr s
  let run := r1.takeWhile notQuote
  let r2 := r1.dropWhile notQuote
  let r3 ← lit ['"'] r2
  if isSub needle run then some (rootAttr ++ run ++ ['"'], run, r3) else none

def wordChar (c : Char) : Bool :=
  ('a' ≤ c && c ≤ 'z') || ('A' ≤ c && c ≤ 'Z') || ('0' ≤ c && c ≤ '9') || c = '_'

def boundaryOk (c : Char) : Bool := !(c = '"' || wordChar c || c = '-')

/-- `/([^"\w-])sta-xwalk-boilerplate([^"\w-])/` anchored at the head. -/
def tryPC : List Char → MRes (Char × Char)
  | [] => none
  | c1 :: r1 =>
      if boundaryOk c1 then
        match lit needle r1 with
        | none => none
        | some r2 =>
            match r2 with
            | [] => none
            | c2 :: r3 =>
                if boundaryOk c2 then some (c1 :: (needle ++ [c2]), (c1, c2), r3)
                else none
      else none

/-- The detector's line-anchored pattern
`/^\s*<filter\s+root="([^"]+)"><\/filter>\s*$/` applied to one line. -/
def detLineMatch (line : List Char) : Option (List Char) := do
  let r1 ← lit tagOpen (line.dropWhile isWS)
  let (_, r2) ← many1 isWS r1
  let r3 ← lit rootAttr r2
  let (cap, r4) ← many1 notQuote r3
  let r5 ← lit ("\"></filter>".data) r4
  if r5.dropWhile isWS = [] then some cap else none

/-! ## Literal global replacement -/

/-- Fueled `text.replace(/lit/g, repl)` for a literal pattern: successive
leftmost non-overlapping occurrences are replaced, scanning the original
text only. -/
def replaceLitAux (ndl repl : List Char) : Nat → List Char → List Char
  | 0, s => s
  | Nat.succ fuel, s =>
      match s with
      | [] => []
      | c :: cs =>
          if ndl.isPrefixOf (c :: cs) then
            repl ++ replaceLitAux ndl repl fuel ((c :: cs).drop ndl.length)
          else c :: replaceLitAux ndl repl fuel cs

def replaceLit (ndl repl s : List Char) : List Char := replaceLitAux ndl repl s.length s

/-- `originalPath.replace(/sta-xwalk-boilerplate/g, repoName)`, also the first
pass of the combined variant's `convertBoilerplatePaths`. -/
def replaceNeedle (repo s : List Char) : List Char := replaceLit needle repo s

/-- `m.replace(pat, repl)` with a plain-string pattern: only the first
occurrence is replaced. -/
def replaceFirst (pat repl : List Char) : List Char → List Char
  | [] => []
  | c :: cs =>
      if pat.isPrefixOf (c :: cs) then repl ++ (c :: cs).drop pat.length
      else c :: replaceFirst pat repl cs

/-! ## The conversion operations -/

/-! ## The conversion operations -/

/-- The replacement callback shared by the three patterns of the converter's
`convertBoilerplatePaths`:

```js
if (originalPath.includes('sta-xwalk-boilerplate')) {
  const newPath = originalPath.replace(/sta-xwalk-boilerplate/g, repoName);
  if (match.includes('/>')) return `<filter root="${newPath}"/>`;
  else if (match.includes('></filter>')) return `<filter root="${newPath}"></filter>`;
  else return match.replace(originalPath, newPath);
}
return match;
``` -/
def convCb (repo : List Char) (m cap : List Char) : List Char :=
  if isSub needle cap then
    let newPath := replaceNeedle repo cap
    if isSub ("/>".data) m then ("<filter root=\"".data) ++ newPath ++ ("\"/>".data)
    else if isSub ("></filter>".data) m then
      ("<filter root=\"".data) ++ newPath ++ ("\"></filter>".data)
    else replaceFirst cap newPath m
  else m

/-- `convertBoilerplatePaths` of the converter script: the three patterns are
applied in sequence, each with the callback above. -/
def convertBoilerplatePaths_conv (text repo : List Char) : List Char :=
  scanRepl tryP3 (convCb repo)
    (scanRepl tryP2 (convCb repo) (scanRepl tryP1 (convCb repo) text))

/-- Callback of the combined variant's `root="(...)"` pass. -/
def combCbB (repo : List Char) (m cap : List Char) : List Char :=
  if isSub needle cap then rootAttr ++ replaceNeedle repo cap ++ ['"'] else m

/-- Replacement `` `$1${repoName}$2` `` of the combined variant's boundary
pass. -/
def combCbC (repo : List Char) (_ : List Char) (caps : Char × Char) : List Char :=
  caps.1 :: (repo ++ [caps.2])

/-- `convertBoilerplatePaths` of the combined script: a global literal
replacement of the placeholder, then the `root="..."` pass, then the
boundary-delimited pass. -/
def convertBoilerplatePaths_comb (text repo : List Char) : List Char :=
  scanRepl tryPC (combCbC repo)
    (scanRepl tryPB (combCbB repo) (replaceNeedle repo text))

/-! ## The path extractors -/

/-- `if (path && !paths.includes(path)) paths.push(path)`. -/
def addPath (acc : List (List Char)) (p : List Char) : List (List Char) :=
  if p = [] then acc else if p ∈ acc then acc else acc ++ [p]

def addPaths (acc : List (List Char)) (ps : List (List Char)) : List (List Char) :=
  ps.foldl addPath acc

/-- `getFilterPaths` of `xwalk-content.js` and of the combined script: the
four patterns are each run globally over the whole text, their captures
accumulated in order with first-seen deduplication. -/
def getFilterPaths_x (xml : List Char) : List (List Char) :=
  addPaths (addPaths (addPaths (addPaths [] (scanExtract tryP1 xml))
    (scanExtract tryP2 xml)) (scanExtract tryP3 xml)) (scanExtract tryP4 xml)

/-- `getFilterPaths` of the detector script: the text is split on `'\n'` and
each line is matched against the single anchored empty-body pattern; captures
are pushed without deduplication. -/
def getFilterPaths_det (xml : List Char) : List (List Char) :=
  (List.splitOn '\n' xml).filterMap detLineMatch

/-! ## Rendered filter entries

The four syntaxes of `<filter>` entries named by the specification, rendered
with the canonical single space and double-quoted `root` value. -/

/-- Self-closing entry `<filter root="P"/>`. -/
def lineSC (p : List Char) : List Char := ("<filter root=\"".data) ++ p ++ ("\"/>".data)

/-- Empty-body entry `<filter root="P"></filter>`. -/
def lineEB (p : List Char) : List Char :=
  ("<filter root=\"".data) ++ p ++ ("\"></filter>".data)

/-- Content-bearing entry `<filter root="P">c</filter>`. -/
def lineCB (p c : List Char) : List Char :=
  ("<filter root=\"".data) ++ p ++ ("\">".data) ++ c ++ closeTag

/-- Entry with an extra attribute before `root`:
`<filter mode="edit" root="P"/>`. -/
def lineXA (p : List Char) : List Char :=
  ("<filter mode=\"edit\" root=\"".data) ++ p ++ ("\"/>".data)

/-- Characters admissible in a `root` path value: no quote, no angle bracket,
no line terminator, no equals sign. -/
def goodChar (ch : Char) : Prop :=
  ch ≠ '"' ∧ ch ≠ '<' ∧ ch ≠ '>' ∧ ch ≠ '\n' ∧ ch ≠ '\r' ∧ ch ≠ '='

/-- A well-formed path value: nonempty and of admissible characters. -/
def GoodPath (p : List Char) : Prop := p ≠ [] ∧ ∀ ch ∈ p, goodChar ch

/-- Well-formed element content: no quote, angle bracket or line
terminator (all four ECMA-262 line terminators: LF, CR, LS, PS). -/
def GoodText (c : List Char) : Prop :=
  ∀ ch ∈ c, ch ≠ '"' ∧ ch ≠ '<' ∧ ch ≠ '>' ∧ ch ≠ '\n' ∧ ch ≠ '\r' ∧
    ch ≠ '\u2028' ∧ ch ≠ '\u2029'

/-- A repository name as the conversion scripts require it: nonempty (the
`run` entry points reject an empty `repo_name`), made of path-admissible
characters, and without `$` (JavaScript replacement-string expansion is not
modelled). -/
def GoodRepo (r : List Char) : Prop :=
  r ≠ [] ∧ ∀ ch ∈ r, goodChar ch ∧ ch ≠ '$'

/-- A barrier after which `.*?</filter>` cannot match: end of text or a line
break. -/
def LineEnd (rest : List Char) : Prop := rest = [] ∨ ∃ X, rest = '\n' :: X

/-! ## Whole manifests rendered uniformly in one of the four syntaxes -/

/-- The four `<filter>` entry syntaxes named by the specification. -/
inductive EntryForm
  | sc
  | eb
  | cb
  | xa

/-- Render one entry of a manifest in the given syntax, `c` being the
element content used by the content-bearing form. -/
def renderEntry (f : EntryForm) (c p : List Char) : List Char :=
  match f with
  | EntryForm.sc => lineSC p
  | EntryForm.eb => lineEB p
  | EntryForm.cb => lineCB p c
  | EntryForm.xa => lineXA p

/-- A manifest with one newline-terminated entry per line. -/
def renderDoc (f : EntryForm) (c : List Char) : List (List Char) → List Char
  | [] => []
  | p :: ps => renderEntry f c p ++ '\n' :: renderDoc f c ps

/-- Modelled from the spec: keep each value at its first occurrence, drop
later duplicates. -/
def firstSeenAux (seen : List (List Char)) : List (List Char) → List (List Char)
  | [] => []
  | p :: ps => if p ∈ seen then firstSeenAux seen ps else p :: firstSeenAux (p :: seen) ps

/-- Modelled from the spec: first-seen order with duplicates removed. -/
def firstSeen (L : List (List Char)) : List (List Char) := firstSeenAux [] L

/-! ## Directory tree and working-directory model

The directory trees the scripts touch are modelled as the set of existing
paths (segment lists) relative to `jcr_root`; `existsSync` is membership and
`renameSync` re-roots a subtree. -/

def renameDir (old new : List String) (fs : List (List String)) : List (List String) :=
  fs.map (fun p => if old.isPrefixOf p then new ++ p.drop old.length else p)

/-- `renameFoldersInJcrRoot`, textually identical in the converter and the
combined script: two independent existence checks, each guarding a rename. -/
def renameFoldersInJcrRoot (repo : String) (fs : List (List String)) :
    List (List String) :=
  let boilerplateContentDir := ["content", "sta-xwalk-boilerplate"]
  let fs1 := if boilerplateContentDir ∈ fs then
    renameDir boilerplateContentDir ["content", repo] fs else fs
  let boilerplateDamDir := ["content", "dam", "sta-xwalk-boilerplate"]
  if boilerplateDamDir ∈ fs1 then
    renameDir boilerplateDamDir ["content", "dam", repo] fs1 else fs1

/-- Observable state of the working directory (`zip_contents_path`) together
with the environment facts the scripts consult.  `zipFilter` is the
`META-INF/vault/filter.xml` inside the content package zip (`none` when the
zip lacks it or streaming fails); `zipOk` says whether the environment lets
an archive be written (disk, permissions).  The `zipHas…`/`hasExtracted…`
fields describe the `extracted_package` copy the zip branch works on; the
model takes unzipping of a present package to succeed. -/
structure World where
  dirExists : Bool
  hasZip : Bool
  zipFilter : Option (List Char)
  hasFilterXml : Bool
  filterXml : List Char
  hasJcrRoot : Bool
  hasMetaInf : Bool
  jcrTree : List (List String)
  hasTempPackage : Bool
  hasConvertedZip : Bool
  hasExtractedDir : Bool
  hasExtractedTemp : Bool
  zipHasJcrRoot : Bool
  zipHasMetaInf : Bool
  zipOk : Bool

/-- `createPackageFromExtractedContent` of the combined script: rewrite the
manifest, rename the tree, copy into `temp_package`, zip; on success the
temporary directory is removed, but a zip-write failure propagates with no
cleanup (the function has no `try`/`finally`). -/
def createPackageFromExtractedContent_comb (repo : String) (w : World) :
    World × Except String String :=
  if ¬ (w.hasJcrRoot = true ∧ w.hasMetaInf = true) then
    (w, Except.error
      "Expected jcr_root and META-INF directories not found in extracted content")
  else if w.hasFilterXml = false then
    (w, Except.error "filter.xml not found in META-INF/vault directory")
  else
    let w1 := { w with
      filterXml := convertBoilerplatePaths_comb w.filterXml repo.data,
      jcrTree := renameFoldersInJcrRoot repo w.jcrTree,
      hasTempPackage := true }
    if w1.zipOk = true then
      ({ w1 with hasConvertedZip := true, hasTempPackage := false },
        Except.ok ("converted-boilerplate-" ++ repo ++ ".zip"))
    else
      (w1, Except.error "zip write failed")

/-- `createPackageFromExtractedContent` of the converter script: the same
steps, but packaging happens inside `try`/`finally`, so the temporary
directory is removed on success and on failure alike. -/
def createPackageFromExtractedContent_conv (repo : String) (w : World) :
    World × Except String String :=
  if ¬ (w.hasJcrRoot = true ∧ w.hasMetaInf = true) then
    (w, Except.error
      "Expected jcr_root and META-INF directories not found in extracted content")
  else if w.hasFilterXml = false then
    (w, Except.error "filter.xml not found in META-INF/vault directory")
  else
    let w1 := { w with
      filterXml := convertBoilerplatePaths_conv w.filterXml repo.data,
      jcrTree := renameFoldersInJcrRoot repo w.jcrTree,
      hasTempPackage := true }
    if w1.zipOk = true then
      ({ w1 with hasConvertedZip := true, hasTempPackage := false },
        Except.ok ("converted-boilerplate-" ++ repo ++ ".zip"))
    else
      ({ w1 with hasTempPackage := false }, Except.error "zip write failed")

/-- `modifyExtractedContentPackage` of the combined script.  The zip branch
unzips into a fresh `extracted_package` directory and repackages there,
leaving the original manifest and `jcr_root` untouched. -/
def modifyExtractedContentPackage_comb (repo : String) (w : World) :
    World × Except String String :=
  if w.hasZip = false ∧ (w.hasJcrRoot = true ∧ w.hasMetaInf = true) then
    createPackageFromExtractedContent_comb repo w
  else if w.hasZip = true then
    let w1 := { w with hasExtractedDir := true }
    if ¬ (w.zipHasJcrRoot = true ∧ w.zipHasMetaInf = true) then
      (w1, Except.error
        "Expected jcr_root and META-INF directories not found in extracted content")
    else
      match w.zipFilter with
      | none => (w1, Except.error "filter.xml not found in META-INF/vault directory")
      | some _ =>
          if w.zipOk = true then
            ({ w1 with hasConvertedZip := true },
              Except.ok ("converted-boilerplate-" ++ repo ++ ".zip"))
          else
            ({ w1 with hasExtractedTemp := true }, Except.error "zip write failed")
  else
    (w, Except.error
      "No content package found and no extracted boilerplate content detected")

/-- `modifyExtractedContentPackage` of the converter script: its zip branch
extracts into a `temp-package-…` directory that a `finally` always removes. -/
def modifyExtractedContentPackage_conv (repo : String) (w : World) :
    World × Except String String :=
  if w.hasZip = false ∧ (w.hasJcrRoot = true ∧ w.hasMetaInf = true) then
    createPackageFromExtractedContent_conv repo w
  else if w.hasZip = false then
    (w, Except.error
      "No content package (.zip) found in the extracted import zip and no extracted content directories found")
  else
    match w.zipFilter with
    | none => (w, Except.error "filter.xml not found in content package")
    | some _ =>
        if w.zipOk = true then
          ({ w with hasConvertedZip := true }, Except.ok "converted-package.zip")
        else
          (w, Except.error "zip write failed")

/-- `detectBoilerplate` of the combined script: boilerplate content is read
in place; otherwise the manifest is pulled out of the zip; classification is
the permissive one. -/
def detectBoilerplate_comb (w : World) : Except String (Bool × String × List String) :=
  if w.hasZip = false ∧ w.hasFilterXml = true then
    let paths := (getFilterPaths_x w.filterXml).map (fun l => String.mk l)
    Except.ok (isBoilerplatePackage_perm paths, "", paths)
  else if w.hasZip = false then
    Except.error
      "No .zip files found in the specified directory and no boilerplate content detected."
  else
    match w.zipFilter with
    | none => Except.error "Error extracting filter.xml"
    | some d =>
        let paths := (getFilterPaths_x d).map (fun l => String.mk l)
        Except.ok (isBoilerplatePackage_perm paths, "package.zip", paths)

/-- `detectBoilerplate` of the detector script: a zip is mandatory; the
line-based extractor and the strict classifier are used. -/
def detectBoilerplate_det (w : World) : Except String (Bool × String × List String) :=
  if w.hasZip = false then
    Except.error "No .zip files found in the specified directory."
  else
    match w.zipFilter with
    | none => Except.error "Error extracting filter.xml"
    | some d =>
        let paths := (getFilterPaths_det d).map (fun l => String.mk l)
        Except.ok (isBoilerplatePackage_det paths, "package.zip", paths)

/-- The `core.setOutput` record; a field is `none` while never set. -/
structure RunOutputs where
  is_boilerplate : Option String
  content_package_path : Option String
  page_paths : Option String
  converted_package_path : Option String
  converted_page_paths : Option String
  error_message : Option String

def noOutputs : RunOutputs := ⟨none, none, none, none, none, none⟩

structure RunInputs where
  zip_contents_path : String
  repo_name : String
  convert : String

def boolString (b : Bool) : String := if b then "true" else "false"

/-- `originalPath.replace(/sta-xwalk-boilerplate/g, repoName)` over the page
paths, guarded by `includes`. -/
def convertPagePaths (repo : String) (paths : List String) : List String :=
  paths.map (fun p =>
    if containsNeedle p then String.mk (replaceNeedle repo.data p.data) else p)

/-- The `try` body of the combined script's `run`: validation, detection,
detection outputs, then optional conversion; outputs set before a failure
stay set.  The third component is the error the body would throw. -/
def runBody_comb (inp : RunInputs) (w : World) : World × RunOutputs × Option String :=
  if inp.zip_contents_path = "" ∨ w.dirExists = false then
    (w, noOutputs, some ("Zip contents path not found: " ++ inp.zip_contents_path))
  else
    match detectBoilerplate_comb w with
    | Except.error e => (w, noOutputs, some e)
    | Except.ok (b, pkg, paths) =>
        let o1 := { noOutputs with
          is_boilerplate := some (boolString b),
          content_package_path := some pkg,
          page_paths := some (String.intercalate "," paths) }
        if b = true then
          if inp.convert = "true" ∧ inp.repo_name ≠ "" then
            match modifyExtractedContentPackage_comb inp.repo_name w with
            | (w2, Except.error e) => (w2, o1, some e)
            | (w2, Except.ok converted) =>
                (w2, { o1 with
                  converted_package_path := some converted,
                  converted_page_paths := some (String.intercalate ","
                    (convertPagePaths inp.repo_name paths)) }, none)
          else if inp.convert = "true" then
            (w, o1, some "Repository name is required for conversion")
          else (w, o1, none)
        else (w, o1, none)

/-- `run` of the combined script: the whole body sits in one `try`/`catch`
whose handler reports the failure through the `error_message` output. -/
def runCombined (inp : RunInputs) (w : World) : World × RunOutputs :=
  match runBody_comb inp w with
  | (w2, o, none) => (w2, o)
  | (w2, o, some e) =>
      (w2, { o with error_message := some ("Xwalk operation failed: " ++ e) })

/-- The `try` body of the detector's `run`. -/
def runBody_det (inp : RunInputs) (w : World) : RunOutputs × Option String :=
  if inp.zip_contents_path = "" ∨ w.dirExists = false then
    (noOutputs, some ("Zip contents path not found: " ++ inp.zip_contents_path))
  else
    match detectBoilerplate_det w with
    | Except.error e => (noOutputs, some e)
    | Except.ok (b, pkg, paths) =>
        ({ noOutputs with
          is_boilerplate := some (boolString b),
          content_package_path := some pkg,
          page_paths := some (String.intercalate "," paths) }, none)

/-- `run` of the detector script. -/
def runDetector (inp : RunInputs) (w : World) : RunOutputs :=
  match runBody_det inp w with
  | (o, none) => o
  | (o, some e) =>
      { o with error_message := some ("Boilerplate detection failed: " ++ e) }

/-- The `try` body of the converter's `run`; the comma-splitting of the
`page_paths` input is elided — `pagePaths` is the parsed list. -/
def runBody_conv (inp : RunInputs) (pagePaths : List String) (w : World) :
    World × RunOutputs × Option String :=
  if inp.zip_contents_path = "" ∨ w.dirExists = false then
    (w, noOutputs, some ("Zip contents path not found: " ++ inp.zip_contents_path))
  else if inp.repo_name = "" then
    (w, noOutputs, some "Repository name is required")
  else
    let b := isBoilerplatePackage_perm pagePaths
    let o1 := { noOutputs with is_boilerplate := some (boolString b) }
    if b = true then
      match modifyExtractedContentPackage_conv inp.repo_name w with
      | (w2, Except.error e) => (w2, o1, some e)
      | (w2, Except.ok converted) =>
          (w2, { o1 with
            converted_package_path := some converted,
            converted_page_paths := some (String.intercalate ","
              (convertPagePaths inp.repo_name pagePaths)) }, none)
    else (w, o1, none)

/-- `run` of the converter script. -/
def runConverter (inp : RunInputs) (pagePaths : List String) (w : World) :
    World × RunOutputs :=
  match runBody_conv inp pagePaths w with
  | (w2, o, none) => (w2, o)
  | (w2, o, some e) =>
      (w2, { o with error_message := some ("Boilerplate conversion failed: " ++ e) })


/-! ## Theorems -/

theorem isSub_iff (ndl : List Char) : ∀ l, isSub ndl l = true ↔ ndl <:+: l := by
  intro l
  induction l with
  | nil =>
      simp [isSub, List.isEmpty_iff, List.infix_nil]
  | cons c cs ih =>
      simp [isSub, List.infix_cons_iff, List.isPrefixOf_iff_prefix, ih]

theorem isSub_eq_decide (ndl l : List Char) [Decidable (ndl <:+: l)] :
    isSub ndl l = decide (ndl <:+: l) := by
  rw [Bool.eq_iff_iff, decide_eq_true_eq]
  exact isSub_iff ndl l

/-! ## Claims C1 and C2: the classifiers -/

theorem perm_classifier_ratio (paths : List String) :
    isBoilerplatePackage_perm paths =
      (BOILERPLATE_PATHS.all (fun rp => paths.any (fun p => p == rp)) ||
        (decide (2 ≤ (paths.filter containsNeedle).length) &&
         decide (3 * paths.length ≤ 5 * (paths.filter containsNeedle).length))) := by
  cases paths with
  | nil => rfl
  | cons a l => rfl

/-- C1: the permissive classifier (converter and combined variants share this
code) returns `true` iff either all three reference paths are present among
the entries, or at least two entries contain the placeholder substring and
those entries make up at least 60% of the entry count; every empty list
classifies `false`. -/
theorem C1_permissive_classifier (paths : List String) :
    (isBoilerplatePackage_perm paths = true ↔
      (("/content/sta-xwalk-boilerplate/tools" ∈ paths ∧
        "/content/sta-xwalk-boilerplate/block-collection" ∈ paths ∧
        "/content/dam/sta-xwalk-boilerplate/block-collection" ∈ paths) ∨
       (2 ≤ paths.countP (fun p => decide ("sta-xwalk-boilerplate".data <:+: p.data)) ∧
        3 * paths.length ≤
          5 * paths.countP (fun p => decide ("sta-xwalk-boilerplate".data <:+: p.data))))) ∧
    isBoilerplatePackage_perm [] = false := by
  refine ⟨?_, rfl⟩
  have hpred : (fun p : String => decide ("sta-xwalk-boilerplate".data <:+: p.data)) =
      containsNeedle := by
    funext p
    rw [containsNeedle, isSub_eq_decide]
    rfl
  rw [perm_classifier_ratio, hpred, List.countP_eq_length_filter]
  simp only [Bool.or_eq_true, Bool.and_eq_true, decide_eq_true_eq, BOILERPLATE_PATHS,
    List.all_cons, List.all_nil, List.any_eq_true, beq_iff_eq, exists_eq_right,
    Bool.and_true, and_true]

/-- C2: the strict classifier (detector variant) returns `true` iff the list
has exactly 3 entries and, as a set, equals the three reference paths; it is
invariant under reordering and classifies the empty list `false`. -/
theorem C2_strict_classifier :
    (∀ paths : List String, isBoilerplatePackage_det paths = true ↔
      (paths.length = 3 ∧ ∀ p : String,
        (p ∈ paths ↔ p ∈ ["/content/sta-xwalk-boilerplate/tools",
          "/content/sta-xwalk-boilerplate/block-collection",
          "/content/dam/sta-xwalk-boilerplate/block-collection"]))) ∧
    (∀ paths paths' : List String, paths.Perm paths' →
      isBoilerplatePackage_det paths = isBoilerplatePackage_det paths') ∧
    isBoilerplatePackage_det [] = false := by
  haveI : IsTotal String (· ≤ ·) := ⟨fun a b => le_total a b⟩
  haveI : IsTrans String (· ≤ ·) := ⟨fun _ _ _ => le_trans⟩
  haveI : IsAntisymm String (· ≤ ·) := ⟨fun _ _ => le_antisymm⟩
  have hperm : ∀ paths : List String,
      isBoilerplatePackage_det paths = true ↔ paths.Perm BOILERPLATE_PATHS := by
    intro paths
    constructor
    · intro h
      rw [isBoilerplatePackage_det] at h
      split at h
      · exact absurd h (by simp)
      · have hs := beq_iff_eq.mp h
        have h1 : paths.Perm (List.insertionSort (· ≤ ·) paths) :=
          (List.perm_insertionSort _ paths).symm
        rw [hs] at h1
        exact h1.trans (List.perm_insertionSort _ _)
    · intro h
      have hlen : paths.length = 3 := by
        have := h.length_eq
        simpa [BOILERPLATE_PATHS] using this
      rw [isBoilerplatePackage_det, if_neg (by simp [hlen])]
      refine beq_iff_eq.mpr
        (@List.eq_of_perm_of_sorted String (· ≤ ·) inferInstance _ _ ?_ ?_ ?_)
      · exact ((List.perm_insertionSort _ paths).trans h).trans
          (List.perm_insertionSort _ BOILERPLATE_PATHS).symm
      · exact List.sorted_insertionSort _ paths
      · exact List.sorted_insertionSort _ BOILERPLATE_PATHS
  refine ⟨?_, ?_, rfl⟩
  · intro paths
    rw [hperm]
    constructor
    · intro h
      refine ⟨by simpa [BOILERPLATE_PATHS] using h.length_eq, fun p => ?_⟩
      exact h.mem_iff
    · rintro ⟨hlen, hmem⟩
      have hnodup : BOILERPLATE_PATHS.Nodup := by decide
      have hsub : BOILERPLATE_PATHS ⊆ paths := fun p hp => (hmem p).mpr hp
      obtain ⟨l, hl, hsl⟩ := hnodup.subperm hsub
      have hll : l = paths := hsl.eq_of_length (by
        rw [hl.length_eq]
        simp [BOILERPLATE_PATHS, hlen])
      exact (hll ▸ hl)
  · intro paths paths' h
    rw [Bool.eq_iff_iff, hperm, hperm]
    exact ⟨fun hp => h.symm.trans hp, fun hp => h.trans hp⟩

theorem lit_append (l r : List Char) : lit l (l ++ r) = some r := by
  induction l with
  | nil => rfl
  | cons c cs ih => simp [lit, ih]

theorem lit_sound {l s r : List Char} (h : lit l s = some r) : s = l ++ r := by
  induction l generalizing s with
  | nil => cases h; rfl
  | cons c cs ih =>
      cases s with
      | nil => exact absurd h (by simp [lit])
      | cons d ds =>
          rw [lit] at h
          split at h
          · next heq => simpa [heq] using ih h
          · exact absurd h (by simp)

theorem many1_sound {p : Char → Bool} {s a r : List Char} (h : many1 p s = some (a, r)) :
    s = a ++ r ∧ a ≠ [] ∧ (∀ c ∈ a, p c = true) := by
  cases s with
  | nil => exact absurd h (by simp [many1])
  | cons c cs =>
      rw [many1] at h
      split at h
      · next hp =>
          simp only [Option.some.injEq, Prod.mk.injEq] at h
          obtain ⟨ha, hr⟩ := h
          subst ha; subst hr
          refine ⟨(List.takeWhile_append_dropWhile p _).symm, by simp [List.takeWhile_cons, hp],
            fun d hd => List.mem_takeWhile_imp hd⟩
      · exact absurd h (by simp)

theorem takeWhile_exact {p : Char → Bool} {a : List Char} (b : Char) (r : List Char)
    (ha : ∀ c ∈ a, p c = true) (hb : p b = false) :
    (a ++ b :: r).takeWhile p = a ∧ (a ++ b :: r).dropWhile p = b :: r := by
  induction a with
  | nil => simp [List.takeWhile_cons, List.dropWhile_cons, hb]
  | cons c cs ih =>
      have hc : p c = true := ha c (by simp)
      have ih' := ih (fun d hd => ha d (by simp [hd]))
      simp [List.takeWhile_cons, List.dropWhile_cons, hc, ih'.1, ih'.2]

theorem many1_exact {p : Char → Bool} {a : List Char} (b : Char) (r : List Char)
    (ha : ∀ c ∈ a, p c = true) (hne : a ≠ []) (hb : p b = false) :
    many1 p (a ++ b :: r) = some (a, b :: r) := by
  cases a with
  | nil => exact absurd rfl hne
  | cons c cs =>
      have hc : p c = true := ha c (by simp)
      have hta := takeWhile_exact b r ha hb
      rw [List.cons_append, many1, ← List.cons_append, if_pos hc, hta.1, hta.2]

theorem lazyUpto_sound {stop : List Char} {ok : Char → Bool} :
    ∀ {s a r : List Char}, lazyUpto stop ok s = some (a, r) →
      s = a ++ stop ++ r ∧ (∀ c ∈ a, ok c = true) := by
  intro s
  induction s with
  | nil =>
      intro a r h
      rw [lazyUpto] at h
      split at h
      · next he =>
          simp only [Option.some.injEq, Prod.mk.injEq] at h
          obtain ⟨ha, hr⟩ := h
          subst ha; subst hr
          simp [List.isEmpty_iff.mp he]
      · exact absurd h (by simp)
  | cons c cs ih =>
      intro a r h
      rw [lazyUpto] at h
      split at h
      · next hpre =>
          simp only [Option.some.injEq, Prod.mk.injEq] at h
          obtain ⟨ha, hr⟩ := h
          subst ha; subst hr
          obtain ⟨t, ht⟩ := List.isPrefixOf_iff_prefix.mp hpre
          refine ⟨?_, by simp⟩
          rw [List.nil_append, ← ht]
          simp
      · split at h
        · next hok =>
            cases hrec : lazyUpto stop ok cs with
            | none => rw [hrec] at h; exact absurd h (by simp)
            | some pr =>
                rw [hrec] at h
                obtain ⟨a2, r2⟩ := pr
                simp only [Option.map, Option.some.injEq, Prod.mk.injEq] at h
                obtain ⟨ha, hr⟩ := h
                subst ha; subst hr
                obtain ⟨h1, h2⟩ := ih hrec
                refine ⟨by simp [h1], ?_⟩
                intro d hd
                rcases List.mem_cons.mp hd with hd | hd
                · exact hd ▸ hok
                · exact h2 d hd
        · exact absurd h (by simp)

theorem try_nil_none {κ : Type} {tryM : List Char → MRes κ} (hs : MSound tryM) :
    tryM [] = none := by
  cases h : tryM [] with
  | none => rfl
  | some v =>
      obtain ⟨m, cap, rest⟩ := v
      obtain ⟨he, hne⟩ := hs [] m cap rest h
      exact absurd (List.append_eq_nil.mp he.symm).1 hne

theorem scanReplAux_congr {κ : Type} {tryM : List Char → MRes κ}
    {cb : List Char → κ → List Char} (hs : MSound tryM) :
    ∀ n f1 f2 s, s.length ≤ n → s.length ≤ f1 → s.length ≤ f2 →
      scanReplAux tryM cb f1 s = scanReplAux tryM cb f2 s := by
  intro n
  induction n with
  | zero =>
      intro f1 f2 s h0 _ _
      have : s = [] := List.length_eq_zero.mp (Nat.le_zero.mp h0)
      subst this
      cases f1 with
      | zero => cases f2 with
        | zero => rfl
        | succ f2 => simp [scanReplAux, try_nil_none hs]
      | succ f1 => cases f2 with
        | zero => simp [scanReplAux, try_nil_none hs]
        | succ f2 => simp [scanReplAux, try_nil_none hs]
  | succ n ih =>
      intro f1 f2 s h0 h1 h2
      cases s with
      | nil =>
          cases f1 with
          | zero => cases f2 with
            | zero => rfl
            | succ f2 => simp [scanReplAux, try_nil_none hs]
          | succ f1 => cases f2 with
            | zero => simp [scanReplAux, try_nil_none hs]
            | succ f2 => simp [scanReplAux, try_nil_none hs]
      | cons c cs =>
          simp only [List.length_cons] at h0 h1 h2
          obtain ⟨g1, rfl⟩ : ∃ g1, f1 = g1 + 1 := ⟨f1 - 1, by omega⟩
          obtain ⟨g2, rfl⟩ : ∃ g2, f2 = g2 + 1 := ⟨f2 - 1, by omega⟩
          rw [scanReplAux, scanReplAux]
          cases hm : tryM (c :: cs) with
          | some v =>
              obtain ⟨m, cap, rest⟩ := v
              obtain ⟨he, hne⟩ := hs _ m cap rest hm
              have hlr : rest.length < cs.length + 1 := by
                have := congrArg List.length he
                rw [List.length_append, List.length_cons] at this
                cases m with
                | nil => exact absurd rfl hne
                | cons _ _ =>
                    rw [List.length_cons] at this
                    omega
              simp only []
              rw [ih g1 g2 rest (by omega) (by omega) (by omega)]
          | none =>
              simp only []
              rw [ih g1 g2 cs (by omega) (by omega) (by omega)]

theorem scanReplAux_eq_scanRepl {κ : Type} {tryM : List Char → MRes κ}
    {cb : List Char → κ → List Char} (hs : MSound tryM) {fuel : Nat} {s : List Char}
    (h : s.length ≤ fuel) : scanReplAux tryM cb fuel s = scanRepl tryM cb s :=
  scanReplAux_congr hs s.length fuel s.length s le_rfl h le_rfl

theorem scanRepl_nil {κ : Type} {tryM : List Char → MRes κ} {cb : List Char → κ → List Char} :
    scanRepl tryM cb [] = [] := rfl

theorem scanRepl_match {κ : Type} {tryM : List Char → MRes κ} {cb : List Char → κ → List Char}
    (hs : MSound tryM) {s m : List Char} {cap : κ} {rest : List Char}
    (hm : tryM s = some (m, cap, rest)) :
    scanRepl tryM cb s = cb m cap ++ scanRepl tryM cb rest := by
  obtain ⟨he, hne⟩ := hs s m cap rest hm
  cases s with
  | nil => exact absurd (List.append_eq_nil.mp he.symm).1 hne
  | cons c cs =>
      have hrest : rest.length ≤ cs.length := by
        have := congrArg List.length he
        rw [List.length_cons, List.length_append] at this
        cases m with
        | nil => exact absurd rfl hne
        | cons _ _ =>
            rw [List.length_cons] at this
            omega
      rw [scanRepl, List.length_cons, scanReplAux, hm]
      simp only []
      rw [scanReplAux_eq_scanRepl hs hrest]

theorem scanRepl_nomatch {κ : Type} {tryM : List Char → MRes κ} {cb : List Char → κ → List Char}
    (hs : MSound tryM) {c : Char} {cs : List Char} (hm : tryM (c :: cs) = none) :
    scanRepl tryM cb (c :: cs) = c :: scanRepl tryM cb cs := by
  rw [scanRepl, List.length_cons, scanReplAux, hm]
  rw [scanReplAux_eq_scanRepl hs le_rfl]

theorem scanExtractAux_congr {κ : Type} {tryM : List Char → MRes κ} (hs : MSound tryM) :
    ∀ n f1 f2 s, s.length ≤ n → s.length ≤ f1 → s.length ≤ f2 →
      scanExtractAux tryM f1 s = scanExtractAux tryM f2 s := by
  intro n
  induction n with
  | zero =>
      intro f1 f2 s h0 _ _
      have : s = [] := List.length_eq_zero.mp (Nat.le_zero.mp h0)
      subst this
      cases f1 with
      | zero => cases f2 with
        | zero => rfl
        | succ f2 => simp [scanExtractAux, try_nil_none hs]
      | succ f1 => cases f2 with
        | zero => simp [scanExtractAux, try_nil_none hs]
        | succ f2 => simp [scanExtractAux, try_nil_none hs]
  | succ n ih =>
      intro f1 f2 s h0 h1 h2
      cases s with
      | nil =>
          cases f1 with
          | zero => cases f2 with
            | zero => rfl
            | succ f2 => simp [scanExtractAux, try_nil_none hs]
          | succ f1 => cases f2 with
            | zero => simp [scanExtractAux, try_nil_none hs]
            | succ f2 => simp [scanExtractAux, try_nil_none hs]
      | cons c cs =>
          simp only [List.length_cons] at h0 h1 h2
          obtain ⟨g1, rfl⟩ : ∃ g1, f1 = g1 + 1 := ⟨f1 - 1, by omega⟩
          obtain ⟨g2, rfl⟩ : ∃ g2, f2 = g2 + 1 := ⟨f2 - 1, by omega⟩
          rw [scanExtractAux, scanExtractAux]
          cases hm : tryM (c :: cs) with
          | some v =>
              obtain ⟨m, cap, rest⟩ := v
              obtain ⟨he, hne⟩ := hs _ m cap rest hm
              have hlr : rest.length < cs.length + 1 := by
                have := congrArg List.length he
                rw [List.length_append, List.length_cons] at this
                cases m with
                | nil => exact absurd rfl hne
                | cons _ _ =>
                    rw [List.length_cons] at this
                    omega
              simp only []
              rw [ih g1 g2 rest (by omega) (by omega) (by omega)]
          | none =>
              simp only []
              rw [ih g1 g2 cs (by omega) (by omega) (by omega)]

theorem scanExtractAux_eq_scanExtract {κ : Type} {tryM : List Char → MRes κ} (hs : MSound tryM)
    {fuel : Nat} {s : List Char} (h : s.length ≤ fuel) :
    scanExtractAux tryM fuel s = scanExtract tryM s :=
  scanExtractAux_congr hs s.length fuel s.length s le_rfl h le_rfl

theorem scanExtract_nil {κ : Type} {tryM : List Char → MRes κ} : scanExtract tryM [] = [] := rfl

theorem scanExtract_match {κ : Type} {tryM : List Char → MRes κ} (hs : MSound tryM)
    {s m : List Char} {cap : κ} {rest : List Char} (hm : tryM s = some (m, cap, rest)) :
    scanExtract tryM s = cap :: scanExtract tryM rest := by
  obtain ⟨he, hne⟩ := hs s m cap rest hm
  cases s with
  | nil => exact absurd (List.append_eq_nil.mp he.symm).1 hne
  | cons c cs =>
      have hrest : rest.length ≤ cs.length := by
        have := congrArg List.length he
        rw [List.length_cons, List.length_append] at this
        cases m with
        | nil => exact absurd rfl hne
        | cons _ _ =>
            rw [List.length_cons] at this
            omega
      rw [scanExtract, List.length_cons, scanExtractAux, hm]
      simp only []
      rw [scanExtractAux_eq_scanExtract hs hrest]

theorem scanExtract_nomatch {κ : Type} {tryM : List Char → MRes κ} (hs : MSound tryM)
    {c : Char} {cs : List Char} (hm : tryM (c :: cs) = none) :
    scanExtract tryM (c :: cs) = scanExtract tryM cs := by
  rw [scanExtract, List.length_cons, scanExtractAux, hm]
  rw [scanExtractAux_eq_scanExtract hs le_rfl]

/-! ## Soundness of the matchers -/

theorem append_ne_nil_left {l r : List Char} (h : l ≠ []) : l ++ r ≠ [] := by
  intro hc
  exact h (List.append_eq_nil.mp hc).1

theorem tagOpen_ne_nil : tagOpen ≠ [] := by decide

theorem rootAttr_ne_nil : rootAttr ≠ [] := by decide

theorem needle_ne_nil : needle ≠ [] := by decide

theorem tryP1_sound : MSound tryP1 := by
  intro s m cap rest h
  simp only [tryP1, Option.bind_eq_bind, Option.bind_eq_some, Option.pure_def,
    Option.some.injEq, Prod.mk.injEq] at h
  obtain ⟨r1, h1, ⟨w, r2⟩, h2, r3, h3, ⟨cap2, r4⟩, h4, r5, h5, r7, h7, hm, hcap, hrest⟩ := h
  simp only [] at h3 h5 hm hcap
  refine ⟨?_, by rw [← hm]; exact append_ne_nil_left (append_ne_nil_left
    (append_ne_nil_left (append_ne_nil_left (append_ne_nil_left
      (append_ne_nil_left tagOpen_ne_nil))))) ⟩
  rw [← hm, ← hrest, lit_sound h1, (many1_sound h2).1, lit_sound h3, (many1_sound h4).1,
    lit_sound h5]
  conv_lhs => rw [← List.takeWhile_append_dropWhile isWS r5]
  rw [lit_sound h7, hcap]
  simp [List.append_assoc]

theorem tryP2_sound : MSound tryP2 := by
  intro s m cap rest h
  simp only [tryP2, Option.bind_eq_bind, Option.bind_eq_some, Option.pure_def,
    Option.some.injEq, Prod.mk.injEq] at h
  obtain ⟨r1, h1, ⟨w, r2⟩, h2, r3, h3, ⟨cap2, r4⟩, h4, r5, h5, hm, hcap, hrest⟩ := h
  simp only [] at h3 h5 hm hcap
  refine ⟨?_, by rw [← hm]; exact append_ne_nil_left (append_ne_nil_left
    (append_ne_nil_left (append_ne_nil_left tagOpen_ne_nil)))⟩
  rw [← hm, ← hrest, lit_sound h1, (many1_sound h2).1, lit_sound h3, (many1_sound h4).1,
    lit_sound h5, hcap]
  simp [List.append_assoc]

theorem tryP3_sound : MSound tryP3 := by
  intro s m cap rest h
  simp only [tryP3, Option.bind_eq_bind, Option.bind_eq_some, Option.pure_def,
    Option.some.injEq, Prod.mk.injEq] at h
  obtain ⟨r1, h1, ⟨w, r2⟩, h2, r3, h3, ⟨cap2, r4⟩, h4, r5, h5, r7, h7, ⟨content, r8⟩, h8,
    hm, hcap, hrest⟩ := h
  simp only [] at h3 h5 hm hcap hrest
  refine ⟨?_, by rw [← hm]; exact append_ne_nil_left (append_ne_nil_left
    (append_ne_nil_left (append_ne_nil_left (append_ne_nil_left (append_ne_nil_left
      (append_ne_nil_left (append_ne_nil_left tagOpen_ne_nil)))))))⟩
  rw [← hm, ← hrest, lit_sound h1, (many1_sound h2).1, lit_sound h3, (many1_sound h4).1,
    lit_sound h5]
  conv_lhs => rw [← List.takeWhile_append_dropWhile notGt r5]
  rw [lit_sound h7, (lazyUpto_sound h8).1, hcap]
  simp [List.append_assoc]

theorem tryP4Tail_sound {rest m cap r : List Char} (h : tryP4Tail rest = some (m, cap, r)) :
    rest = m ++ r ∧ m ≠ [] := by
  simp only [tryP4Tail, Option.bind_eq_bind, Option.bind_eq_some, Option.pure_def,
    Option.some.injEq, Prod.mk.injEq] at h
  obtain ⟨r2, h2, ⟨cap2, r3⟩, h3, r4, h4, r6, h6, hm, hcap, hrest⟩ := h
  simp only [] at h4 hm hcap
  refine ⟨?_, by rw [← hm]; exact append_ne_nil_left (append_ne_nil_left
    (append_ne_nil_left (append_ne_nil_left rootAttr_ne_nil)))⟩
  rw [← hm, ← hrest, lit_sound h2, (many1_sound h3).1, lit_sound h4]
  conv_lhs => rw [← List.takeWhile_append_dropWhile notGt r4]
  rw [lit_sound h6, hcap]
  simp [List.append_assoc]

theorem tryP4Go_sound {t : List Char} : ∀ {j : Nat} {m cap r : List Char},
    tryP4Go t j = some (m, cap, r) → t = m ++ r ∧ m ≠ [] := by
  intro j
  induction j with
  | zero => intro m cap r h; exact absurd h (by simp [tryP4Go])
  | succ j ih =>
      intro m cap r h
      rw [tryP4Go] at h
      cases ht : tryP4Tail (t.drop (j + 1)) with
      | some v =>
          obtain ⟨m2, cap2, r2⟩ := v
          rw [ht] at h
          simp only [Option.some.injEq, Prod.mk.injEq] at h
          obtain ⟨hm, hcap, hr⟩ := h
          obtain ⟨he, hne⟩ := tryP4Tail_sound ht
          constructor
          · rw [← hm, ← hr, List.append_assoc, ← he]
            exact (List.take_append_drop (j + 1) t).symm
          · rw [← hm]
            intro hc
            exact hne (List.append_eq_nil.mp hc).2
      | none =>
          rw [ht] at h
          simp only [] at h
          exact ih h

theorem tryP4_sound : MSound tryP4 := by
  intro s m cap rest h
  simp only [tryP4, Option.bind_eq_bind, Option.bind_eq_some] at h
  obtain ⟨r1, h1, h⟩ := h
  cases hg : tryP4Go r1 ((r1.takeWhile notGt).length) with
  | none => rw [hg] at h; exact absurd h (by simp)
  | some v =>
      obtain ⟨m2, cap2, r⟩ := v
      rw [hg] at h
      simp only [Option.some.injEq, Prod.mk.injEq] at h
      obtain ⟨hm, hcap, hrest⟩ := h
      obtain ⟨he, hne⟩ := tryP4Go_sound hg
      refine ⟨?_, by rw [← hm]; exact append_ne_nil_left tagOpen_ne_nil⟩
      rw [← hm, ← hrest, lit_sound h1, he, List.append_assoc]

theorem tryPB_sound : MSound tryPB := by
  intro s m cap rest h
  simp only [tryPB, Option.bind_eq_bind, Option.bind_eq_some] at h
  obtain ⟨r1, h1, r3, h3, h⟩ := h
  split at h
  · simp only [Option.some.injEq, Prod.mk.injEq] at h
    obtain ⟨hm, hcap, hrest⟩ := h
    refine ⟨?_, by rw [← hm]; exact append_ne_nil_left (append_ne_nil_left
      rootAttr_ne_nil)⟩
    rw [← hm, ← hrest, lit_sound h1]
    conv_lhs => rw [← List.takeWhile_append_dropWhile notQuote r1]
    rw [lit_sound h3]
    simp [List.append_assoc]
  · exact absurd h (by simp)

theorem tryPC_sound : MSound tryPC := by
  intro s m cap rest h
  cases s with
  | nil => exact absurd h (by simp [tryPC])
  | cons c1 r1 =>
      rw [tryPC] at h
      split at h
      · cases hl : lit needle r1 with
        | none => rw [hl] at h; exact absurd h (by simp)
        | some r2 =>
            rw [hl] at h
            cases r2 with
            | nil => exact absurd h (by simp)
            | cons c2 r3 =>
                simp only [] at h
                split at h
                · simp only [Option.some.injEq, Prod.mk.injEq] at h
                  obtain ⟨hm, hcap, hrest⟩ := h
                  refine ⟨?_, by rw [← hm]; simp⟩
                  rw [← hm, ← hrest, lit_sound hl]
                  simp
                · exact absurd h (by simp)
      · exact absurd h (by simp)

/-! ## Properties of literal global replacement -/

theorem replaceLitAux_congr {ndl repl : List Char} (hndl : ndl ≠ []) :
    ∀ n f1 f2 s, s.length ≤ n → s.length ≤ f1 → s.length ≤ f2 →
      replaceLitAux ndl repl f1 s = replaceLitAux ndl repl f2 s := by
  have hnpos : 1 ≤ ndl.length := by
    cases ndl with
    | nil => exact absurd rfl hndl
    | cons _ _ => simp
  intro n
  induction n with
  | zero =>
      intro f1 f2 s h0 _ _
      have : s = [] := List.length_eq_zero.mp (Nat.le_zero.mp h0)
      subst this
      cases f1 with
      | zero => cases f2 with
        | zero => rfl
        | succ f2 => rfl
      | succ f1 => cases f2 with
        | zero => rfl
        | succ f2 => rfl
  | succ n ih =>
      intro f1 f2 s h0 h1 h2
      cases s with
      | nil =>
          cases f1 with
          | zero => cases f2 with
            | zero => rfl
            | succ f2 => rfl
          | succ f1 => cases f2 with
            | zero => rfl
            | succ f2 => rfl
      | cons c cs =>
          simp only [List.length_cons] at h0 h1 h2
          obtain ⟨g1, rfl⟩ : ∃ g1, f1 = g1 + 1 := ⟨f1 - 1, by omega⟩
          obtain ⟨g2, rfl⟩ : ∃ g2, f2 = g2 + 1 := ⟨f2 - 1, by omega⟩
          rw [replaceLitAux, replaceLitAux]
          by_cases hp : ndl.isPrefixOf (c :: cs) = true
          · rw [if_pos hp, if_pos hp]
            have hd : ((c :: cs).drop ndl.length).length ≤ cs.length := by
              rw [List.length_drop, List.length_cons]
              omega
            rw [ih g1 g2 _ (by omega) (by omega) (by omega)]
          · rw [if_neg hp, if_neg hp]
            rw [ih g1 g2 cs (by omega) (by omega) (by omega)]

theorem replaceLitAux_eq {ndl repl : List Char} (hndl : ndl ≠ []) {fuel : Nat}
    {s : List Char} (h : s.length ≤ fuel) :
    replaceLitAux ndl repl fuel s = replaceLit ndl repl s :=
  replaceLitAux_congr hndl s.length fuel s.length s le_rfl h le_rfl

theorem replaceLit_nil {ndl repl : List Char} : replaceLit ndl repl [] = [] := rfl

theorem replaceLit_pos {ndl repl : List Char} (hndl : ndl ≠ []) (t : List Char) :
    replaceLit ndl repl (ndl ++ t) = repl ++ replaceLit ndl repl t := by
  cases hn : ndl with
  | nil => exact absurd hn hndl
  | cons d ds =>
      rw [← hn]
      have hcons : ndl ++ t = d :: (ds ++ t) := by rw [hn, List.cons_append]
      have hlen : (ndl ++ t).length = (ds ++ t).length + 1 := by
        rw [hcons, List.length_cons]
      rw [replaceLit, hlen, hcons, replaceLitAux, ← hcons,
        if_pos (List.isPrefixOf_iff_prefix.mpr (List.prefix_append ndl t)),
        List.drop_left]
      rw [replaceLitAux_eq hndl (by
        simp [List.length_append])]

theorem replaceLit_neg {ndl repl : List Char} (hndl : ndl ≠ []) {c : Char} {cs : List Char}
    (h : ¬ ndl <+: (c :: cs)) :
    replaceLit ndl repl (c :: cs) = c :: replaceLit ndl repl cs := by
  rw [replaceLit, List.length_cons, replaceLitAux,
    if_neg (fun hc => h (List.isPrefixOf_iff_prefix.mp hc))]
  rw [replaceLitAux_eq hndl le_rfl]

/-- Occurrence as a prefix at some offset. -/
theorem infix_iff_prefix_drop {ndl s : List Char} :
    ndl <:+: s ↔ ∃ i, ndl <+: s.drop i := by
  constructor
  · intro h
    obtain ⟨t, hpre, hsuf⟩ := List.infix_iff_prefix_suffix.mp h
    refine ⟨s.length - t.length, ?_⟩
    rw [← List.suffix_iff_eq_drop.mp hsuf]
    exact hpre
  · rintro ⟨i, h⟩
    exact h.isInfix.trans (List.drop_suffix i s).isInfix

/-- On text free of the pattern, literal replacement is the identity. -/
theorem replaceLit_id {ndl repl : List Char} (hndl : ndl ≠ []) :
    ∀ s, ¬ ndl <:+: s → replaceLit ndl repl s = s := by
  intro s
  induction s with
  | nil => intro _; rfl
  | cons c cs ih =>
      intro h
      have hp : ¬ ndl <+: (c :: cs) := fun hc => h hc.isInfix
      rw [replaceLit_neg hndl hp, ih (fun hc => h (List.infix_cons_iff.mpr (Or.inr hc)))]

theorem infix_append_or {ndl A X : List Char} (hndl : ndl ≠ []) (h : ndl <:+: A ++ X) :
    ndl <:+: X ∨ ∃ c ∈ A, c ∈ ndl := by
  induction A with
  | nil => exact Or.inl (by simpa using h)
  | cons a A' ih =>
      rw [List.cons_append, List.infix_cons_iff] at h
      rcases h with h | h
      · cases hn : ndl with
        | nil => exact absurd hn hndl
        | cons d ds =>
            rw [hn, List.cons_prefix_cons] at h
            exact Or.inr ⟨a, by simp, by rw [← h.1]; simp⟩
      · rcases ih h with h | ⟨c, hc1, hc2⟩
        · exact Or.inl h
        · exact Or.inr ⟨c, by simp [hc1], hc2⟩

/-- If a proper tail of the pattern is a prefix of the replaced text, it was
already a prefix of the original (character-disjoint replacement, so the
replacement block can never contribute). -/
theorem replaceLit_tail_prefix {ndl repl : List Char} (hndl : ndl ≠ [])
    (hrepl : repl ≠ []) (hdisj : ∀ c ∈ repl, c ∉ ndl) :
    ∀ s k, k < ndl.length → ndl.drop k <+: replaceLit ndl repl s → ndl.drop k <+: s := by
  intro s
  induction s with
  | nil =>
      intro k hk h
      rw [replaceLit_nil, List.prefix_nil] at h
      have := congrArg List.length h
      rw [List.length_drop] at this
      simp at this
      omega
  | cons c cs ih =>
      intro k hk h
      by_cases hp : ndl <+: (c :: cs)
      · obtain ⟨t, ht⟩ := hp
        rw [← ht, replaceLit_pos hndl t] at h
        cases hr : repl with
        | nil => exact absurd hr hrepl
        | cons e es =>
            exfalso
            rw [List.drop_eq_getElem_cons hk, hr, List.cons_append,
              List.cons_prefix_cons] at h
            exact hdisj e (by rw [hr]; simp) (h.1 ▸ List.getElem_mem hk)
      · rw [replaceLit_neg hndl hp] at h
        rw [List.drop_eq_getElem_cons hk, List.cons_prefix_cons] at h
        obtain ⟨hc, h2⟩ := h
        rw [List.drop_eq_getElem_cons hk, hc, List.cons_prefix_cons]
        refine ⟨rfl, ?_⟩
        by_cases hk1 : k + 1 < ndl.length
        · exact ih (k + 1) hk1 h2
        · have : ndl.drop (k + 1) = [] := by
            apply List.drop_eq_nil_of_le
            omega
          rw [this]
          exact List.nil_prefix

/-- After replacing every occurrence of the pattern by a nonempty,
character-disjoint replacement, no occurrence of the pattern remains. -/
theorem replaceLit_no_occurrence {ndl repl : List Char} (hndl : ndl ≠ [])
    (hrepl : repl ≠ []) (hdisj : ∀ c ∈ repl, c ∉ ndl) :
    ∀ s, ¬ ndl <:+: replaceLit ndl repl s := by
  have main : ∀ n s, s.length ≤ n → ¬ ndl <:+: replaceLit ndl repl s := by
    intro n
    induction n with
    | zero =>
        intro s h0 hc
        have : s = [] := List.length_eq_zero.mp (Nat.le_zero.mp h0)
        subst this
        rw [replaceLit_nil, List.infix_nil] at hc
        exact hndl hc
    | succ n ih =>
        intro s h0 hc
        by_cases hp : ndl <+: s
        · obtain ⟨t, ht⟩ := hp
          rw [← ht, replaceLit_pos hndl t] at hc
          rcases infix_append_or hndl hc with hc | ⟨c, hc1, hc2⟩
          · have hnpos : 1 ≤ ndl.length := by
              cases ndl with
              | nil => exact absurd rfl hndl
              | cons _ _ => simp
            have ht' : t.length ≤ n := by
              have := congrArg List.length ht
              rw [List.length_append] at this
              omega
            exact ih t ht' hc
          · exact hdisj c hc1 hc2
        · cases s with
          | nil =>
              rw [replaceLit_nil, List.infix_nil] at hc
              exact hndl hc
          | cons c cs =>
              rw [replaceLit_neg hndl hp] at hc
              rcases List.infix_cons_iff.mp hc with hc | hc
              · cases hn : ndl with
                | nil => exact hndl hn
                | cons d ds =>
                    rw [hn, List.cons_prefix_cons] at hc
                    obtain ⟨hd, hds⟩ := hc
                    by_cases hds_nil : ds = []
                    · apply hp
                      rw [hn, hds_nil, hd, List.cons_prefix_cons]
                      exact ⟨rfl, List.nil_prefix⟩
                    · have hlt : 1 < ndl.length := by
                        rw [hn, List.length_cons]
                        cases ds with
                        | nil => exact absurd rfl hds_nil
                        | cons _ _ => simp
                      have hds' : ndl.drop 1 <+: replaceLit ndl repl cs := by
                        rw [hn]
                        simpa using hds
                      have := replaceLit_tail_prefix hndl hrepl hdisj cs 1 hlt hds'
                      apply hp
                      rw [hn, hd, List.cons_prefix_cons]
                      refine ⟨rfl, ?_⟩
                      rw [hn] at this
                      simpa using this
              · simp only [List.length_cons] at h0
                exact ih cs (by omega) hc
  intro s
  exact main s.length s le_rfl

/-! ## Identity of the rewrite passes on placeholder-free text -/

theorem tryP1_cap_occ {s m cap rest : List Char} (h : tryP1 s = some (m, cap, rest)) :
    cap <:+: m := by
  simp only [tryP1, Option.bind_eq_bind, Option.bind_eq_some, Option.pure_def,
    Option.some.injEq, Prod.mk.injEq] at h
  obtain ⟨r1, h1, ⟨w, r2⟩, h2, r3, h3, ⟨cap2, r4⟩, h4, r5, h5, r7, h7, hm, hcap, hrest⟩ := h
  simp only [] at hm hcap
  rw [← hm, ← hcap]
  exact ⟨tagOpen ++ w ++ rootAttr, ['"'] ++ List.takeWhile isWS r5 ++ ("/>".data),
    by simp [List.append_assoc]⟩

theorem tryP2_cap_occ {s m cap rest : List Char} (h : tryP2 s = some (m, cap, rest)) :
    cap <:+: m := by
  simp only [tryP2, Option.bind_eq_bind, Option.bind_eq_some, Option.pure_def,
    Option.some.injEq, Prod.mk.injEq] at h
  obtain ⟨r1, h1, ⟨w, r2⟩, h2, r3, h3, ⟨cap2, r4⟩, h4, r5, h5, hm, hcap, hrest⟩ := h
  simp only [] at hm hcap
  rw [← hm, ← hcap]
  exact ⟨tagOpen ++ w ++ rootAttr, "\"></filter>".data, by simp [List.append_assoc]⟩

theorem tryP3_cap_occ {s m cap rest : List Char} (h : tryP3 s = some (m, cap, rest)) :
    cap <:+: m := by
  simp only [tryP3, Option.bind_eq_bind, Option.bind_eq_some, Option.pure_def,
    Option.some.injEq, Prod.mk.injEq] at h
  obtain ⟨r1, h1, ⟨w, r2⟩, h2, r3, h3, ⟨cap2, r4⟩, h4, r5, h5, r7, h7, ⟨content, r8⟩, h8,
    hm, hcap, hrest⟩ := h
  simp only [] at hm hcap
  rw [← hm, ← hcap]
  exact ⟨tagOpen ++ w ++ rootAttr,
    ['"'] ++ List.takeWhile notGt r5 ++ ['>'] ++ content ++ closeTag,
    by simp [List.append_assoc]⟩

theorem tryPB_needle_occ {s m cap rest : List Char} (h : tryPB s = some (m, cap, rest)) :
    needle <:+: m := by
  simp only [tryPB, Option.bind_eq_bind, Option.bind_eq_some] at h
  obtain ⟨r1, h1, r3, h3, h⟩ := h
  split at h
  · next hsub =>
      simp only [Option.some.injEq, Prod.mk.injEq] at h
      obtain ⟨hm, hcap, hrest⟩ := h
      have hrun : needle <:+: List.takeWhile notQuote r1 := (isSub_iff _ _).mp hsub
      rw [← hm]
      exact hrun.trans ⟨rootAttr, ['"'], rfl⟩
  · exact absurd h (by simp)

theorem tryPC_needle_occ {s m : List Char} {cap : Char × Char} {rest : List Char}
    (h : tryPC s = some (m, cap, rest)) : needle <:+: m := by
  cases s with
  | nil => exact absurd h (by simp [tryPC])
  | cons c1 r1 =>
      rw [tryPC] at h
      split at h
      · cases hl : lit needle r1 with
        | none => rw [hl] at h; exact absurd h (by simp)
        | some r2 =>
            rw [hl] at h
            cases r2 with
            | nil => exact absurd h (by simp)
            | cons c2 r3 =>
                simp only [] at h
                split at h
                · simp only [Option.some.injEq, Prod.mk.injEq] at h
                  obtain ⟨hm, hcap, hrest⟩ := h
                  rw [← hm]
                  exact ⟨[c1], [c2], by simp⟩
                · exact absurd h (by simp)
      · exact absurd h (by simp)

/-- If every match whose text is placeholder-free is returned unchanged by the
callback, the scan is the identity on placeholder-free text. -/
theorem scanRepl_id {κ : Type} {tryM : List Char → MRes κ} {cb : List Char → κ → List Char}
    (hs : MSound tryM)
    (hcb : ∀ s m cap rest, tryM s = some (m, cap, rest) → ¬ needle <:+: m → cb m cap = m) :
    ∀ t, ¬ needle <:+: t → scanRepl tryM cb t = t := by
  have main : ∀ n t, t.length ≤ n → ¬ needle <:+: t → scanRepl tryM cb t = t := by
    intro n
    induction n with
    | zero =>
        intro t h0 _
        have : t = [] := List.length_eq_zero.mp (Nat.le_zero.mp h0)
        subst this
        exact scanRepl_nil
    | succ n ih =>
        intro t h0 hfree
        cases hm : tryM t with
        | some v =>
            obtain ⟨m, cap, rest⟩ := v
            obtain ⟨he, hne⟩ := hs _ _ _ _ hm
            have hmi : m <:+: t := ⟨[], rest, by simp [he]⟩
            have hri : rest <:+: t := ⟨m, [], by simp [he]⟩
            have hrl : rest.length ≤ n := by
              have := congrArg List.length he
              rw [List.length_append] at this
              cases m with
              | nil => exact absurd rfl hne
              | cons _ _ =>
                  rw [List.length_cons] at this
                  omega
            rw [scanRepl_match hs hm, hcb _ _ _ _ hm (fun hc => hfree (hc.trans hmi)),
              ih rest hrl (fun hc => hfree (hc.trans hri)), he]
        | none =>
            cases t with
            | nil => exact scanRepl_nil
            | cons c cs =>
                rw [scanRepl_nomatch hs hm]
                rw [ih cs (by simp only [List.length_cons] at h0; omega)
                  (fun hc => hfree (List.infix_cons_iff.mpr (Or.inr hc)))]
  intro t hfree
  exact main t.length t le_rfl hfree

theorem convCb_id {repo m cap : List Char} (hcap : cap <:+: m)
    (hfree : ¬ needle <:+: m) : convCb repo m cap = m := by
  rw [convCb, if_neg]
  intro hc
  exact hfree (((isSub_iff _ _).mp hc).trans hcap)

theorem conv_pass1_id {repo : List Char} {t : List Char} (hfree : ¬ needle <:+: t) :
    scanRepl tryP1 (convCb repo) t = t :=
  scanRepl_id tryP1_sound
    (fun _ _ _ _ h hf => convCb_id (tryP1_cap_occ h) hf) t hfree

theorem conv_pass2_id {repo : List Char} {t : List Char} (hfree : ¬ needle <:+: t) :
    scanRepl tryP2 (convCb repo) t = t :=
  scanRepl_id tryP2_sound
    (fun _ _ _ _ h hf => convCb_id (tryP2_cap_occ h) hf) t hfree

theorem conv_pass3_id {repo : List Char} {t : List Char} (hfree : ¬ needle <:+: t) :
    scanRepl tryP3 (convCb repo) t = t :=
  scanRepl_id tryP3_sound
    (fun _ _ _ _ h hf => convCb_id (tryP3_cap_occ h) hf) t hfree

theorem comb_passB_id {repo : List Char} {t : List Char} (hfree : ¬ needle <:+: t) :
    scanRepl tryPB (combCbB repo) t = t :=
  scanRepl_id tryPB_sound
    (fun _ _ _ _ h hf => absurd (tryPB_needle_occ h) hf) t hfree

theorem comb_passC_id {repo : List Char} {t : List Char} (hfree : ¬ needle <:+: t) :
    scanRepl tryPC (combCbC repo) t = t :=
  scanRepl_id tryPC_sound
    (fun _ _ _ _ h hf => absurd (tryPC_needle_occ h) hf) t hfree

theorem conv_id {t repo : List Char} (hfree : ¬ needle <:+: t) :
    convertBoilerplatePaths_conv t repo = t := by
  rw [convertBoilerplatePaths_conv, conv_pass1_id hfree, conv_pass2_id hfree,
    conv_pass3_id hfree]

theorem comb_id {t repo : List Char} (hfree : ¬ needle <:+: t) :
    convertBoilerplatePaths_comb t repo = t := by
  rw [convertBoilerplatePaths_comb, replaceNeedle, replaceLit_id needle_ne_nil t hfree,
    comb_passB_id hfree, comb_passC_id hfree]

/-! ## Claims C5 and C10: the rewrite operation on whole texts -/

/-- C5: on manifest text free of the placeholder both rewrite implementations
are the identity; consequently, as soon as no placeholder substring remains
after the first application, rewriting twice equals rewriting once. -/
theorem C5_rewrite_idempotent (t repo : List Char) :
    (¬ needle <:+: t →
      convertBoilerplatePaths_conv t repo = t ∧ convertBoilerplatePaths_comb t repo = t) ∧
    (¬ needle <:+: convertBoilerplatePaths_conv t repo →
      convertBoilerplatePaths_conv (convertBoilerplatePaths_conv t repo) repo =
        convertBoilerplatePaths_conv t repo) ∧
    (¬ needle <:+: convertBoilerplatePaths_comb t repo →
      convertBoilerplatePaths_comb (convertBoilerplatePaths_comb t repo) repo =
        convertBoilerplatePaths_comb t repo) :=
  ⟨fun h => ⟨conv_id h, comb_id h⟩, fun h => conv_id h, fun h => comb_id h⟩

theorem C5_rewrite_idempotent_witness :
    ¬ needle <:+: ("<filter root=\"/content/acme/x\"/>".data) ∧
    convertBoilerplatePaths_conv ("<filter root=\"/content/acme/x\"/>".data) ("acme".data) =
      ("<filter root=\"/content/acme/x\"/>".data) ∧
    convertBoilerplatePaths_comb ("<filter root=\"/content/acme/x\"/>".data) ("acme".data) =
      ("<filter root=\"/content/acme/x\"/>".data) :=
  have h : ¬ needle <:+: ("<filter root=\"/content/acme/x\"/>".data) := by decide
  ⟨h, ((C5_rewrite_idempotent _ _).1 h).1, ((C5_rewrite_idempotent _ _).1 h).2⟩

theorem prefix_append_split {t X Y : List Char} (h : t <+: X ++ Y) :
    t <+: X ∨ (X <+: t ∧ t.drop X.length <+: Y) := by
  induction X generalizing t with
  | nil => exact Or.inr ⟨List.nil_prefix, by simpa using h⟩
  | cons x X' ih =>
      cases t with
      | nil => exact Or.inl List.nil_prefix
      | cons a t' =>
          rw [List.cons_append, List.cons_prefix_cons] at h
          obtain ⟨ha, ht'⟩ := h
          rcases ih ht' with h2 | ⟨h2, h3⟩
          · exact Or.inl (List.cons_prefix_cons.mpr ⟨ha, h2⟩)
          · refine Or.inr ⟨List.cons_prefix_cons.mpr ⟨ha.symm, h2⟩, ?_⟩
            simpa using h3

theorem suffix_cons_of_suffix {t l : List Char} (x : Char) (h : t <:+ l) :
    t <:+ x :: l := by
  obtain ⟨w, hw⟩ := h
  exact ⟨x :: w, by rw [← hw, List.cons_append]⟩

/-- An occurrence inside an append either lies in one part or straddles the
boundary. -/
theorem infix_append_cases {nd X Y : List Char} (h : nd <:+: X ++ Y) :
    nd <:+: X ∨ nd <:+: Y ∨
      ∃ k, 0 < k ∧ k < nd.length ∧ nd.take k <:+ X ∧ nd.drop k <+: Y := by
  induction X with
  | nil => exact Or.inr (Or.inl (by simpa using h))
  | cons x X' ih =>
      rw [List.cons_append, List.infix_cons_iff] at h
      rcases h with h | h
      · rcases @prefix_append_split _ (x :: X') Y (by simpa using h)
          with h2 | ⟨h2, h3⟩
        · exact Or.inl h2.isInfix
        · obtain ⟨w, hw⟩ := h2
          by_cases hwn : w = []
          · left
            rw [hwn, List.append_nil] at hw
            rw [← hw]
          · right; right
            refine ⟨(x :: X').length, by simp, ?_, ?_, by simpa using h3⟩
            · rw [← hw, List.length_append]
              cases w with
              | nil => exact absurd rfl hwn
              | cons _ _ => simp
            · rw [← hw, List.take_left]
      · rcases ih h with h | h | ⟨k, hk0, hkl, hsuf, hpre⟩
        · exact Or.inl (List.infix_cons_iff.mpr (Or.inr h))
        · exact Or.inr (Or.inl h)
        · exact Or.inr (Or.inr ⟨k, hk0, hkl, suffix_cons_of_suffix x hsuf, hpre⟩)

theorem mem_of_occ {nd Y : List Char} {x : Char} (h : nd <:+: Y) (hx : x ∈ nd) : x ∈ Y :=
  h.sublist.subset hx

theorem single_suffix_mem {x : Char} {Y : List Char} (h : [x] <:+ Y) : x ∈ Y := by
  obtain ⟨w, hw⟩ := h
  rw [← hw]
  simp

theorem drop_append_mid {A Y : List Char} {i : Nat} (h : A.length ≤ i) :
    (A ++ Y).drop i = Y.drop (i - A.length) := by
  obtain ⟨k, hk⟩ : ∃ k, i = A.length + k := ⟨i - A.length, by omega⟩
  subst hk
  rw [List.drop_append]
  congr 1
  omega

theorem rootAttr_eq : rootAttr = 'r' :: ("oot=\"".data) := rfl

theorem tagOpen_eq : tagOpen = '<' :: ("filter".data) := rfl

/-- `root="` can never start inside a quote-free, equals-free value followed
by its closing quote. -/
theorem rootAttr_not_start {V Z : List Char}
    (hV : ∀ ch ∈ V, ch ≠ '=' ∧ ch ≠ '\"') :
    ¬ rootAttr <+: V ++ '\"' :: Z := by
  intro h
  have hra : rootAttr = 'r' :: 'o' :: 'o' :: 't' :: '=' :: '\"' :: [] := rfl
  rw [hra] at h
  cases V with
  | nil =>
      rw [List.nil_append, List.cons_prefix_cons] at h
      exact absurd h.1 (by decide)
  | cons v0 V1 =>
      rw [List.cons_append, List.cons_prefix_cons] at h
      obtain ⟨-, h⟩ := h
      cases V1 with
      | nil =>
          rw [List.nil_append, List.cons_prefix_cons] at h
          exact absurd h.1 (by decide)
      | cons v1 V2 =>
          rw [List.cons_append, List.cons_prefix_cons] at h
          obtain ⟨-, h⟩ := h
          cases V2 with
          | nil =>
              rw [List.nil_append, List.cons_prefix_cons] at h
              exact absurd h.1 (by decide)
          | cons v2 V3 =>
              rw [List.cons_append, List.cons_prefix_cons] at h
              obtain ⟨-, h⟩ := h
              cases V3 with
              | nil =>
                  rw [List.nil_append, List.cons_prefix_cons] at h
                  exact absurd h.1 (by decide)
              | cons v3 V4 =>
                  rw [List.cons_append, List.cons_prefix_cons] at h
                  obtain ⟨-, h⟩ := h
                  cases V4 with
                  | nil =>
                      rw [List.nil_append, List.cons_prefix_cons] at h
                      exact absurd h.1 (by decide)
                  | cons v4 V5 =>
                      rw [List.cons_append, List.cons_prefix_cons] at h
                      exact (hV v4 (by simp)).1 h.1.symm

theorem lit_cons_ne {d c : Char} {l cs : List Char} (h : d ≠ c) :
    lit (d :: l) (c :: cs) = none := by
  rw [lit, if_neg h]

theorem tryP1_head_ne {c : Char} {cs : List Char} (h : c ≠ '<') : tryP1 (c :: cs) = none := by
  simp [tryP1, tagOpen_eq, lit_cons_ne (Ne.symm h)]

theorem tryP2_head_ne {c : Char} {cs : List Char} (h : c ≠ '<') : tryP2 (c :: cs) = none := by
  simp [tryP2, tagOpen_eq, lit_cons_ne (Ne.symm h)]

theorem tryP3_head_ne {c : Char} {cs : List Char} (h : c ≠ '<') : tryP3 (c :: cs) = none := by
  simp [tryP3, tagOpen_eq, lit_cons_ne (Ne.symm h)]

theorem tryP4_head_ne {c : Char} {cs : List Char} (h : c ≠ '<') : tryP4 (c :: cs) = none := by
  simp [tryP4, tagOpen_eq, lit_cons_ne (Ne.symm h)]

theorem tryPB_head_ne {c : Char} {cs : List Char} (h : c ≠ 'r') : tryPB (c :: cs) = none := by
  simp [tryPB, rootAttr_eq, lit_cons_ne (Ne.symm h)]

/-- Characters that can never start a match are copied through unchanged. -/
theorem scanRepl_skip {κ : Type} {tryM : List Char → MRes κ} {cb : List Char → κ → List Char}
    (hs : MSound tryM) (trig : Char)
    (hhead : ∀ c cs, c ≠ trig → tryM (c :: cs) = none) :
    ∀ a b, (∀ c ∈ a, c ≠ trig) → scanRepl tryM cb (a ++ b) = a ++ scanRepl tryM cb b := by
  intro a
  induction a with
  | nil => intro b _; simp
  | cons c a' ih =>
      intro b hc
      rw [List.cons_append, scanRepl_nomatch hs (hhead c _ (hc c (by simp))),
        ih b (fun d hd => hc d (by simp [hd])), List.cons_append]

theorem scanExtract_skip {κ : Type} {tryM : List Char → MRes κ} (hs : MSound tryM)
    (trig : Char) (hhead : ∀ c cs, c ≠ trig → tryM (c :: cs) = none) :
    ∀ a b, (∀ c ∈ a, c ≠ trig) → scanExtract tryM (a ++ b) = scanExtract tryM b := by
  intro a
  induction a with
  | nil => intro b _; simp
  | cons c a' ih =>
      intro b hc
      rw [List.cons_append, scanExtract_nomatch hs (hhead c _ (hc c (by simp))),
        ih b (fun d hd => hc d (by simp [hd]))]

/-- A single non-matching position is copied through (replace scanner). -/
theorem scanRepl_skip_one {κ : Type} {tryM : List Char → MRes κ}
    {cb : List Char → κ → List Char} (hs : MSound tryM) {c : Char} {cs : List Char}
    (h : tryM (c :: cs) = none) :
    scanRepl tryM cb (c :: cs) = c :: scanRepl tryM cb cs :=
  scanRepl_nomatch hs h

/-- The shortest-match scan of `.*?stop`. -/
theorem lazyUpto_exact {stop : List Char} {ok : Char → Bool} (hstop : stop ≠ []) :
    ∀ (a r : List Char), (∀ c ∈ a, ok c = true) →
      (∀ i, i < a.length → ¬ stop <+: (a.drop i ++ stop ++ r)) →
      lazyUpto stop ok (a ++ stop ++ r) = some (a, r) := by
  intro a
  induction a with
  | nil =>
      intro r _ _
      cases hs : stop with
      | nil => exact absurd hs hstop
      | cons d ds =>
          rw [List.nil_append, ← hs]
          cases hsr : stop ++ r with
          | nil =>
              rw [hs] at hsr
              simp at hsr
          | cons e es =>
              rw [lazyUpto, if_pos (List.isPrefixOf_iff_prefix.mpr
                (hsr ▸ List.prefix_append stop r)), ← hsr, List.drop_left]
  | cons c a' ih =>
      intro r hok hnp
      rw [show ((c :: a') ++ stop ++ r : List Char) = c :: (a' ++ stop ++ r) by simp,
        lazyUpto,
        if_neg (fun hc => hnp 0 (by simp)
          (by simpa using List.isPrefixOf_iff_prefix.mp hc)),
        if_pos (hok c (by simp)),
        ih r (fun d hd => hok d (by simp [hd]))
          (fun i hi => by
            have h2 := hnp (i + 1) (by simp only [List.length_cons]; omega)
            simpa using h2)]
      rfl

theorem lineSC_decomp (p rest : List Char) :
    lineSC p ++ rest =
      tagOpen ++ (' ' :: (rootAttr ++ (p ++ ('"' :: ('/' :: ('>' :: rest)))))) := by
  rw [lineSC]
  simp [show ("<filter root=\"".data : List Char) = tagOpen ++ ' ' :: rootAttr from rfl,
    show ("\"/>".data : List Char) = ['"', '/', '>'] from rfl, List.append_assoc,
    show tagOpen = ['<', 'f', 'i', 'l', 't', 'e', 'r'] from rfl,
    show rootAttr = ['r', 'o', 'o', 't', '=', '"'] from rfl]

theorem many1_ws_rootAttr (X : List Char) :
    many1 isWS (' ' :: (rootAttr ++ X)) = some ([' '], rootAttr ++ X) := by
  rw [rootAttr_eq, List.cons_append]
  have := @many1_exact isWS [' '] 'r' (("oot=\"".data) ++ X)
    (by intro c hc; simp at hc; subst hc; rfl) (by simp) (by decide)
  simpa using this

theorem many1_notQuote_exact {P : List Char} (hP : P ≠ []) (hq : ∀ ch ∈ P, ch ≠ '"')
    (T : List Char) : many1 notQuote (P ++ '"' :: T) = some (P, '"' :: T) :=
  @many1_exact notQuote P '"' T (fun c hc => by simp [notQuote, hq c hc]) hP (by decide)

theorem lit_singleton (c : Char) (T : List Char) : lit [c] (c :: T) = some T := by
  rw [lit, if_pos rfl]
  rfl

/-- Pattern 1 consumes a whole self-closing entry and captures its path. -/
theorem tryP1_at_SC {P : List Char} (rest : List Char) (hP : P ≠ [])
    (hq : ∀ ch ∈ P, ch ≠ '"') :
    tryP1 (lineSC P ++ rest) = some (lineSC P, P, rest) := by
  rw [lineSC_decomp]
  simp only [tryP1, lit_append, Option.bind_eq_bind, Option.some_bind,
    many1_ws_rootAttr, many1_notQuote_exact hP hq, lit_singleton,
    show ∀ X : List Char, List.takeWhile isWS ('/' :: X) = [] from fun _ => rfl,
    show ∀ X : List Char, List.dropWhile isWS ('/' :: X) = '/' :: X from fun _ => rfl,
    show ∀ X : List Char, lit ("/>".data) ('/' :: '>' :: X) = some X from fun _ => rfl,
    Option.pure_def]
  rw [lineSC]
  simp [show ("<filter root=\"".data : List Char) = tagOpen ++ ' ' :: rootAttr from rfl,
    show ("\"/>".data : List Char) = ['"', '/', '>'] from rfl, List.append_assoc,
    show tagOpen = ['<', 'f', 'i', 'l', 't', 'e', 'r'] from rfl,
    show rootAttr = ['r', 'o', 'o', 't', '=', '"'] from rfl]

theorem lineEB_decomp (p rest : List Char) :
    lineEB p ++ rest =
      tagOpen ++ (' ' :: (rootAttr ++ (p ++ ('"' :: ('>' :: (closeTag ++ rest)))))) := by
  rw [lineEB]
  simp [show ("<filter root=\"".data : List Char) = tagOpen ++ ' ' :: rootAttr from rfl,
    show ("\"></filter>".data : List Char) = '"' :: '>' :: closeTag from rfl,
    List.append_assoc, show tagOpen = ['<', 'f', 'i', 'l', 't', 'e', 'r'] from rfl,
    show rootAttr = ['r', 'o', 'o', 't', '=', '"'] from rfl,
    show closeTag = ['<', '/', 'f', 'i', 'l', 't', 'e', 'r', '>'] from rfl]

theorem lineCB_decomp (p c rest : List Char) :
    lineCB p c ++ rest =
      tagOpen ++ (' ' :: (rootAttr ++ (p ++ ('"' :: ('>' :: (c ++ (closeTag ++ rest))))))) := by
  rw [lineCB]
  simp [show ("<filter root=\"".data : List Char) = tagOpen ++ ' ' :: rootAttr from rfl,
    show ("\">".data : List Char) = ['"', '>'] from rfl,
    List.append_assoc, show tagOpen = ['<', 'f', 'i', 'l', 't', 'e', 'r'] from rfl,
    show rootAttr = ['r', 'o', 'o', 't', '=', '"'] from rfl]

theorem lineXA_decomp (p rest : List Char) :
    lineXA p ++ rest =
      tagOpen ++ (' ' :: ('m' :: (("ode=\"edit\" ".data) ++
        (rootAttr ++ (p ++ ('"' :: ('/' :: ('>' :: rest)))))))) := by
  rw [lineXA]
  simp [show ("<filter mode=\"edit\" root=\"".data : List Char) =
      tagOpen ++ ' ' :: 'm' :: (("ode=\"edit\" ".data) ++ rootAttr) from rfl,
    show ("\"/>".data : List Char) = ['"', '/', '>'] from rfl,
    List.append_assoc, show tagOpen = ['<', 'f', 'i', 'l', 't', 'e', 'r'] from rfl,
    show rootAttr = ['r', 'o', 'o', 't', '=', '"'] from rfl,
    show ("ode=\"edit\" ".data : List Char) =
      ['o', 'd', 'e', '=', '"', 'e', 'd', 'i', 't', '"', ' '] from rfl]

theorem many1_ws_m (X : List Char) :
    many1 isWS (' ' :: ('m' :: X)) = some ([' '], 'm' :: X) := by
  have := @many1_exact isWS [' '] 'm' X
    (by intro c hc; simp at hc; subst hc; rfl) (by simp) (by decide)
  simpa using this

/-- Patterns 1, 2 and 3 all require `root` directly after `<filter `, so none
of them matches an entry carrying an extra attribute first. -/
theorem tryP1_none_XA {P rest : List Char} :
    tryP1 (lineXA P ++ rest) = none := by
  rw [lineXA_decomp]
  simp only [tryP1, lit_append, Option.bind_eq_bind, Option.some_bind, many1_ws_m,
    show ∀ X : List Char, lit rootAttr ('m' :: X) = none from fun _ => rfl,
    Option.none_bind]

theorem tryP2_none_XA {P rest : List Char} :
    tryP2 (lineXA P ++ rest) = none := by
  rw [lineXA_decomp]
  simp only [tryP2, lit_append, Option.bind_eq_bind, Option.some_bind, many1_ws_m,
    show ∀ X : List Char, lit rootAttr ('m' :: X) = none from fun _ => rfl,
    Option.none_bind]

theorem tryP3_none_XA {P rest : List Char} :
    tryP3 (lineXA P ++ rest) = none := by
  rw [lineXA_decomp]
  simp only [tryP3, lit_append, Option.bind_eq_bind, Option.some_bind, many1_ws_m,
    show ∀ X : List Char, lit rootAttr ('m' :: X) = none from fun _ => rfl,
    Option.none_bind]

/-- Pattern 1 requires `\s*/>` directly after the closing quote, so it fails
on empty-body and content-bearing entries. -/
theorem tryP1_none_gt {P : List Char} (T : List Char) (hP : P ≠ [])
    (hq : ∀ ch ∈ P, ch ≠ '"') :
    tryP1 (tagOpen ++ (' ' :: (rootAttr ++ (P ++ ('"' :: ('>' :: T)))))) = none := by
  simp only [tryP1, lit_append, Option.bind_eq_bind, Option.some_bind,
    many1_ws_rootAttr, many1_notQuote_exact hP hq, lit_singleton,
    show ∀ X : List Char, List.takeWhile isWS ('>' :: X) = [] from fun _ => rfl,
    show ∀ X : List Char, List.dropWhile isWS ('>' :: X) = '>' :: X from fun _ => rfl,
    show ∀ X : List Char, lit ("/>".data) ('>' :: X) = none from fun _ => rfl,
    Option.none_bind]

/-- Pattern 2 consumes a whole empty-body entry and captures its path. -/
theorem tryP2_at_EB {P : List Char} (rest : List Char) (hP : P ≠ [])
    (hq : ∀ ch ∈ P, ch ≠ '"') :
    tryP2 (lineEB P ++ rest) = some (lineEB P, P, rest) := by
  rw [lineEB_decomp]
  simp only [tryP2, lit_append, Option.bind_eq_bind, Option.some_bind,
    many1_ws_rootAttr, many1_notQuote_exact hP hq,
    show ∀ X : List Char,
      lit ("\"></filter>".data) ('"' :: ('>' :: (closeTag ++ X))) = some X from
      fun _ => rfl,
    Option.pure_def]
  rw [lineEB]
  simp [show ("<filter root=\"".data : List Char) = tagOpen ++ ' ' :: rootAttr from rfl,
    show ("\"></filter>".data : List Char) = '"' :: '>' :: closeTag from rfl,
    List.append_assoc, show tagOpen = ['<', 'f', 'i', 'l', 't', 'e', 'r'] from rfl,
    show rootAttr = ['r', 'o', 'o', 't', '=', '"'] from rfl,
    show closeTag = ['<', '/', 'f', 'i', 'l', 't', 'e', 'r', '>'] from rfl]

/-- Pattern 2 requires `"></filter>` immediately, so it fails on self-closing
entries. -/
theorem tryP2_none_slash {P : List Char} (T : List Char) (hP : P ≠ [])
    (hq : ∀ ch ∈ P, ch ≠ '"') :
    tryP2 (tagOpen ++ (' ' :: (rootAttr ++ (P ++ ('"' :: ('/' :: T)))))) = none := by
  simp only [tryP2, lit_append, Option.bind_eq_bind, Option.some_bind,
    many1_ws_rootAttr, many1_notQuote_exact hP hq,
    show ∀ X : List Char, lit ("\"></filter>".data) ('"' :: ('/' :: X)) = none from
      fun _ => rfl,
    Option.none_bind]

/-- Pattern 2 fails on a content-bearing entry with nonempty content. -/
theorem tryP2_none_content {P : List Char} {c0 : Char} (T : List Char) (hP : P ≠ [])
    (hq : ∀ ch ∈ P, ch ≠ '"') (hc0 : c0 ≠ '<') :
    tryP2 (tagOpen ++ (' ' :: (rootAttr ++ (P ++ ('"' :: ('>' :: (c0 :: T))))))) = none := by
  have hfail : lit ("\"></filter>".data) ('"' :: ('>' :: (c0 :: T))) = none := by
    rw [show ("\"></filter>".data : List Char) = '"' :: '>' :: ('<' :: ("/filter>".data))
      from rfl, lit, if_pos rfl, lit, if_pos rfl, lit, if_neg (Ne.symm hc0)]
  simp only [tryP2, lit_append, Option.bind_eq_bind, Option.some_bind,
    many1_ws_rootAttr, many1_notQuote_exact hP hq, hfail, Option.none_bind]

theorem closeTag_not_prefix_inside {c : List Char} (hc : ∀ ch ∈ c, ch ≠ '<')
    {r : List Char} : ∀ i, i < c.length → ¬ closeTag <+: (c.drop i ++ closeTag ++ r) := by
  intro i hi hpre
  rw [List.drop_eq_getElem_cons hi, List.cons_append, List.cons_append,
    show closeTag = '<' :: ("/filter>".data) from rfl, List.cons_prefix_cons] at hpre
  exact hc _ (List.getElem_mem hi) hpre.1.symm

/-- Pattern 3 consumes a whole content-bearing entry (lazily up to the first
`</filter>`) and captures its path. -/
theorem tryP3_at_CB {P c : List Char} (rest : List Char) (hP : P ≠ [])
    (hq : ∀ ch ∈ P, ch ≠ '"') (hcok : ∀ ch ∈ c, dotOk ch = true)
    (hclt : ∀ ch ∈ c, ch ≠ '<') :
    tryP3 (lineCB P c ++ rest) = some (lineCB P c, P, rest) := by
  rw [lineCB_decomp]
  simp only [tryP3, lit_append, Option.bind_eq_bind, Option.some_bind,
    many1_ws_rootAttr, many1_notQuote_exact hP hq, lit_singleton,
    show ∀ X : List Char, List.takeWhile notGt ('>' :: X) = [] from fun _ => rfl,
    show ∀ X : List Char, List.dropWhile notGt ('>' :: X) = '>' :: X from fun _ => rfl,
    Option.pure_def]
  rw [show (c ++ (closeTag ++ rest) : List Char) = c ++ closeTag ++ rest by
      simp [List.append_assoc],
    lazyUpto_exact (by decide) c rest hcok (closeTag_not_prefix_inside hclt)]
  rw [lineCB]
  simp [show ("<filter root=\"".data : List Char) = tagOpen ++ ' ' :: rootAttr from rfl,
    show ("\">".data : List Char) = ['"', '>'] from rfl,
    List.append_assoc, show tagOpen = ['<', 'f', 'i', 'l', 't', 'e', 'r'] from rfl,
    show rootAttr = ['r', 'o', 'o', 't', '=', '"'] from rfl]

/-- No `</filter>` can be found by the lazy scan once the line ends. -/
theorem lazyUpto_nil : lazyUpto closeTag dotOk [] = none := rfl

theorem lazyUpto_newline (X : List Char) : lazyUpto closeTag dotOk ('\n' :: X) = none := rfl

theorem lazyUpto_lineEnd {rest : List Char} (h : LineEnd rest) :
    lazyUpto closeTag dotOk rest = none := by
  rcases h with rfl | ⟨X, rfl⟩
  · exact lazyUpto_nil
  · exact lazyUpto_newline X

/-- Pattern 3 fails on a self-closing entry that ends its line. -/
theorem tryP3_none_slash {P : List Char} {rest : List Char} (hP : P ≠ [])
    (hq : ∀ ch ∈ P, ch ≠ '"') (hrest : LineEnd rest) :
    tryP3 (tagOpen ++ (' ' :: (rootAttr ++ (P ++ ('"' :: ('/' :: ('>' :: rest))))))) =
      none := by
  simp only [tryP3, lit_append, Option.bind_eq_bind, Option.some_bind,
    many1_ws_rootAttr, many1_notQuote_exact hP hq, lit_singleton,
    show ∀ X : List Char, List.takeWhile notGt ('/' :: ('>' :: X)) = ['/'] from
      fun _ => rfl,
    show ∀ X : List Char, List.dropWhile notGt ('/' :: ('>' :: X)) = '>' :: X from
      fun _ => rfl,
    lazyUpto_lineEnd hrest, Option.none_bind]

/-! ## Pattern 4: greedy backtracking over `[^>]+` -/

theorem tryP4Tail_none {s : List Char} (h : ¬ rootAttr <+: s) : tryP4Tail s = none := by
  cases hl : lit rootAttr s with
  | none => simp [tryP4Tail, hl]
  | some r =>
      exact absurd (by rw [lit_sound hl]; exact List.prefix_append _ _) h

theorem tryP4Tail_at_slash {P : List Char} (rest : List Char) (hP : P ≠ [])
    (hq : ∀ ch ∈ P, ch ≠ '"') :
    tryP4Tail (rootAttr ++ (P ++ ('"' :: ('/' :: ('>' :: rest))))) =
      some (rootAttr ++ P ++ ['"'] ++ ['/'] ++ ['>'], P, rest) := by
  simp only [tryP4Tail, lit_append, Option.bind_eq_bind, Option.some_bind,
    many1_notQuote_exact hP hq, lit_singleton,
    show ∀ X : List Char, List.takeWhile notGt ('/' :: ('>' :: X)) = ['/'] from
      fun _ => rfl,
    show ∀ X : List Char, List.dropWhile notGt ('/' :: ('>' :: X)) = '>' :: X from
      fun _ => rfl,
    Option.pure_def]

theorem tryP4Tail_at_gt {P : List Char} (T : List Char) (hP : P ≠ [])
    (hq : ∀ ch ∈ P, ch ≠ '"') :
    tryP4Tail (rootAttr ++ (P ++ ('"' :: ('>' :: T)))) =
      some (rootAttr ++ P ++ ['"'] ++ [] ++ ['>'], P, T) := by
  simp only [tryP4Tail, lit_append, Option.bind_eq_bind, Option.some_bind,
    many1_notQuote_exact hP hq, lit_singleton,
    show ∀ X : List Char, List.takeWhile notGt ('>' :: X) = [] from fun _ => rfl,
    show ∀ X : List Char, List.dropWhile notGt ('>' :: X) = '>' :: X from fun _ => rfl,
    Option.pure_def]

theorem tryP4Go_descend {t : List Char} : ∀ {j j0 : Nat}, j0 ≤ j →
    (∀ i, j0 < i → i ≤ j → tryP4Tail (t.drop i) = none) →
    tryP4Go t j = tryP4Go t j0 := by
  intro j
  induction j with
  | zero =>
      intro j0 h _
      have : j0 = 0 := by omega
      subst this
      rfl
  | succ j ih =>
      intro j0 hle hnone
      by_cases hj : j0 = j + 1
      · rw [hj]
      · rw [tryP4Go, hnone (j + 1) (by omega) le_rfl]
        simp only []
        exact ih (by omega) (fun i h1 h2 => hnone i h1 (by omega))

theorem rootAttr_not_at_head {c : Char} {X : List Char} (h : c ≠ 'r') :
    ¬ rootAttr <+: (c :: X) := by
  intro hp
  rw [rootAttr_eq, List.cons_prefix_cons] at hp
  exact h hp.1.symm

/-- The interior positions that the greedy `[^>]+` backtracking of pattern 4
visits before reaching the true `root="` never start a `root="`. -/
theorem tryP4Go_interior {W P z T2 : List Char}
    (hgood : ∀ ch ∈ P, goodChar ch)
    (hz : ∀ ch ∈ z, ch ≠ 'r') :
    ∀ i, W.length < i → i ≤ W.length + 7 + P.length + z.length →
      tryP4Tail ((W ++ (rootAttr ++ (P ++ ('"' :: (z ++ '>' :: T2))))).drop i) = none := by
  intro i h1 h2
  apply tryP4Tail_none
  have hdrop : (W ++ (rootAttr ++ (P ++ ('"' :: (z ++ '>' :: T2))))).drop i =
      (rootAttr ++ (P ++ ('"' :: (z ++ '>' :: T2)))).drop (i - W.length) :=
    drop_append_mid (by omega)
  rw [hdrop]
  set k := i - W.length with hk
  have hk1 : 1 ≤ k := by omega
  have hk2 : k ≤ 7 + P.length + z.length := by omega
  by_cases hc1 : k ≤ 5
  · rw [List.drop_append_of_le_length (by rw [show rootAttr.length = 6 from rfl]; omega)]
    interval_cases k
    · rw [show rootAttr.drop 1 = 'o' :: ['o', 't', '=', '"'] from rfl]
      exact rootAttr_not_at_head (by decide)
    · rw [show rootAttr.drop 2 = 'o' :: ['t', '=', '"'] from rfl]
      exact rootAttr_not_at_head (by decide)
    · rw [show rootAttr.drop 3 = 't' :: ['=', '"'] from rfl]
      exact rootAttr_not_at_head (by decide)
    · rw [show rootAttr.drop 4 = '=' :: ['"'] from rfl]
      exact rootAttr_not_at_head (by decide)
    · rw [show rootAttr.drop 5 = '"' :: [] from rfl]
      exact rootAttr_not_at_head (by decide)
  · have hr6 : rootAttr.length = 6 := rfl
    rw [drop_append_mid (by omega), hr6]
    by_cases hc2 : k - 6 ≤ P.length
    · rw [List.drop_append_of_le_length hc2]
      have := @rootAttr_not_start (P.drop (k - 6)) (z ++ '>' :: T2)
        (fun ch hch => by
          have hm : ch ∈ P := (List.drop_suffix (k - 6) P).sublist.subset hch
          exact ⟨(hgood ch hm).2.2.2.2.2, (hgood ch hm).1⟩)
      simpa [List.append_assoc] using this
    · rw [drop_append_mid (by omega)]
      have hk6 : P.length < k - 6 := by omega
      obtain ⟨d, hd⟩ : ∃ d, k - 6 - P.length = d + 1 := ⟨k - 6 - P.length - 1, by omega⟩
      rw [hd, List.drop_succ_cons]
      have hdz : d ≤ z.length := by omega
      by_cases hdz2 : d < z.length
      · rw [List.drop_append_of_le_length (by omega)]
        rw [List.drop_eq_getElem_cons hdz2, List.cons_append]
        exact rootAttr_not_at_head (hz _ (List.getElem_mem hdz2))
      · have : d = z.length := by omega
        rw [this, drop_append_mid le_rfl, Nat.sub_self, List.drop_zero]
        exact rootAttr_not_at_head (by decide)

/-- Full computation of pattern 4 on an entry:  the greedy `[^>]+` backtracks
to the true `root="` and the deterministic tail completes. -/
theorem tryP4_at {W P z T2 : List Char} (hW : W ≠ [])
    (hWgt : ∀ ch ∈ W, notGt ch = true) (hzgt : ∀ ch ∈ z, notGt ch = true)
    (hz : ∀ ch ∈ z, ch ≠ 'r') (hgood : ∀ ch ∈ P, goodChar ch) (hP : P ≠ [])
    (htail : ∃ m2, tryP4Tail (rootAttr ++ (P ++ ('"' :: (z ++ '>' :: T2)))) =
      some (m2, P, T2)) :
    ∃ m, tryP4 (tagOpen ++ (W ++ (rootAttr ++ (P ++ ('"' :: (z ++ '>' :: T2)))))) =
      some (m, P, T2) := by
  obtain ⟨m2, hm2⟩ := htail
  set t := W ++ (rootAttr ++ (P ++ ('"' :: (z ++ '>' :: T2)))) with ht
  have hrun : t.takeWhile notGt = W ++ rootAttr ++ P ++ '"' :: z := by
    have hshape : t = (W ++ rootAttr ++ P ++ '"' :: z) ++ '>' :: T2 := by
      rw [ht]
      simp [List.append_assoc]
    rw [hshape]
    exact (takeWhile_exact '>' T2 (by
      intro c hc
      simp only [List.append_assoc, List.mem_append, List.mem_cons] at hc
      rcases hc with hc | hc | hc | hc
      · exact hWgt c hc
      · revert c
        decide
      · simp [notGt, (hgood c hc).2.2.1]
      · rcases hc with hc | hc
        · subst hc; rfl
        · exact hzgt c hc) (by decide)).1
  have hlen : (t.takeWhile notGt).length = W.length + 7 + P.length + z.length := by
    rw [hrun]
    simp [List.length_append, show rootAttr.length = 6 from rfl]
    omega
  have hWpos : 1 ≤ W.length := by
    cases W with
    | nil => exact absurd rfl hW
    | cons _ _ => simp
  have hdesc := @tryP4Go_descend t (W.length + 7 + P.length + z.length) W.length
    (by omega) (tryP4Go_interior hgood hz)
  obtain ⟨g, hg⟩ : ∃ g, W.length = g + 1 := ⟨W.length - 1, by omega⟩
  have hstep : tryP4Go t W.length = some (t.take W.length ++ m2, P, T2) := by
    rw [hg, tryP4Go, ← hg]
    rw [show t.drop W.length = rootAttr ++ (P ++ ('"' :: (z ++ '>' :: T2))) from by
      rw [ht]; exact List.drop_left W _]
    rw [hm2]
  refine ⟨tagOpen ++ (t.take W.length ++ m2), ?_⟩
  simp only [tryP4, Option.bind_eq_bind, lit_append, Option.some_bind, hlen, hdesc, hstep]

/-- Pattern 4 consumes a self-closing entry and captures its path. -/
theorem tryP4_at_SC {P : List Char} (rest : List Char) (hP : P ≠ [])
    (hgood : ∀ ch ∈ P, goodChar ch) :
    ∃ m, tryP4 (lineSC P ++ rest) = some (m, P, rest) := by
  rw [lineSC_decomp]
  have h := @tryP4_at [' '] P ['/'] rest (by simp) (by decide) (by decide) (by decide)
    hgood hP ⟨_, by simpa using tryP4Tail_at_slash rest hP (fun ch hc => (hgood ch hc).1)⟩
  simpa using h

/-- Pattern 4 consumes the opening tag of an empty-body entry and captures
its path, leaving the closing tag in the rest. -/
theorem tryP4_at_EB {P : List Char} (rest : List Char) (hP : P ≠ [])
    (hgood : ∀ ch ∈ P, goodChar ch) :
    ∃ m, tryP4 (lineEB P ++ rest) = some (m, P, closeTag ++ rest) := by
  rw [lineEB_decomp]
  have h := @tryP4_at [' '] P [] (closeTag ++ rest) (by simp) (by decide) (by simp)
    (by simp) hgood hP
    ⟨_, by simpa using (tryP4Tail_at_gt (closeTag ++ rest) hP
      (fun ch hc => (hgood ch hc).1))⟩
  simpa using h

/-- Pattern 4 consumes the opening tag of a content-bearing entry and
captures its path, leaving content and closing tag in the rest. -/
theorem tryP4_at_CB {P c : List Char} (rest : List Char) (hP : P ≠ [])
    (hgood : ∀ ch ∈ P, goodChar ch) :
    ∃ m, tryP4 (lineCB P c ++ rest) = some (m, P, c ++ (closeTag ++ rest)) := by
  rw [lineCB_decomp]
  have h := @tryP4_at [' '] P [] (c ++ (closeTag ++ rest)) (by simp) (by decide)
    (by simp) (by simp) hgood hP
    ⟨_, by simpa using (tryP4Tail_at_gt (c ++ (closeTag ++ rest)) hP
      (fun ch hc => (hgood ch hc).1))⟩
  simpa using h

/-- Pattern 4 consumes an extra-attribute entry (its `[^>]+` absorbing the
extra attribute) and captures its path. -/
theorem tryP4_at_XA {P : List Char} (rest : List Char) (hP : P ≠ [])
    (hgood : ∀ ch ∈ P, goodChar ch) :
    ∃ m, tryP4 (lineXA P ++ rest) = some (m, P, rest) := by
  rw [lineXA_decomp]
  have h := @tryP4_at (' ' :: ('m' :: ("ode=\"edit\" ".data))) P ['/'] rest (by simp)
    (by decide) (by decide) (by decide) hgood hP
    ⟨_, by simpa using tryP4Tail_at_slash rest hP (fun ch hc => (hgood ch hc).1)⟩
  simpa using h

theorem lineEB_eq_CB (p : List Char) : lineEB p = lineCB p [] := by
  rw [lineEB, lineCB]
  simp [show ("\"></filter>".data : List Char) = ("\">".data) ++ closeTag from rfl,
    show closeTag = ['<', '/', 'f', 'i', 'l', 't', 'e', 'r', '>'] from rfl,
    List.append_assoc]

/-- None of the four patterns can start at the `<` of a closing tag. -/
theorem tryP1_close (X : List Char) : tryP1 ('<' :: ('/' :: X)) = none := rfl

theorem tryP2_close (X : List Char) : tryP2 ('<' :: ('/' :: X)) = none := rfl

theorem tryP3_close (X : List Char) : tryP3 ('<' :: ('/' :: X)) = none := rfl

theorem tryP4_close (X : List Char) : tryP4 ('<' :: ('/' :: X)) = none := rfl

theorem lineSC_cons (P rest : List Char) :
    lineSC P ++ rest = '<' :: ((("filter root=\"".data) ++ P ++ ("\"/>".data)) ++ rest) := by
  rw [lineSC]
  simp [show ("<filter root=\"".data : List Char) = '<' :: ("filter root=\"".data) from rfl,
    List.append_assoc]

theorem lineEB_cons (P rest : List Char) :
    lineEB P ++ rest = '<' :: ((("filter root=\"".data) ++ P ++ ("\">".data)) ++
      ('<' :: (("/filter>".data) ++ rest))) := by
  rw [lineEB]
  simp [show ("<filter root=\"".data : List Char) = '<' :: ("filter root=\"".data) from rfl,
    show ("\"></filter>".data : List Char) = ("\">".data) ++ '<' :: ("/filter>".data)
      from rfl,
    List.append_assoc]

theorem lineCB_cons (P c rest : List Char) :
    lineCB P c ++ rest = '<' :: ((("filter root=\"".data) ++ P ++ ("\">".data) ++ c) ++
      ('<' :: (("/filter>".data) ++ rest))) := by
  rw [lineCB]
  simp [show ("<filter root=\"".data : List Char) = '<' :: ("filter root=\"".data) from rfl,
    show closeTag = '<' :: ("/filter>".data) from rfl,
    List.append_assoc]

theorem lineXA_cons (P rest : List Char) :
    lineXA P ++ rest =
      '<' :: ((("filter mode=\"edit\" root=\"".data) ++ P ++ ("\"/>".data)) ++ rest) := by
  rw [lineXA]
  simp [show ("<filter mode=\"edit\" root=\"".data : List Char) =
      '<' :: ("filter mode=\"edit\" root=\"".data) from rfl,
    List.append_assoc]

/-- The scanner passes over one whole non-matching entry. -/
theorem scanExtract_skip_entry {κ : Type} {tryM : List Char → MRes κ} (hs : MSound tryM)
    (hhead : ∀ a cs, a ≠ '<' → tryM (a :: cs) = none)
    (hclose : ∀ X, tryM ('<' :: ('/' :: X)) = none)
    {f : EntryForm} {c P rest : List Char}
    (hP : ∀ ch ∈ P, ch ≠ '<') (hc : ∀ ch ∈ c, ch ≠ '<')
    (hfail : tryM (renderEntry f c P ++ rest) = none) :
    scanExtract tryM (renderEntry f c P ++ rest) = scanExtract tryM rest := by
  cases f with
  | sc =>
      rw [show renderEntry EntryForm.sc c P = lineSC P from rfl] at hfail ⊢
      rw [lineSC_cons] at hfail ⊢
      rw [scanExtract_nomatch hs hfail]
      refine scanExtract_skip hs '<' hhead _ rest ?_
      intro ch hch
      simp only [List.mem_append] at hch
      rcases hch with (hch | hch) | hch
      · revert ch; decide
      · exact hP ch hch
      · revert ch; decide
  | eb =>
      rw [show renderEntry EntryForm.eb c P = lineEB P from rfl] at hfail ⊢
      rw [lineEB_cons] at hfail ⊢
      rw [scanExtract_nomatch hs hfail]
      rw [scanExtract_skip hs '<' hhead _ _ (by
        intro ch hch
        simp only [List.mem_append] at hch
        rcases hch with (hch | hch) | hch
        · revert ch; decide
        · exact hP ch hch
        · revert ch; decide)]
      rw [show (("/filter>".data : List Char)) ++ rest = '/' :: (("filter>".data) ++ rest)
        from rfl]
      rw [scanExtract_nomatch hs (hclose _),
        show ('/' :: ((("filter>".data) : List Char) ++ rest)) = ("/filter>".data) ++ rest
          from rfl]
      refine scanExtract_skip hs '<' hhead _ rest ?_
      intro ch hch
      revert ch; decide
  | cb =>
      rw [show renderEntry EntryForm.cb c P = lineCB P c from rfl] at hfail ⊢
      rw [lineCB_cons] at hfail ⊢
      rw [scanExtract_nomatch hs hfail]
      rw [scanExtract_skip hs '<' hhead _ _ (by
        intro ch hch
        simp only [List.mem_append] at hch
        rcases hch with ((hch | hch) | hch) | hch
        · revert ch; decide
        · exact hP ch hch
        · revert ch; decide
        · exact hc ch hch)]
      rw [show (("/filter>".data : List Char)) ++ rest = '/' :: (("filter>".data) ++ rest)
        from rfl]
      rw [scanExtract_nomatch hs (hclose _),
        show ('/' :: ((("filter>".data) : List Char) ++ rest)) = ("/filter>".data) ++ rest
          from rfl]
      refine scanExtract_skip hs '<' hhead _ rest ?_
      intro ch hch
      revert ch; decide
  | xa =>
      rw [show renderEntry EntryForm.xa c P = lineXA P from rfl] at hfail ⊢
      rw [lineXA_cons] at hfail ⊢
      rw [scanExtract_nomatch hs hfail]
      refine scanExtract_skip hs '<' hhead _ rest ?_
      intro ch hch
      simp only [List.mem_append] at hch
      rcases hch with (hch | hch) | hch
      · revert ch; decide
      · exact hP ch hch
      · revert ch; decide

/-- A pattern that fails on every entry of the document extracts nothing. -/
theorem scanExtract_doc_none {κ : Type} {tryM : List Char → MRes κ} (hs : MSound tryM)
    (hhead : ∀ a cs, a ≠ '<' → tryM (a :: cs) = none)
    (hclose : ∀ X, tryM ('<' :: ('/' :: X)) = none)
    {f : EntryForm} {c : List Char} (hc : ∀ ch ∈ c, ch ≠ '<')
    (hfail : ∀ P rest, GoodPath P → tryM (renderEntry f c P ++ '\n' :: rest) = none) :
    ∀ L, (∀ p ∈ L, GoodPath p) → scanExtract tryM (renderDoc f c L) = [] := by
  intro L
  induction L with
  | nil => intro _; rfl
  | cons p ps ih =>
      intro hL
      have hp := hL p (by simp)
      rw [renderDoc,
        scanExtract_skip_entry hs hhead hclose
          (fun ch hch => (hp.2 ch hch).2.1) hc (hfail p _ hp),
        scanExtract_nomatch hs (hhead '\n' _ (by decide)),
        ih (fun q hq => hL q (by simp [hq]))]

/-- After pattern 4 has consumed an opening tag, the scanner passes over the
closing tag. -/
theorem scanExtract_skip_close {κ : Type} {tryM : List Char → MRes κ} (hs : MSound tryM)
    (hhead : ∀ a cs, a ≠ '<' → tryM (a :: cs) = none)
    (hclose : ∀ X, tryM ('<' :: ('/' :: X)) = none) (rest : List Char) :
    scanExtract tryM (closeTag ++ rest) = scanExtract tryM rest := by
  rw [show closeTag ++ rest = '<' :: ('/' :: (("filter>".data) ++ rest)) from rfl]
  rw [scanExtract_nomatch hs (hclose _),
    show ('/' :: ((("filter>".data) : List Char) ++ rest)) = ("/filter>".data) ++ rest
      from rfl]
  refine scanExtract_skip hs '<' hhead _ rest ?_
  intro ch hch
  revert ch; decide

/-! ## Per-pattern extraction over uniformly rendered manifests -/

theorem extract_sc_P1 {c : List Char} :
    ∀ L, (∀ p ∈ L, GoodPath p) → scanExtract tryP1 (renderDoc EntryForm.sc c L) = L := by
  intro L
  induction L with
  | nil => intro _; rfl
  | cons p ps ih =>
      intro hL
      have hp := hL p (by simp)
      rw [renderDoc, show renderEntry EntryForm.sc c p = lineSC p from rfl,
        scanExtract_match tryP1_sound (tryP1_at_SC _ hp.1 (fun ch hc => (hp.2 ch hc).1)),
        scanExtract_nomatch tryP1_sound (tryP1_head_ne (by decide)),
        ih (fun q hq => hL q (by simp [hq]))]

theorem extract_sc_P4 {c : List Char} :
    ∀ L, (∀ p ∈ L, GoodPath p) → scanExtract tryP4 (renderDoc EntryForm.sc c L) = L := by
  intro L
  induction L with
  | nil => intro _; rfl
  | cons p ps ih =>
      intro hL
      have hp := hL p (by simp)
      obtain ⟨m, hm⟩ := tryP4_at_SC ('\n' :: renderDoc EntryForm.sc c ps) hp.1 hp.2
      rw [renderDoc, show renderEntry EntryForm.sc c p = lineSC p from rfl,
        scanExtract_match tryP4_sound hm,
        scanExtract_nomatch tryP4_sound (tryP4_head_ne (by decide)),
        ih (fun q hq => hL q (by simp [hq]))]

theorem extract_eb_P2 {c : List Char} :
    ∀ L, (∀ p ∈ L, GoodPath p) → scanExtract tryP2 (renderDoc EntryForm.eb c L) = L := by
  intro L
  induction L with
  | nil => intro _; rfl
  | cons p ps ih =>
      intro hL
      have hp := hL p (by simp)
      rw [renderDoc, show renderEntry EntryForm.eb c p = lineEB p from rfl,
        scanExtract_match tryP2_sound (tryP2_at_EB _ hp.1 (fun ch hc => (hp.2 ch hc).1)),
        scanExtract_nomatch tryP2_sound (tryP2_head_ne (by decide)),
        ih (fun q hq => hL q (by simp [hq]))]

theorem extract_eb_P3 {c : List Char} :
    ∀ L, (∀ p ∈ L, GoodPath p) → scanExtract tryP3 (renderDoc EntryForm.eb c L) = L := by
  intro L
  induction L with
  | nil => intro _; rfl
  | cons p ps ih =>
      intro hL
      have hp := hL p (by simp)
      rw [renderDoc, show renderEntry EntryForm.eb c p = lineEB p from rfl, lineEB_eq_CB,
        scanExtract_match tryP3_sound
          (tryP3_at_CB _ hp.1 (fun ch hc => (hp.2 ch hc).1) (by simp) (by simp)),
        scanExtract_nomatch tryP3_sound (tryP3_head_ne (by decide)),
        ih (fun q hq => hL q (by simp [hq]))]

theorem extract_eb_P4 {c : List Char} :
    ∀ L, (∀ p ∈ L, GoodPath p) → scanExtract tryP4 (renderDoc EntryForm.eb c L) = L := by
  intro L
  induction L with
  | nil => intro _; rfl
  | cons p ps ih =>
      intro hL
      have hp := hL p (by simp)
      obtain ⟨m, hm⟩ := tryP4_at_EB ('\n' :: renderDoc EntryForm.eb c ps) hp.1 hp.2
      rw [renderDoc, show renderEntry EntryForm.eb c p = lineEB p from rfl,
        scanExtract_match tryP4_sound hm,
        scanExtract_skip_close tryP4_sound (fun a cs h => tryP4_head_ne h) tryP4_close,
        scanExtract_nomatch tryP4_sound (tryP4_head_ne (by decide)),
        ih (fun q hq => hL q (by simp [hq]))]

theorem extract_cb_P3 {c : List Char} (hc : GoodText c) :
    ∀ L, (∀ p ∈ L, GoodPath p) → scanExtract tryP3 (renderDoc EntryForm.cb c L) = L := by
  intro L
  induction L with
  | nil => intro _; rfl
  | cons p ps ih =>
      intro hL
      have hp := hL p (by simp)
      rw [renderDoc, show renderEntry EntryForm.cb c p = lineCB p c from rfl,
        scanExtract_match tryP3_sound
          (tryP3_at_CB _ hp.1 (fun ch hch => (hp.2 ch hch).1)
            (fun ch hch => by simp [dotOk, (hc ch hch).2.2.2.1, (hc ch hch).2.2.2.2.1,
              (hc ch hch).2.2.2.2.2.1, (hc ch hch).2.2.2.2.2.2])
            (fun ch hch => (hc ch hch).2.1)),
        scanExtract_nomatch tryP3_sound (tryP3_head_ne (by decide)),
        ih (fun q hq => hL q (by simp [hq]))]

theorem extract_cb_P4 {c : List Char} (hc : GoodText c) :
    ∀ L, (∀ p ∈ L, GoodPath p) → scanExtract tryP4 (renderDoc EntryForm.cb c L) = L := by
  intro L
  induction L with
  | nil => intro _; rfl
  | cons p ps ih =>
      intro hL
      have hp := hL p (by simp)
      obtain ⟨m, hm⟩ := tryP4_at_CB ('\n' :: renderDoc EntryForm.cb c ps) hp.1 hp.2
      rw [renderDoc, show renderEntry EntryForm.cb c p = lineCB p c from rfl,
        scanExtract_match tryP4_sound hm,
        scanExtract_skip tryP4_sound '<' (fun a cs h => tryP4_head_ne h) c _
          (fun ch hch => (hc ch hch).2.1),
        scanExtract_skip_close tryP4_sound (fun a cs h => tryP4_head_ne h) tryP4_close,
        scanExtract_nomatch tryP4_sound (tryP4_head_ne (by decide)),
        ih (fun q hq => hL q (by simp [hq]))]

theorem extract_xa_P4 {c : List Char} :
    ∀ L, (∀ p ∈ L, GoodPath p) → scanExtract tryP4 (renderDoc EntryForm.xa c L) = L := by
  intro L
  induction L with
  | nil => intro _; rfl
  | cons p ps ih =>
      intro hL
      have hp := hL p (by simp)
      obtain ⟨m, hm⟩ := tryP4_at_XA ('\n' :: renderDoc EntryForm.xa c ps) hp.1 hp.2
      rw [renderDoc, show renderEntry EntryForm.xa c p = lineXA p from rfl,
        scanExtract_match tryP4_sound hm,
        scanExtract_nomatch tryP4_sound (tryP4_head_ne (by decide)),
        ih (fun q hq => hL q (by simp [hq]))]

/-! ## Accumulation with first-seen deduplication -/

theorem mem_addPath_left {A : List (List Char)} {p q : List Char} (hp : p ∈ A) :
    p ∈ addPath A q := by
  rw [addPath]
  split
  · exact hp
  · split
    · exact hp
    · simp [hp]

theorem mem_addPaths_left {A : List (List Char)} {p : List Char} (hp : p ∈ A) :
    ∀ L, p ∈ addPaths A L := by
  intro L
  induction L generalizing A with
  | nil => exact hp
  | cons q qs ih => exact ih (mem_addPath_left hp)

theorem mem_addPaths {p : List Char} (hne : p ≠ []) :
    ∀ {L : List (List Char)} (A : List (List Char)), p ∈ L → p ∈ addPaths A L := by
  intro L
  induction L with
  | nil => intro A h; simp at h
  | cons q qs ih =>
      intro A hp
      rcases List.mem_cons.mp hp with rfl | hp
      · refine mem_addPaths_left ?_ qs
        rw [addPath, if_neg hne]
        split
        · assumption
        · simp
      · exact ih (addPath A q) hp

theorem addPaths_subsumed {A : List (List Char)} :
    ∀ {L : List (List Char)}, (∀ p ∈ L, p = [] ∨ p ∈ A) → addPaths A L = A := by
  intro L
  induction L generalizing A with
  | nil => intro _; rfl
  | cons q qs ih =>
      intro h
      have hq : addPath A q = A := by
        rcases h q (by simp) with rfl | hq
        · rw [addPath, if_pos rfl]
        · simp [addPath, hq]
      show addPaths (addPath A q) qs = A
      rw [hq]
      exact ih (fun p hp => h p (by simp [hp]))

theorem addPaths_nil (A : List (List Char)) : addPaths A [] = A := rfl

theorem addPaths_absorb {A L : List (List Char)} :
    addPaths (addPaths A L) L = addPaths A L :=
  addPaths_subsumed (fun p hp => by
    by_cases hne : p = []
    · exact Or.inl hne
    · exact Or.inr (mem_addPaths hne _ hp))

theorem addPaths_eq_firstSeen_aux :
    ∀ (L A seen : List (List Char)), (∀ q, q ∈ seen ↔ q ∈ A) → (∀ p ∈ L, p ≠ []) →
      addPaths A L = A ++ firstSeenAux seen L := by
  intro L
  induction L with
  | nil => intro A seen _ _; simp [addPaths, firstSeenAux]
  | cons p ps ih =>
      intro A seen hiff hne
      show addPaths (addPath A p) ps = A ++ firstSeenAux seen (p :: ps)
      rw [firstSeenAux]
      by_cases hmem : p ∈ seen
      · rw [if_pos hmem]
        have hA : addPath A p = A := by
          rw [addPath, if_neg (hne p (by simp)), if_pos ((hiff p).mp hmem)]
        rw [hA]
        exact ih A seen hiff (fun q hq => hne q (by simp [hq]))
      · rw [if_neg hmem]
        have hA : addPath A p = A ++ [p] := by
          rw [addPath, if_neg (hne p (by simp)),
            if_neg (fun hp => hmem ((hiff p).mpr hp))]
        rw [hA, ih (A ++ [p]) (p :: seen)
          (fun q => by
            rw [List.mem_cons, List.mem_append, List.mem_singleton, hiff q, or_comm])
          (fun q hq => hne q (by simp [hq]))]
        simp

theorem addPaths_eq_firstSeen {L : List (List Char)} (h : ∀ p ∈ L, p ≠ []) :
    addPaths [] L = firstSeen L := by
  have := addPaths_eq_firstSeen_aux L [] [] (by simp) h
  simpa [firstSeen] using this

/-- All four patterns together, over a manifest in any one of the four
syntaxes: the extractor of `xwalk-content.js` and of the combined script
returns the path values in first-seen order without duplicates. -/
theorem getFilterPaths_x_doc {f : EntryForm} {c : List Char} {L : List (List Char)}
    (hL : ∀ p ∈ L, GoodPath p) (hc : GoodText c) (hcne : c ≠ []) :
    getFilterPaths_x (renderDoc f c L) = firstSeen L := by
  have hclt : ∀ ch ∈ c, ch ≠ '<' := fun ch hch => (hc ch hch).2.1
  have hne : ∀ p ∈ L, p ≠ [] := fun p hp => (hL p hp).1
  rw [← addPaths_eq_firstSeen hne]
  cases f with
  | sc =>
      rw [getFilterPaths_x, extract_sc_P1 L hL, extract_sc_P4 L hL,
        scanExtract_doc_none tryP2_sound (fun a cs h => tryP2_head_ne h) tryP2_close hclt
          (fun P rest hPg => by
            rw [show renderEntry EntryForm.sc c P = lineSC P from rfl, lineSC_decomp]
            exact tryP2_none_slash ('>' :: ('\n' :: rest)) hPg.1
              (fun ch hch => (hPg.2 ch hch).1)) L hL,
        scanExtract_doc_none tryP3_sound (fun a cs h => tryP3_head_ne h) tryP3_close hclt
          (fun P rest hPg => by
            rw [show renderEntry EntryForm.sc c P = lineSC P from rfl, lineSC_decomp]
            exact tryP3_none_slash hPg.1 (fun ch hch => (hPg.2 ch hch).1)
              (Or.inr ⟨rest, rfl⟩)) L hL]
      rw [addPaths_nil, addPaths_nil]
      exact addPaths_absorb
  | eb =>
      rw [getFilterPaths_x, extract_eb_P2 L hL, extract_eb_P3 L hL, extract_eb_P4 L hL,
        scanExtract_doc_none tryP1_sound (fun a cs h => tryP1_head_ne h) tryP1_close hclt
          (fun P rest hPg => by
            rw [show renderEntry EntryForm.eb c P = lineEB P from rfl, lineEB_decomp]
            exact tryP1_none_gt (closeTag ++ '\n' :: rest) hPg.1
              (fun ch hch => (hPg.2 ch hch).1)) L hL]
      rw [addPaths_absorb, addPaths_absorb, addPaths_nil]
  | cb =>
      rw [getFilterPaths_x, extract_cb_P3 hc L hL, extract_cb_P4 hc L hL,
        scanExtract_doc_none tryP1_sound (fun a cs h => tryP1_head_ne h) tryP1_close hclt
          (fun P rest hPg => by
            rw [show renderEntry EntryForm.cb c P = lineCB P c from rfl, lineCB_decomp]
            exact tryP1_none_gt (c ++ (closeTag ++ '\n' :: rest)) hPg.1
              (fun ch hch => (hPg.2 ch hch).1)) L hL,
        scanExtract_doc_none tryP2_sound (fun a cs h => tryP2_head_ne h) tryP2_close hclt
          (fun P rest hPg => by
            rw [show renderEntry EntryForm.cb c P = lineCB P c from rfl, lineCB_decomp]
            obtain ⟨c0, c', hcc⟩ : ∃ c0 c', c = c0 :: c' := by
              cases c with
              | nil => exact absurd rfl hcne
              | cons a b => exact ⟨a, b, rfl⟩
            subst hcc
            rw [List.cons_append]
            exact tryP2_none_content _ hPg.1 (fun ch hch => (hPg.2 ch hch).1)
              ((hc c0 (by simp)).2.1)) L hL]
      rw [addPaths_absorb, addPaths_nil, addPaths_nil]
  | xa =>
      rw [getFilterPaths_x, extract_xa_P4 L hL,
        scanExtract_doc_none tryP1_sound (fun a cs h => tryP1_head_ne h) tryP1_close hclt
          (fun P rest hPg => by
            rw [show renderEntry EntryForm.xa c P = lineXA P from rfl]
            exact tryP1_none_XA) L hL,
        scanExtract_doc_none tryP2_sound (fun a cs h => tryP2_head_ne h) tryP2_close hclt
          (fun P rest hPg => by
            rw [show renderEntry EntryForm.xa c P = lineXA P from rfl]
            exact tryP2_none_XA) L hL,
        scanExtract_doc_none tryP3_sound (fun a cs h => tryP3_head_ne h) tryP3_close hclt
          (fun P rest hPg => by
            rw [show renderEntry EntryForm.xa c P = lineXA P from rfl]
            exact tryP3_none_XA) L hL]
      rw [addPaths_nil, addPaths_nil, addPaths_nil]

/-! ## The detector's line-based extractor on rendered manifests -/

theorem detLineMatch_EB {p : List Char} (hp : GoodPath p) :
    detLineMatch (lineEB p) = some p := by
  have h : lineEB p = lineEB p ++ [] := by simp
  rw [h, lineEB_decomp]
  simp only [detLineMatch,
    show ∀ X : List Char, (tagOpen ++ X).dropWhile isWS = tagOpen ++ X from
      fun _ => rfl,
    lit_append, Option.bind_eq_bind, Option.some_bind, many1_ws_rootAttr,
    many1_notQuote_exact hp.1 (fun ch hc => (hp.2 ch hc).1),
    show ∀ X : List Char,
      lit ("\"></filter>".data) ('"' :: ('>' :: (closeTag ++ X))) = some X from
      fun _ => rfl]
  rfl

theorem newline_not_mem_lineEB {p : List Char} (hp : GoodPath p) : '\n' ∉ lineEB p := by
  intro hmem
  rw [lineEB] at hmem
  simp only [List.mem_append] at hmem
  rcases hmem with (h | h) | h
  · revert h; decide
  · exact (hp.2 _ h).2.2.2.1 rfl
  · revert h; decide

theorem splitOn_newline_step {A rest : List Char} (hA : '\n' ∉ A) :
    List.splitOn '\n' (A ++ '\n' :: rest) = A :: List.splitOn '\n' rest := by
  show List.splitOnP (· == '\n') (A ++ '\n' :: rest) =
    A :: List.splitOnP (· == '\n') rest
  exact List.splitOnP_first (· == '\n') A
    (fun x hx hxe => hA (beq_iff_eq.mp hxe ▸ hx)) '\n' (by simp) rest

/-- The detector's extractor recovers exactly the path list of an empty-body
manifest, duplicates included. -/
theorem getFilterPaths_det_eb {c : List Char} :
    ∀ L, (∀ p ∈ L, GoodPath p) → getFilterPaths_det (renderDoc EntryForm.eb c L) = L := by
  intro L
  induction L with
  | nil => intro _; rfl
  | cons p ps ih =>
      intro hL
      have hp := hL p (by simp)
      show (List.splitOn '\n' (renderDoc EntryForm.eb c (p :: ps))).filterMap detLineMatch
        = p :: ps
      rw [renderDoc, show renderEntry EntryForm.eb c p = lineEB p from rfl,
        splitOn_newline_step (newline_not_mem_lineEB hp)]
      simp only [List.filterMap_cons, detLineMatch_EB hp]
      exact congrArg (List.cons p) (ih (fun q hq => hL q (by simp [hq])))

/-- C4 (counterexample to the claim as stated): the detector's
`getFilterPaths` — one of the claim's two named sources — recognises only
empty-body entries, so a self-closing manifest yields the empty list where
the `xwalk-content.js` extractor yields the path; and on empty-body
manifests it keeps duplicates instead of removing them. -/
theorem C4_counterexample :
    getFilterPaths_det (renderDoc EntryForm.sc [] [("/a".data)]) = [] ∧
    getFilterPaths_x (renderDoc EntryForm.sc [] [("/a".data)]) = [("/a".data)] ∧
    getFilterPaths_det (renderDoc EntryForm.eb [] [("/a".data), ("/a".data)]) =
      [("/a".data), ("/a".data)] := by
  decide

/-- C4: the claim as stated fails for the detector variant of
`getFilterPaths` (`C4_counterexample`).  Amended: the extractor of
`xwalk-content.js` and of the combined script yields, on a manifest written
uniformly in any of the four supported syntaxes, one and the same list —
the root values in first-seen order with duplicates removed; the detector's
extractor agrees only on the empty-body syntax, where it returns the values
in order but keeps duplicates. -/
theorem C4_extractor_four_syntaxes {c : List Char} {L : List (List Char)}
    (hL : ∀ p ∈ L, GoodPath p) (hc : GoodText c) (hcne : c ≠ []) :
    (∀ f : EntryForm, getFilterPaths_x (renderDoc f c L) = firstSeen L) ∧
    getFilterPaths_det (renderDoc EntryForm.eb c L) = L :=
  ⟨fun f => getFilterPaths_x_doc hL hc hcne, getFilterPaths_det_eb L hL⟩

theorem C4_extractor_four_syntaxes_witness :
    (∀ f : EntryForm, getFilterPaths_x (renderDoc f ("ok".data)
        [("/content/a".data), ("/content/b".data), ("/content/a".data)]) =
      firstSeen [("/content/a".data), ("/content/b".data), ("/content/a".data)]) ∧
    getFilterPaths_det (renderDoc EntryForm.eb ("ok".data)
        [("/content/a".data), ("/content/b".data), ("/content/a".data)]) =
      [("/content/a".data), ("/content/b".data), ("/content/a".data)] :=
  C4_extractor_four_syntaxes (by unfold GoodPath goodChar; decide)
    (by unfold GoodText; decide) (by decide)

/-! ## Boundary analysis of literal occurrences -/

theorem suffix_ne_nil_mem_last {S A : List Char} {x : Char} (h : S <:+ A ++ [x])
    (hS : S ≠ []) : x ∈ S := by
  obtain ⟨w, hw⟩ := h
  rcases List.eq_nil_or_concat S with rfl | ⟨S', s, hs⟩
  · exact absurd rfl hS
  · subst hs
    rw [List.concat_eq_append, ← List.append_assoc] at hw
    have h2 := (List.append_inj' hw rfl).2
    simp only [List.cons.injEq, and_true] at h2
    subst h2
    simp

/-- No occurrence can straddle a boundary whose left side ends in a character
foreign to the pattern. -/
theorem not_infix_append_lastbar {nd A' B : List Char} {x : Char}
    (hA : ¬ nd <:+: A' ++ [x]) (hB : ¬ nd <:+: B) (hx : x ∉ nd) :
    ¬ nd <:+: (A' ++ [x]) ++ B := by
  intro h
  rcases infix_append_cases h with h | h | ⟨k, hk0, hkl, hsuf, hpre⟩
  · exact hA h
  · exact hB h
  · have hne : nd.take k ≠ [] := by
      intro hnil
      have hlen := congrArg List.length hnil
      rw [List.length_take] at hlen
      simp only [List.length_nil] at hlen
      omega
    exact hx (List.take_subset k nd (suffix_ne_nil_mem_last hsuf hne))

/-- No occurrence can straddle a boundary whose right side begins with a
character foreign to the pattern. -/
theorem not_infix_append_headbar {nd A B' : List Char} {y : Char}
    (hA : ¬ nd <:+: A) (hB : ¬ nd <:+: y :: B') (hy : y ∉ nd) :
    ¬ nd <:+: A ++ (y :: B') := by
  intro h
  rcases infix_append_cases h with h | h | ⟨k, hk0, hkl, hsuf, hpre⟩
  · exact hA h
  · exact hB h
  · rw [List.drop_eq_getElem_cons hkl, List.cons_prefix_cons] at hpre
    exact hy (hpre.1 ▸ List.getElem_mem hkl)

theorem not_infix_cons {nd rest : List Char} {d n0 : Char} {nd' : List Char}
    (hnd : nd = n0 :: nd') (hne : n0 ≠ d) (hrest : ¬ nd <:+: rest) :
    ¬ nd <:+: d :: rest := by
  intro h
  rcases List.infix_cons_iff.mp h with h | h
  · rw [hnd, List.cons_prefix_cons] at h
    exact hne h.1
  · exact hrest h

/-- A pattern absent from a block ending in a foreign character cannot match
at any offset inside the block. -/
theorem front_no_match {pat A' s : List Char} {x : Char}
    (hxn : x ∉ pat) (hfree : ¬ pat <:+: A' ++ [x]) :
    ∀ i, i < (A' ++ [x]).length → ¬ pat <+: ((A' ++ [x]) ++ s).drop i := by
  intro i hi h
  have hi' : i ≤ A'.length := by
    simp only [List.length_append, List.length_cons, List.length_nil] at hi
    omega
  rw [List.append_assoc, List.singleton_append,
    List.drop_append_of_le_length hi'] at h
  rcases prefix_append_split h with h1 | ⟨h1, h2⟩
  · exact hfree ((h1.isInfix.trans (List.drop_suffix i A').isInfix).trans
      (List.prefix_append A' [x]).isInfix)
  · by_cases hl : (A'.drop i).length < pat.length
    · rw [List.drop_eq_getElem_cons hl, List.cons_prefix_cons] at h2
      exact hxn (h2.1 ▸ List.getElem_mem hl)
    · push_neg at hl
      have heq : A'.drop i = pat := h1.eq_of_length (Nat.le_antisymm h1.length_le hl)
      exact hfree (((heq ▸ (List.drop_suffix i A').isInfix :
        pat <:+: A')).trans (List.prefix_append A' [x]).isInfix)

theorem replaceLit_append_front {ndl repl : List Char} (hndl : ndl ≠ []) :
    ∀ (A s : List Char), (∀ i, i < A.length → ¬ ndl <+: (A ++ s).drop i) →
      replaceLit ndl repl (A ++ s) = A ++ replaceLit ndl repl s := by
  intro A
  induction A with
  | nil => intro s _; rfl
  | cons a A' ih =>
      intro s h
      have h0 : ¬ ndl <+: a :: (A' ++ s) := by
        have := h 0 (by simp)
        simpa using this
      rw [List.cons_append, replaceLit_neg hndl h0,
        ih s (fun i hi => by
          have := h (i + 1) (by simp only [List.length_cons]; omega)
          simpa using this), List.cons_append]

/-- Global literal replacement distributes over a boundary whose right side
begins with a character foreign to the pattern. -/
theorem replaceLit_append_split {ndl repl : List Char} (hndl : ndl ≠ []) {y : Char}
    (hy : y ∉ ndl) :
    ∀ s t, replaceLit ndl repl (s ++ (y :: t)) =
      replaceLit ndl repl s ++ replaceLit ndl repl (y :: t) := by
  have main : ∀ n s t, s.length ≤ n → replaceLit ndl repl (s ++ (y :: t)) =
      replaceLit ndl repl s ++ replaceLit ndl repl (y :: t) := by
    intro n
    induction n with
    | zero =>
        intro s t hs
        have h0 : s = [] := List.length_eq_zero.mp (by omega)
        subst h0
        simp [replaceLit_nil]
    | succ n ih =>
        intro s t hs
        cases hsc : s with
        | nil => simp [replaceLit_nil]
        | cons c s' =>
            subst hsc
            by_cases hp : ndl <+: (c :: s') ++ (y :: t)
            · have hlen : ndl.length ≤ (c :: s').length := by
                by_contra hlt
                push_neg at hlt
                rcases prefix_append_split hp with h1 | ⟨h1, h2⟩
                · have := h1.length_le
                  omega
                · rw [List.drop_eq_getElem_cons hlt, List.cons_prefix_cons] at h2
                  exact hy (h2.1 ▸ List.getElem_mem hlt)
              have hps : ndl <+: c :: s' := by
                rcases prefix_append_split hp with h1 | ⟨h1, h2⟩
                · exact h1
                · have heq : c :: s' = ndl :=
                    h1.eq_of_length (Nat.le_antisymm h1.length_le hlen)
                  rw [heq]
              obtain ⟨u, hu⟩ := hps
              have hulen : u.length ≤ n := by
                have hlc := congrArg List.length hu
                cases hn2 : ndl with
                | nil => exact absurd hn2 hndl
                | cons e es =>
                    rw [hn2] at hlc
                    simp only [List.length_append, List.length_cons] at hlc hs ⊢
                    omega
              rw [← hu, List.append_assoc, replaceLit_pos hndl, replaceLit_pos hndl,
                ih u t hulen, List.append_assoc]
            · have hp' : ¬ ndl <+: c :: s' :=
                fun hc => hp (hc.trans (List.prefix_append _ _))
              have hs' : s'.length ≤ n := by
                simp only [List.length_cons] at hs
                omega
              rw [List.cons_append, replaceLit_neg hndl (by
                  rw [← List.cons_append]
                  exact hp),
                replaceLit_neg hndl hp', ih s' t hs', List.cons_append]
  intro s t
  exact main s.length s t le_rfl

theorem replaceFirst_append_front {pat repl : List Char} :
    ∀ (A s : List Char), (∀ i, i < A.length → ¬ pat <+: (A ++ s).drop i) →
      replaceFirst pat repl (A ++ s) = A ++ replaceFirst pat repl s := by
  intro A
  induction A with
  | nil => intro s _; rfl
  | cons a A' ih =>
      intro s h
      have h0 : ¬ pat <+: a :: (A' ++ s) := by
        have := h 0 (by simp)
        simpa using this
      rw [List.cons_append, replaceFirst,
        if_neg (fun hc => h0 (List.isPrefixOf_iff_prefix.mp hc)),
        ih s (fun i hi => by
          have := h (i + 1) (by simp only [List.length_cons]; omega)
          simpa using this), List.cons_append]

theorem replaceFirst_at {pat repl tail : List Char} (hpat : pat ≠ []) :
    replaceFirst pat repl (pat ++ tail) = repl ++ tail := by
  cases hp : pat with
  | nil => exact absurd hp hpat
  | cons p0 P' =>
      subst hp
      rw [List.cons_append, replaceFirst, if_pos (List.isPrefixOf_iff_prefix.mpr (by
        rw [← List.cons_append]
        exact List.prefix_append _ _))]
      rw [← List.cons_append, List.drop_left]

theorem replaceLit_ne_nil {ndl repl : List Char} (hndl : ndl ≠ []) (hrepl : repl ≠ [])
    {s : List Char} (hs : s ≠ []) : replaceLit ndl repl s ≠ [] := by
  cases s with
  | nil => exact absurd rfl hs
  | cons c cs =>
      by_cases hp : ndl <+: c :: cs
      · obtain ⟨u, hu⟩ := hp
        rw [← hu, replaceLit_pos hndl]
        exact append_ne_nil_left hrepl
      · rw [replaceLit_neg hndl hp]
        simp

theorem mem_replaceLit {ndl repl : List Char} (hndl : ndl ≠ []) {ch : Char} :
    ∀ {s : List Char}, ch ∈ replaceLit ndl repl s → ch ∈ s ∨ ch ∈ repl := by
  have main : ∀ n (s : List Char), s.length ≤ n → ch ∈ replaceLit ndl repl s →
      ch ∈ s ∨ ch ∈ repl := by
    intro n
    induction n with
    | zero =>
        intro s hs h
        have h0 : s = [] := List.length_eq_zero.mp (by omega)
        subst h0
        rw [replaceLit_nil] at h
        simp at h
    | succ n ih =>
        intro s hs h
        cases hsc : s with
        | nil =>
            subst hsc
            rw [replaceLit_nil] at h
            simp at h
        | cons c s' =>
            subst hsc
            by_cases hp : ndl <+: c :: s'
            · obtain ⟨u, hu⟩ := hp
              rw [← hu, replaceLit_pos hndl] at h
              have hulen : u.length ≤ n := by
                have hlc := congrArg List.length hu
                cases hn2 : ndl with
                | nil => exact absurd hn2 hndl
                | cons e es =>
                    rw [hn2] at hlc
                    simp only [List.length_append, List.length_cons] at hlc hs ⊢
                    omega
              rcases List.mem_append.mp h with h | h
              · exact Or.inr h
              · rcases ih u hulen h with h | h
                · refine Or.inl ?_
                  rw [← hu]
                  simp [h]
                · exact Or.inr h
            · rw [replaceLit_neg hndl hp] at h
              rcases List.mem_cons.mp h with rfl | h
              · exact Or.inl (by simp)
              · have hs' : s'.length ≤ n := by
                  simp only [List.length_cons] at hs
                  omega
                rcases ih s' hs' h with h | h
                · exact Or.inl (by simp [h])
                · exact Or.inr h
  intro s h
  exact main s.length s le_rfl h

theorem GoodPath_replaceNeedle {repo P : List Char} (hrepo : GoodRepo repo)
    (hP : GoodPath P) : GoodPath (replaceNeedle repo P) := by
  constructor
  · exact replaceLit_ne_nil needle_ne_nil hrepo.1 hP.1
  · intro ch hch
    rcases mem_replaceLit needle_ne_nil hch with h | h
    · exact hP.2 ch h
    · exact (hrepo.2 ch h).1

theorem needle_eq : needle = 's' :: ("ta-xwalk-boilerplate".data) := rfl

/-- The tail of a content-bearing entry is free of the placeholder when its
content is. -/
theorem cb_tail_free {c E : List Char} (hcfree : ¬ needle <:+: c)
    (hE : ¬ needle <:+: E) : ¬ needle <:+: '"' :: ('>' :: (c ++ (closeTag ++ E))) := by
  have h1 : ¬ needle <:+: closeTag ++ E := by
    rw [show closeTag = ("</filter".data) ++ ['>'] from rfl]
    exact not_infix_append_lastbar (by decide) hE (by decide)
  have h2 : ¬ needle <:+: c ++ (closeTag ++ E) := by
    rw [show closeTag = '<' :: ("/filter>".data) from rfl, List.cons_append]
    refine not_infix_append_headbar hcfree ?_ (by decide)
    rw [show ('<' :: ((("/filter>".data) : List Char) ++ E)) = closeTag ++ E from rfl]
    exact h1
  exact not_infix_cons needle_eq (by decide)
    (not_infix_cons needle_eq (by decide) h2)

/-- A rendered entry is free of the placeholder when its path and content
are. -/
theorem entry_free {f : EntryForm} {c P : List Char} (hcfree : ¬ needle <:+: c)
    (hPfree : ¬ needle <:+: P) :
    ¬ needle <:+: renderEntry f c P := by
  cases f with
  | sc =>
      rw [show renderEntry EntryForm.sc c P = lineSC P from rfl, lineSC,
        show ("<filter root=\"".data : List Char) =
          ("<filter root=".data) ++ ['"'] from rfl, List.append_assoc]
      refine not_infix_append_lastbar (by decide) ?_ (by decide)
      rw [show ("\"/>".data : List Char) = '"' :: ("/>".data) from rfl]
      exact not_infix_append_headbar hPfree (by decide) (by decide)
  | eb =>
      rw [show renderEntry EntryForm.eb c P = lineEB P from rfl, lineEB,
        show ("<filter root=\"".data : List Char) =
          ("<filter root=".data) ++ ['"'] from rfl, List.append_assoc]
      refine not_infix_append_lastbar (by decide) ?_ (by decide)
      rw [show ("\"></filter>".data : List Char) = '"' :: ("></filter>".data) from rfl]
      exact not_infix_append_headbar hPfree (by decide) (by decide)
  | cb =>
      rw [show renderEntry EntryForm.cb c P = lineCB P c from rfl]
      have htail := cb_tail_free hcfree (show ¬ needle <:+: ([] : List Char) by decide)
      rw [List.append_nil] at htail
      have hshape : lineCB P c = (("<filter root=".data) ++ ['"']) ++
          (P ++ ('"' :: ('>' :: (c ++ closeTag)))) := by
        rw [lineCB]
        simp [show ("<filter root=\"".data : List Char) =
            ("<filter root=".data) ++ ['"'] from rfl,
          show ("\">".data : List Char) = ['"', '>'] from rfl, List.append_assoc]
      rw [hshape]
      refine not_infix_append_lastbar (by decide) ?_ (by decide)
      exact not_infix_append_headbar hPfree htail (by decide)
  | xa =>
      rw [show renderEntry EntryForm.xa c P = lineXA P from rfl, lineXA,
        show ("<filter mode=\"edit\" root=\"".data : List Char) =
          ("<filter mode=\"edit\" root=".data) ++ ['"'] from rfl, List.append_assoc]
      refine not_infix_append_lastbar (by decide) ?_ (by decide)
      rw [show ("\"/>".data : List Char) = '"' :: ("/>".data) from rfl]
      exact not_infix_append_headbar hPfree (by decide) (by decide)

/-- A whole rendered manifest is free of the placeholder when every path and
the content are. -/
theorem doc_needle_free {f : EntryForm} {c : List Char} (hcfree : ¬ needle <:+: c) :
    ∀ L, (∀ p ∈ L, ¬ needle <:+: p) → ¬ needle <:+: renderDoc f c L := by
  intro L
  induction L with
  | nil =>
      intro _
      exact (by decide : ¬ needle <:+: ([] : List Char))
  | cons p ps ih =>
      intro hL
      rw [renderDoc]
      exact not_infix_append_headbar
        (entry_free hcfree (hL p (by simp)))
        (not_infix_cons needle_eq (by decide) (ih (fun q hq => hL q (by simp [hq]))))
        (by decide)

/-- The combined variant's global literal replacement acts entrywise on a
rendered manifest, rewriting exactly the path values. -/
theorem replaceNeedle_doc {repo c : List Char} {f : EntryForm} (hcfree : ¬ needle <:+: c) :
    ∀ L, replaceNeedle repo (renderDoc f c L) =
      renderDoc f c (L.map (replaceNeedle repo)) := by
  intro L
  induction L with
  | nil => rfl
  | cons p ps ih =>
      simp only [replaceNeedle] at ih ⊢
      rw [renderDoc, List.map_cons, renderDoc]
      cases f with
      | sc =>
          rw [show renderEntry EntryForm.sc c p = lineSC p from rfl,
            show renderEntry EntryForm.sc c (replaceNeedle repo p) =
              lineSC (replaceNeedle repo p) from rfl, replaceNeedle]
          have hshape : lineSC p ++ '\n' :: renderDoc EntryForm.sc c ps =
              (("<filter root=".data) ++ ['"']) ++ (p ++ ('"' ::
                ((("/>".data) ++ ['\n']) ++ renderDoc EntryForm.sc c ps))) := by
            rw [lineSC]
            simp [show ("<filter root=\"".data : List Char) =
                ("<filter root=".data) ++ ['"'] from rfl,
              show ("\"/>".data : List Char) = '"' :: ("/>".data) from rfl,
              List.append_assoc]
          rw [hshape,
            replaceLit_append_front needle_ne_nil _ _
              (front_no_match (by decide) (by decide)),
            replaceLit_append_split needle_ne_nil (by decide) p _,
            show ('"' :: ((("/>".data) ++ ['\n']) ++ renderDoc EntryForm.sc c ps) :
                List Char) =
              ((("\"/>".data) ++ ['\n'])) ++ renderDoc EntryForm.sc c ps from by simp,
            replaceLit_append_front needle_ne_nil _ _
              (front_no_match (by decide) (by decide)), ih]
          rw [lineSC]
          simp [show ("<filter root=\"".data : List Char) =
              ("<filter root=".data) ++ ['"'] from rfl,
            show ("\"/>".data : List Char) = '"' :: ("/>".data) from rfl,
            List.append_assoc]
      | eb =>
          rw [show renderEntry EntryForm.eb c p = lineEB p from rfl,
            show renderEntry EntryForm.eb c (replaceNeedle repo p) =
              lineEB (replaceNeedle repo p) from rfl, replaceNeedle]
          have hshape : lineEB p ++ '\n' :: renderDoc EntryForm.eb c ps =
              (("<filter root=".data) ++ ['"']) ++ (p ++ ('"' ::
                ((("></filter>".data) ++ ['\n']) ++ renderDoc EntryForm.eb c ps))) := by
            rw [lineEB]
            simp [show ("<filter root=\"".data : List Char) =
                ("<filter root=".data) ++ ['"'] from rfl,
              show ("\"></filter>".data : List Char) =
                '"' :: ("></filter>".data) from rfl,
              List.append_assoc]
          rw [hshape,
            replaceLit_append_front needle_ne_nil _ _
              (front_no_match (by decide) (by decide)),
            replaceLit_append_split needle_ne_nil (by decide) p _,
            show ('"' :: ((("></filter>".data) ++ ['\n']) ++
                renderDoc EntryForm.eb c ps) : List Char) =
              ((("\"></filter>".data) ++ ['\n'])) ++ renderDoc EntryForm.eb c ps
              from by simp,
            replaceLit_append_front needle_ne_nil _ _
              (front_no_match (by decide) (by decide)), ih]
          rw [lineEB]
          simp [show ("<filter root=\"".data : List Char) =
              ("<filter root=".data) ++ ['"'] from rfl,
            show ("\"></filter>".data : List Char) =
              '"' :: ("></filter>".data) from rfl,
            List.append_assoc]
      | cb =>
          rw [show renderEntry EntryForm.cb c p = lineCB p c from rfl,
            show renderEntry EntryForm.cb c (replaceNeedle repo p) =
              lineCB (replaceNeedle repo p) c from rfl, replaceNeedle]
          have hblock : ¬ needle <:+: (('"' :: ('>' :: (c ++ closeTag))) ++ ['\n']) := by
            have h := cb_tail_free hcfree
              (show ¬ needle <:+: (['\n'] : List Char) by decide)
            simpa [List.append_assoc] using h
          have hshape : lineCB p c ++ '\n' :: renderDoc EntryForm.cb c ps =
              (("<filter root=".data) ++ ['"']) ++ (p ++ ('"' ::
                ((('>' :: (c ++ closeTag)) ++ ['\n']) ++
                  renderDoc EntryForm.cb c ps))) := by
            rw [lineCB]
            simp [show ("<filter root=\"".data : List Char) =
                ("<filter root=".data) ++ ['"'] from rfl,
              show ("\">".data : List Char) = ['"', '>'] from rfl, List.append_assoc]
          rw [hshape,
            replaceLit_append_front needle_ne_nil _ _
              (front_no_match (by decide) (by decide)),
            replaceLit_append_split needle_ne_nil (by decide) p _,
            show ('"' :: ((('>' :: (c ++ closeTag)) ++ ['\n']) ++
                renderDoc EntryForm.cb c ps) : List Char) =
              (('"' :: ('>' :: (c ++ closeTag))) ++ ['\n']) ++
                renderDoc EntryForm.cb c ps from by simp,
            replaceLit_append_front needle_ne_nil _ _
              (front_no_match (by decide) hblock), ih]
          rw [lineCB]
          simp [show ("<filter root=\"".data : List Char) =
              ("<filter root=".data) ++ ['"'] from rfl,
            show ("\">".data : List Char) = ['"', '>'] from rfl, List.append_assoc]
      | xa =>
          rw [show renderEntry EntryForm.xa c p = lineXA p from rfl,
            show renderEntry EntryForm.xa c (replaceNeedle repo p) =
              lineXA (replaceNeedle repo p) from rfl, replaceNeedle]
          have hshape : lineXA p ++ '\n' :: renderDoc EntryForm.xa c ps =
              (("<filter mode=\"edit\" root=".data) ++ ['"']) ++ (p ++ ('"' ::
                ((("/>".data) ++ ['\n']) ++ renderDoc EntryForm.xa c ps))) := by
            rw [lineXA]
            simp [show ("<filter mode=\"edit\" root=\"".data : List Char) =
                ("<filter mode=\"edit\" root=".data) ++ ['"'] from rfl,
              show ("\"/>".data : List Char) = '"' :: ("/>".data) from rfl,
              List.append_assoc]
          rw [hshape,
            replaceLit_append_front needle_ne_nil _ _
              (front_no_match (by decide) (by decide)),
            replaceLit_append_split needle_ne_nil (by decide) p _,
            show ('"' :: ((("/>".data) ++ ['\n']) ++ renderDoc EntryForm.xa c ps) :
                List Char) =
              ((("\"/>".data) ++ ['\n'])) ++ renderDoc EntryForm.xa c ps from by simp,
            replaceLit_append_front needle_ne_nil _ _
              (front_no_match (by decide) (by decide)), ih]
          rw [lineXA]
          simp [show ("<filter mode=\"edit\" root=\"".data : List Char) =
              ("<filter mode=\"edit\" root=".data) ++ ['"'] from rfl,
            show ("\"/>".data : List Char) = '"' :: ("/>".data) from rfl,
            List.append_assoc]

/-- The replace scanner copies one whole non-matching entry unchanged. -/
theorem scanRepl_skip_entry {κ : Type} {tryM : List Char → MRes κ}
    {cb : List Char → κ → List Char} (hs : MSound tryM)
    (hhead : ∀ a cs, a ≠ '<' → tryM (a :: cs) = none)
    (hclose : ∀ X, tryM ('<' :: ('/' :: X)) = none)
    {f : EntryForm} {c P rest : List Char}
    (hP : ∀ ch ∈ P, ch ≠ '<') (hc : ∀ ch ∈ c, ch ≠ '<')
    (hfail : tryM (renderEntry f c P ++ rest) = none) :
    scanRepl tryM cb (renderEntry f c P ++ rest) =
      renderEntry f c P ++ scanRepl tryM cb rest := by
  cases f with
  | sc =>
      rw [show renderEntry EntryForm.sc c P = lineSC P from rfl] at hfail ⊢
      rw [lineSC_cons] at hfail
      rw [lineSC_cons P rest, lineSC_cons P (scanRepl tryM cb rest),
        scanRepl_nomatch hs hfail,
        scanRepl_skip hs '<' hhead _ rest (by
          intro ch hch
          simp only [List.mem_append] at hch
          rcases hch with (hch | hch) | hch
          · revert ch; decide
          · exact hP ch hch
          · revert ch; decide)]
  | eb =>
      rw [show renderEntry EntryForm.eb c P = lineEB P from rfl] at hfail ⊢
      rw [lineEB_cons] at hfail
      rw [lineEB_cons P rest, lineEB_cons P (scanRepl tryM cb rest),
        scanRepl_nomatch hs hfail,
        scanRepl_skip hs '<' hhead _ _ (by
          intro ch hch
          simp only [List.mem_append] at hch
          rcases hch with (hch | hch) | hch
          · revert ch; decide
          · exact hP ch hch
          · revert ch; decide),
        show ('<' :: ((("/filter>".data) : List Char) ++ rest)) =
          '<' :: ('/' :: (("filter>".data) ++ rest)) from rfl,
        scanRepl_nomatch hs (hclose _),
        show ('/' :: ((("filter>".data) : List Char) ++ rest)) = ("/filter>".data) ++ rest
          from rfl,
        scanRepl_skip hs '<' hhead _ rest (by
          intro ch hch
          revert ch; decide)]
  | cb =>
      rw [show renderEntry EntryForm.cb c P = lineCB P c from rfl] at hfail ⊢
      rw [lineCB_cons] at hfail
      rw [lineCB_cons P c rest, lineCB_cons P c (scanRepl tryM cb rest),
        scanRepl_nomatch hs hfail,
        scanRepl_skip hs '<' hhead _ _ (by
          intro ch hch
          simp only [List.mem_append] at hch
          rcases hch with ((hch | hch) | hch) | hch
          · revert ch; decide
          · exact hP ch hch
          · revert ch; decide
          · exact hc ch hch),
        show ('<' :: ((("/filter>".data) : List Char) ++ rest)) =
          '<' :: ('/' :: (("filter>".data) ++ rest)) from rfl,
        scanRepl_nomatch hs (hclose _),
        show ('/' :: ((("filter>".data) : List Char) ++ rest)) = ("/filter>".data) ++ rest
          from rfl,
        scanRepl_skip hs '<' hhead _ rest (by
          intro ch hch
          revert ch; decide)]
  | xa =>
      rw [show renderEntry EntryForm.xa c P = lineXA P from rfl] at hfail ⊢
      rw [lineXA_cons] at hfail
      rw [lineXA_cons P rest, lineXA_cons P (scanRepl tryM cb rest),
        scanRepl_nomatch hs hfail,
        scanRepl_skip hs '<' hhead _ rest (by
          intro ch hch
          simp only [List.mem_append] at hch
          rcases hch with (hch | hch) | hch
          · revert ch; decide
          · exact hP ch hch
          · revert ch; decide)]

/-- A pattern-indifferent entry is copied whole, newline included. -/
theorem scanRepl_entry_id {κ : Type} {tryM : List Char → MRes κ}
    {cb : List Char → κ → List Char} (hs : MSound tryM)
    (hhead : ∀ a cs, a ≠ '<' → tryM (a :: cs) = none)
    (hclose : ∀ X, tryM ('<' :: ('/' :: X)) = none)
    {f : EntryForm} {c P rest : List Char}
    (hP : ∀ ch ∈ P, ch ≠ '<') (hc : ∀ ch ∈ c, ch ≠ '<')
    (hfail : tryM (renderEntry f c P ++ '\n' :: rest) = none) :
    scanRepl tryM cb (renderEntry f c P ++ '\n' :: rest) =
      renderEntry f c P ++ '\n' :: scanRepl tryM cb rest := by
  rw [scanRepl_skip_entry hs hhead hclose hP hc hfail,
    scanRepl_nomatch hs (hhead '\n' _ (by decide))]

/-- A pass that rewrites each entry in the same way acts on a rendered
manifest as a map over its path list. -/
theorem scanRepl_doc_map {κ : Type} {tryM : List Char → MRes κ}
    {cb : List Char → κ → List Char} {f : EntryForm} {c : List Char}
    (g : List Char → List Char) :
    ∀ L : List (List Char), (∀ P rest, P ∈ L →
        scanRepl tryM cb (renderEntry f c P ++ '\n' :: rest) =
          renderEntry f c (g P) ++ '\n' :: scanRepl tryM cb rest) →
      scanRepl tryM cb (renderDoc f c L) = renderDoc f c (L.map g) := by
  intro L
  induction L with
  | nil => intro _; rfl
  | cons p ps ih =>
      intro hstep
      rw [renderDoc, List.map_cons, renderDoc,
        hstep p (renderDoc f c ps) (by simp),
        ih (fun P rest hPm => hstep P rest (by simp [hPm]))]

/-! ## The converter callback on rendered entries -/

theorem isSub_slash_SC {P : List Char} : isSub ("/>".data) (lineSC P) = true := by
  rw [isSub_iff]
  refine ⟨("<filter root=\"".data) ++ P ++ ['"'], [], ?_⟩
  rw [lineSC]
  simp [show ("\"/>".data : List Char) = ['"'] ++ ("/>".data) from rfl, List.append_assoc]

theorem isSub_close_EB {P : List Char} : isSub ("></filter>".data) (lineEB P) = true := by
  rw [isSub_iff]
  refine ⟨("<filter root=\"".data) ++ P ++ ['"'], [], ?_⟩
  rw [lineEB]
  simp [show ("\"></filter>".data : List Char) = ['"'] ++ ("></filter>".data) from rfl,
    List.append_assoc]

theorem not_isSub_slash_EB {P : List Char} (hP : GoodPath P) :
    isSub ("/>".data) (lineEB P) = false := by
  rw [← Bool.not_eq_true, isSub_iff, lineEB,
    show ("<filter root=\"".data : List Char) = ("<filter root=".data) ++ ['"'] from rfl,
    List.append_assoc]
  refine not_infix_append_lastbar (by decide) ?_ (by decide)
  rw [show ("\"></filter>".data : List Char) = '"' :: ("></filter>".data) from rfl]
  refine not_infix_append_headbar ?_ (by decide) (by decide)
  intro h
  exact (hP.2 '>' (mem_of_occ h (by decide))).2.2.1 rfl

theorem not_isSub_slash_CB {P c : List Char} (hP : GoodPath P) (hc : GoodText c) :
    isSub ("/>".data) (lineCB P c) = false := by
  rw [← Bool.not_eq_true, isSub_iff]
  have hshape : lineCB P c = (("<filter root=".data) ++ ['"']) ++
      (P ++ ('"' :: ('>' :: (c ++ closeTag)))) := by
    rw [lineCB]
    simp [show ("<filter root=\"".data : List Char) =
        ("<filter root=".data) ++ ['"'] from rfl,
      show ("\">".data : List Char) = ['"', '>'] from rfl, List.append_assoc]
  rw [hshape]
  have h1 : ¬ ("/>".data : List Char) <:+: c ++ closeTag := by
    rw [show closeTag = '<' :: ("/filter>".data) from rfl]
    refine not_infix_append_headbar ?_ (by decide) (by decide)
    intro h
    exact (hc '>' (mem_of_occ h (by decide))).2.2.1 rfl
  refine not_infix_append_lastbar (by decide) ?_ (by decide)
  refine not_infix_append_headbar ?_ ?_ (by decide)
  · intro h
    exact (hP.2 '>' (mem_of_occ h (by decide))).2.2.1 rfl
  · exact not_infix_cons rfl (by decide) (not_infix_cons rfl (by decide) h1)

theorem not_isSub_close_CB {P c : List Char} (hP : GoodPath P) (hc : GoodText c)
    (hcne : c ≠ []) : isSub ("></filter>".data) (lineCB P c) = false := by
  rw [← Bool.not_eq_true, isSub_iff]
  have hshape : lineCB P c = (("<filter root=".data) ++ ['"']) ++
      (P ++ ('"' :: ('>' :: (c ++ closeTag)))) := by
    rw [lineCB]
    simp [show ("<filter root=\"".data : List Char) =
        ("<filter root=".data) ++ ['"'] from rfl,
      show ("\">".data : List Char) = ['"', '>'] from rfl, List.append_assoc]
  rw [hshape]
  have h1 : ¬ ("></filter>".data : List Char) <:+: c ++ closeTag := by
    intro h
    rcases infix_append_cases h with h | h | ⟨k, hk0, hkl, hsuf, hpre⟩
    · exact (hc '>' (mem_of_occ h (by decide))).2.2.1 rfl
    · exact (by decide : ¬ ("></filter>".data : List Char) <:+: closeTag) h
    · have hmem : '>' ∈ (("></filter>".data : List Char)).take k := by
        cases k with
        | zero => omega
        | succ j =>
            rw [show ("></filter>".data : List Char) = '>' :: ("</filter>".data)
              from rfl, List.take_succ_cons]
            simp
      exact (hc '>' (hsuf.sublist.subset hmem)).2.2.1 rfl
  have h2 : ¬ ("></filter>".data : List Char) <:+: '>' :: (c ++ closeTag) := by
    intro h
    rcases List.infix_cons_iff.mp h with h | h
    · rw [show ("></filter>".data : List Char) = '>' :: ("</filter>".data) from rfl,
        List.cons_prefix_cons] at h
      obtain ⟨-, h⟩ := h
      cases hcc : c with
      | nil => exact hcne hcc
      | cons c0 c' =>
          rw [hcc, List.cons_append,
            show ("</filter>".data : List Char) = '<' :: ("/filter>".data) from rfl,
            List.cons_prefix_cons] at h
          exact (hc c0 (by simp [hcc])).2.1 h.1.symm
    · exact h1 h
  refine not_infix_append_lastbar (by decide) ?_ (by decide)
  refine not_infix_append_headbar ?_ ?_ (by decide)
  · intro h
    exact (hP.2 '>' (mem_of_occ h (by decide))).2.2.1 rfl
  · exact not_infix_cons rfl (by decide) h2

theorem isSub_false_of_free {P : List Char} (hfree : ¬ needle <:+: P) :
    isSub needle P = false := by
  cases h : isSub needle P with
  | false => rfl
  | true => exact absurd ((isSub_iff _ _).mp h) hfree

theorem convCb_SC {repo P : List Char} (hP : GoodPath P) :
    convCb repo (lineSC P) P = lineSC (replaceNeedle repo P) := by
  by_cases hn : isSub needle P = true
  · rw [convCb, if_pos hn]
    show (if isSub ("/>".data) (lineSC P) = true then
        ("<filter root=\"".data) ++ replaceNeedle repo P ++ ("\"/>".data)
      else if isSub ("></filter>".data) (lineSC P) = true then
        ("<filter root=\"".data) ++ replaceNeedle repo P ++ ("\"></filter>".data)
      else replaceFirst P (replaceNeedle repo P) (lineSC P)) =
      lineSC (replaceNeedle repo P)
    rw [if_pos isSub_slash_SC, lineSC]
  · have hfree : ¬ needle <:+: P := fun h => hn ((isSub_iff _ _).mpr h)
    rw [convCb, if_neg hn, replaceNeedle, replaceLit_id needle_ne_nil P hfree]

theorem convCb_EB {repo P : List Char} (hP : GoodPath P) :
    convCb repo (lineEB P) P = lineEB (replaceNeedle repo P) := by
  by_cases hn : isSub needle P = true
  · rw [convCb, if_pos hn]
    show (if isSub ("/>".data) (lineEB P) = true then
        ("<filter root=\"".data) ++ replaceNeedle repo P ++ ("\"/>".data)
      else if isSub ("></filter>".data) (lineEB P) = true then
        ("<filter root=\"".data) ++ replaceNeedle repo P ++ ("\"></filter>".data)
      else replaceFirst P (replaceNeedle repo P) (lineEB P)) =
      lineEB (replaceNeedle repo P)
    rw [if_neg (by rw [not_isSub_slash_EB hP]; exact Bool.false_ne_true),
      if_pos isSub_close_EB, lineEB]
  · have hfree : ¬ needle <:+: P := fun h => hn ((isSub_iff _ _).mpr h)
    rw [convCb, if_neg hn, replaceNeedle, replaceLit_id needle_ne_nil P hfree]

theorem convCb_CB {repo P c : List Char} (hP : GoodPath P) (hc : GoodText c)
    (hcne : c ≠ []) :
    convCb repo (lineCB P c) P = lineCB (replaceNeedle repo P) c := by
  by_cases hn : isSub needle P = true
  · have hPlong : needle.length ≤ P.length := ((isSub_iff _ _).mp hn).length_le
    have hfreeA : ¬ P <:+: (("<filter root=".data) ++ ['"']) := by
      intro h
      have hlen := h.length_le
      rw [show ((("<filter root=".data) : List Char) ++ ['"']).length = 14 from rfl]
        at hlen
      rw [show needle.length = 21 from rfl] at hPlong
      omega
    have hshape : lineCB P c = (("<filter root=".data) ++ ['"']) ++
        (P ++ (("\">".data) ++ c ++ closeTag)) := by
      rw [lineCB]
      simp [show ("<filter root=\"".data : List Char) =
          ("<filter root=".data) ++ ['"'] from rfl, List.append_assoc]
    rw [convCb, if_pos hn]
    show (if isSub ("/>".data) (lineCB P c) = true then
        ("<filter root=\"".data) ++ replaceNeedle repo P ++ ("\"/>".data)
      else if isSub ("></filter>".data) (lineCB P c) = true then
        ("<filter root=\"".data) ++ replaceNeedle repo P ++ ("\"></filter>".data)
      else replaceFirst P (replaceNeedle repo P) (lineCB P c)) =
      lineCB (replaceNeedle repo P) c
    rw [if_neg (by rw [not_isSub_slash_CB hP hc]; exact Bool.false_ne_true),
      if_neg (by rw [not_isSub_close_CB hP hc hcne]; exact Bool.false_ne_true)]
    rw [hshape, replaceFirst_append_front _ _
        (front_no_match (fun hq => (hP.2 '"' hq).1 rfl) hfreeA),
      replaceFirst_at hP.1, lineCB]
    simp [show ("<filter root=\"".data : List Char) =
        ("<filter root=".data) ++ ['"'] from rfl, List.append_assoc]
  · have hfree : ¬ needle <:+: P := fun h => hn ((isSub_iff _ _).mpr h)
    rw [convCb, if_neg hn, replaceNeedle, replaceLit_id needle_ne_nil P hfree]

/-! ## The converter passes on rendered manifests -/

theorem conv1_sc_step {repo c P rest : List Char} (hP : GoodPath P) :
    scanRepl tryP1 (convCb repo) (renderEntry EntryForm.sc c P ++ '\n' :: rest) =
      renderEntry EntryForm.sc c (replaceNeedle repo P) ++ '\n' ::
        scanRepl tryP1 (convCb repo) rest := by
  rw [show renderEntry EntryForm.sc c P = lineSC P from rfl,
    show renderEntry EntryForm.sc c (replaceNeedle repo P) =
      lineSC (replaceNeedle repo P) from rfl,
    scanRepl_match tryP1_sound (tryP1_at_SC _ hP.1 (fun ch hch => (hP.2 ch hch).1)),
    convCb_SC hP, scanRepl_nomatch tryP1_sound (tryP1_head_ne (by decide))]

theorem conv2_eb_step {repo c P rest : List Char} (hP : GoodPath P) :
    scanRepl tryP2 (convCb repo) (renderEntry EntryForm.eb c P ++ '\n' :: rest) =
      renderEntry EntryForm.eb c (replaceNeedle repo P) ++ '\n' ::
        scanRepl tryP2 (convCb repo) rest := by
  rw [show renderEntry EntryForm.eb c P = lineEB P from rfl,
    show renderEntry EntryForm.eb c (replaceNeedle repo P) =
      lineEB (replaceNeedle repo P) from rfl,
    scanRepl_match tryP2_sound (tryP2_at_EB _ hP.1 (fun ch hch => (hP.2 ch hch).1)),
    convCb_EB hP, scanRepl_nomatch tryP2_sound (tryP2_head_ne (by decide))]

theorem conv3_cb_step {repo c P rest : List Char} (hP : GoodPath P) (hc : GoodText c)
    (hcne : c ≠ []) :
    scanRepl tryP3 (convCb repo) (renderEntry EntryForm.cb c P ++ '\n' :: rest) =
      renderEntry EntryForm.cb c (replaceNeedle repo P) ++ '\n' ::
        scanRepl tryP3 (convCb repo) rest := by
  rw [show renderEntry EntryForm.cb c P = lineCB P c from rfl,
    show renderEntry EntryForm.cb c (replaceNeedle repo P) =
      lineCB (replaceNeedle repo P) c from rfl,
    scanRepl_match tryP3_sound (tryP3_at_CB _ hP.1 (fun ch hch => (hP.2 ch hch).1)
      (fun ch hch => by simp [dotOk, (hc ch hch).2.2.2.1, (hc ch hch).2.2.2.2.1,
              (hc ch hch).2.2.2.2.2.1, (hc ch hch).2.2.2.2.2.2])
      (fun ch hch => (hc ch hch).2.1)),
    convCb_CB hP hc hcne, scanRepl_nomatch tryP3_sound (tryP3_head_ne (by decide))]

theorem conv3_eb_step {repo c P rest : List Char} (hP : GoodPath P)
    (hfree : ¬ needle <:+: P) :
    scanRepl tryP3 (convCb repo) (renderEntry EntryForm.eb c P ++ '\n' :: rest) =
      renderEntry EntryForm.eb c P ++ '\n' :: scanRepl tryP3 (convCb repo) rest := by
  rw [show renderEntry EntryForm.eb c P = lineEB P from rfl, lineEB_eq_CB,
    scanRepl_match tryP3_sound (tryP3_at_CB _ hP.1 (fun ch hch => (hP.2 ch hch).1)
      (by simp) (by simp)),
    show convCb repo (lineCB P []) P = lineCB P [] from by
      rw [convCb, if_neg (fun hc => absurd ((isSub_iff _ _).mp hc) hfree)],
    scanRepl_nomatch tryP3_sound (tryP3_head_ne (by decide))]

/-- Self-closing manifests: pattern 1 rewrites every entry, patterns 2 and 3
touch nothing. -/
theorem conv_doc_sc {repo c : List Char} (hrepo : GoodRepo repo) (hcGT : GoodText c)
    {L : List (List Char)} (hL : ∀ p ∈ L, GoodPath p) :
    convertBoilerplatePaths_conv (renderDoc EntryForm.sc c L) repo =
      renderDoc EntryForm.sc c (L.map (replaceNeedle repo)) := by
  have hL' : ∀ p ∈ L.map (replaceNeedle repo), GoodPath p := fun p hp => by
    obtain ⟨q, hq, rfl⟩ := List.mem_map.mp hp
    exact GoodPath_replaceNeedle hrepo (hL q hq)
  have hc : ∀ ch ∈ c, ch ≠ '<' := fun ch hch => (hcGT ch hch).2.1
  rw [convertBoilerplatePaths_conv,
    scanRepl_doc_map (replaceNeedle repo) L
      (fun P rest hPm => conv1_sc_step (hL P hPm)),
    scanRepl_doc_map id _ (fun P rest hPm =>
      scanRepl_entry_id tryP2_sound (fun a cs h => tryP2_head_ne h) tryP2_close
        (fun ch hch => ((hL' P hPm).2 ch hch).2.1) hc (by
          rw [show renderEntry EntryForm.sc c P = lineSC P from rfl, lineSC_decomp]
          exact tryP2_none_slash ('>' :: ('\n' :: rest)) (hL' P hPm).1
            (fun ch hch => ((hL' P hPm).2 ch hch).1))), List.map_id,
    scanRepl_doc_map id _ (fun P rest hPm =>
      scanRepl_entry_id tryP3_sound (fun a cs h => tryP3_head_ne h) tryP3_close
        (fun ch hch => ((hL' P hPm).2 ch hch).2.1) hc (by
          rw [show renderEntry EntryForm.sc c P = lineSC P from rfl, lineSC_decomp]
          exact tryP3_none_slash (hL' P hPm).1
            (fun ch hch => ((hL' P hPm).2 ch hch).1) (Or.inr ⟨rest, rfl⟩))),
    List.map_id]

/-- Empty-body manifests: pattern 1 touches nothing, pattern 2 rewrites every
entry, pattern 3 then matches each rewritten entry but leaves it unchanged. -/
theorem conv_doc_eb {repo c : List Char} (hrepo : GoodRepo repo)
    (hdisj : ∀ ch ∈ repo, ch ∉ needle) (hcGT : GoodText c)
    {L : List (List Char)} (hL : ∀ p ∈ L, GoodPath p) :
    convertBoilerplatePaths_conv (renderDoc EntryForm.eb c L) repo =
      renderDoc EntryForm.eb c (L.map (replaceNeedle repo)) := by
  have hL' : ∀ p ∈ L.map (replaceNeedle repo), GoodPath p := fun p hp => by
    obtain ⟨q, hq, rfl⟩ := List.mem_map.mp hp
    exact GoodPath_replaceNeedle hrepo (hL q hq)
  have hfree' : ∀ p ∈ L.map (replaceNeedle repo), ¬ needle <:+: p := fun p hp => by
    obtain ⟨q, hq, rfl⟩ := List.mem_map.mp hp
    simp only [replaceNeedle]
    exact replaceLit_no_occurrence needle_ne_nil hrepo.1 hdisj q
  have hc : ∀ ch ∈ c, ch ≠ '<' := fun ch hch => (hcGT ch hch).2.1
  rw [convertBoilerplatePaths_conv,
    scanRepl_doc_map id L (fun P rest hPm =>
      scanRepl_entry_id tryP1_sound (fun a cs h => tryP1_head_ne h) tryP1_close
        (fun ch hch => ((hL P hPm).2 ch hch).2.1) hc (by
          rw [show renderEntry EntryForm.eb c P = lineEB P from rfl, lineEB_decomp]
          exact tryP1_none_gt (closeTag ++ '\n' :: rest) (hL P hPm).1
            (fun ch hch => ((hL P hPm).2 ch hch).1))), List.map_id,
    scanRepl_doc_map (replaceNeedle repo) L
      (fun P rest hPm => conv2_eb_step (hL P hPm)),
    scanRepl_doc_map id _ (fun P rest hPm =>
      conv3_eb_step (hL' P hPm) (hfree' P hPm)), List.map_id]

/-- Content-bearing manifests: patterns 1 and 2 touch nothing, pattern 3
rewrites every entry. -/
theorem conv_doc_cb {repo c : List Char} (hrepo : GoodRepo repo) (hcGT : GoodText c)
    (hcne : c ≠ []) {L : List (List Char)} (hL : ∀ p ∈ L, GoodPath p) :
    convertBoilerplatePaths_conv (renderDoc EntryForm.cb c L) repo =
      renderDoc EntryForm.cb c (L.map (replaceNeedle repo)) := by
  have hc : ∀ ch ∈ c, ch ≠ '<' := fun ch hch => (hcGT ch hch).2.1
  rw [convertBoilerplatePaths_conv,
    scanRepl_doc_map id L (fun P rest hPm =>
      scanRepl_entry_id tryP1_sound (fun a cs h => tryP1_head_ne h) tryP1_close
        (fun ch hch => ((hL P hPm).2 ch hch).2.1) hc (by
          rw [show renderEntry EntryForm.cb c P = lineCB P c from rfl, lineCB_decomp]
          exact tryP1_none_gt (c ++ (closeTag ++ '\n' :: rest)) (hL P hPm).1
            (fun ch hch => ((hL P hPm).2 ch hch).1))), List.map_id,
    scanRepl_doc_map id L (fun P rest hPm =>
      scanRepl_entry_id tryP2_sound (fun a cs h => tryP2_head_ne h) tryP2_close
        (fun ch hch => ((hL P hPm).2 ch hch).2.1) hc (by
          rw [show renderEntry EntryForm.cb c P = lineCB P c from rfl, lineCB_decomp]
          obtain ⟨c0, c', hcc⟩ : ∃ c0 c', c = c0 :: c' := by
            cases c with
            | nil => exact absurd rfl hcne
            | cons a b => exact ⟨a, b, rfl⟩
          subst hcc
          rw [List.cons_append]
          exact tryP2_none_content _ (hL P hPm).1
            (fun ch hch => ((hL P hPm).2 ch hch).1)
            ((hcGT c0 (by simp)).2.1))), List.map_id,
    scanRepl_doc_map (replaceNeedle repo) L
      (fun P rest hPm => conv3_cb_step (hL P hPm) hcGT hcne)]

/-- Extra-attribute manifests: none of the converter's three patterns
matches, so the conversion is the identity. -/
theorem conv_doc_xa {repo c : List Char} (hcGT : GoodText c)
    {L : List (List Char)} (hL : ∀ p ∈ L, GoodPath p) :
    convertBoilerplatePaths_conv (renderDoc EntryForm.xa c L) repo =
      renderDoc EntryForm.xa c L := by
  have hc : ∀ ch ∈ c, ch ≠ '<' := fun ch hch => (hcGT ch hch).2.1
  rw [convertBoilerplatePaths_conv,
    scanRepl_doc_map id L (fun P rest hPm =>
      scanRepl_entry_id tryP1_sound (fun a cs h => tryP1_head_ne h) tryP1_close
        (fun ch hch => ((hL P hPm).2 ch hch).2.1) hc (by
          rw [show renderEntry EntryForm.xa c P = lineXA P from rfl]
          exact tryP1_none_XA)), List.map_id,
    scanRepl_doc_map id L (fun P rest hPm =>
      scanRepl_entry_id tryP2_sound (fun a cs h => tryP2_head_ne h) tryP2_close
        (fun ch hch => ((hL P hPm).2 ch hch).2.1) hc (by
          rw [show renderEntry EntryForm.xa c P = lineXA P from rfl]
          exact tryP2_none_XA)), List.map_id,
    scanRepl_doc_map id L (fun P rest hPm =>
      scanRepl_entry_id tryP3_sound (fun a cs h => tryP3_head_ne h) tryP3_close
        (fun ch hch => ((hL P hPm).2 ch hch).2.1) hc (by
          rw [show renderEntry EntryForm.xa c P = lineXA P from rfl]
          exact tryP3_none_XA)), List.map_id]

/-- The combined variant rewrites the path values of all four syntaxes: the
global replacement acts entrywise and the two later passes find nothing left
to do. -/
theorem comb_doc {repo c : List Char} {f : EntryForm} (hrepo : GoodRepo repo)
    (hdisj : ∀ ch ∈ repo, ch ∉ needle) (hcfree : ¬ needle <:+: c)
    {L : List (List Char)} :
    convertBoilerplatePaths_comb (renderDoc f c L) repo =
      renderDoc f c (L.map (replaceNeedle repo)) := by
  rw [convertBoilerplatePaths_comb, replaceNeedle_doc hcfree L]
  have hfree : ¬ needle <:+: renderDoc f c (L.map (replaceNeedle repo)) :=
    doc_needle_free hcfree _ (fun q hq => by
      obtain ⟨p, hp, rfl⟩ := List.mem_map.mp hq
      simp only [replaceNeedle]
      exact replaceLit_no_occurrence needle_ne_nil hrepo.1 hdisj p)
  rw [comb_passB_id hfree, comb_passC_id hfree]

/-- C3 (counterexample to the claim as stated): the converter variant has no
pattern for entries carrying an extra attribute before `root`, so such an
entry passes through unchanged even though its root value contains the
placeholder. -/
theorem C3_counterexample :
    convertBoilerplatePaths_conv
        (lineXA ("/content/sta-xwalk-boilerplate/tools".data)) ("acme".data) =
      lineXA ("/content/sta-xwalk-boilerplate/tools".data) ∧
    isSub needle (lineXA ("/content/sta-xwalk-boilerplate/tools".data)) = true := by
  constructor
  · decide
  · decide

/-- C3: the claim as stated fails for the converter variant, which leaves
extra-attribute entries untouched (`C3_counterexample`).  Amended: on
uniformly rendered manifests the converter rewrites every root value of the
self-closing, empty-body and content-bearing syntaxes — replacing all
occurrences of the placeholder inside the value by the repository name, and
passing placeholder-free values through unchanged (`replaceNeedle` is the
identity there) — but is the identity on the extra-attribute syntax; the
combined variant rewrites the root values of all four syntaxes. -/
theorem C3_conversion_per_syntax {repo c : List Char} {L : List (List Char)}
    (hrepo : GoodRepo repo) (hdisj : ∀ ch ∈ repo, ch ∉ needle)
    (hL : ∀ p ∈ L, GoodPath p) (hc : GoodText c) (hcne : c ≠ [])
    (hcfree : ¬ needle <:+: c) :
    (convertBoilerplatePaths_conv (renderDoc EntryForm.sc c L) repo =
        renderDoc EntryForm.sc c (L.map (replaceNeedle repo))) ∧
    (convertBoilerplatePaths_conv (renderDoc EntryForm.eb c L) repo =
        renderDoc EntryForm.eb c (L.map (replaceNeedle repo))) ∧
    (convertBoilerplatePaths_conv (renderDoc EntryForm.cb c L) repo =
        renderDoc EntryForm.cb c (L.map (replaceNeedle repo))) ∧
    (convertBoilerplatePaths_conv (renderDoc EntryForm.xa c L) repo =
        renderDoc EntryForm.xa c L) ∧
    (∀ f : EntryForm, convertBoilerplatePaths_comb (renderDoc f c L) repo =
        renderDoc f c (L.map (replaceNeedle repo))) :=
  ⟨conv_doc_sc hrepo hc hL, conv_doc_eb hrepo hdisj hc hL,
    conv_doc_cb hrepo hc hcne hL, conv_doc_xa hc hL,
    fun _ => comb_doc hrepo hdisj hcfree⟩

theorem C3_conversion_per_syntax_witness :
    (convertBoilerplatePaths_conv (renderDoc EntryForm.sc ("y".data)
        [("/content/sta-xwalk-boilerplate/tools".data)]) ("zq".data) =
        renderDoc EntryForm.sc ("y".data)
          ([("/content/sta-xwalk-boilerplate/tools".data)].map
            (replaceNeedle ("zq".data)))) ∧
    (convertBoilerplatePaths_conv (renderDoc EntryForm.eb ("y".data)
        [("/content/sta-xwalk-boilerplate/tools".data)]) ("zq".data) =
        renderDoc EntryForm.eb ("y".data)
          ([("/content/sta-xwalk-boilerplate/tools".data)].map
            (replaceNeedle ("zq".data)))) ∧
    (convertBoilerplatePaths_conv (renderDoc EntryForm.cb ("y".data)
        [("/content/sta-xwalk-boilerplate/tools".data)]) ("zq".data) =
        renderDoc EntryForm.cb ("y".data)
          ([("/content/sta-xwalk-boilerplate/tools".data)].map
            (replaceNeedle ("zq".data)))) ∧
    (convertBoilerplatePaths_conv (renderDoc EntryForm.xa ("y".data)
        [("/content/sta-xwalk-boilerplate/tools".data)]) ("zq".data) =
        renderDoc EntryForm.xa ("y".data)
          [("/content/sta-xwalk-boilerplate/tools".data)]) ∧
    (∀ f : EntryForm, convertBoilerplatePaths_comb (renderDoc f ("y".data)
        [("/content/sta-xwalk-boilerplate/tools".data)]) ("zq".data) =
        renderDoc f ("y".data)
          ([("/content/sta-xwalk-boilerplate/tools".data)].map
            (replaceNeedle ("zq".data)))) :=
  C3_conversion_per_syntax (by unfold GoodRepo goodChar; decide) (by decide)
    (by unfold GoodPath goodChar; decide) (by unfold GoodText; decide) (by decide)
    (by decide)

/-! ## Helper lemmas about the run wrappers -/

theorem runCombined_world (inp : RunInputs) (w : World) :
    (runCombined inp w).1 = (runBody_comb inp w).1 := by
  rcases h : runBody_comb inp w with ⟨w2, o, e⟩
  cases e <;> simp [runCombined, h]

theorem runCombined_is_boilerplate (inp : RunInputs) (w : World) :
    (runCombined inp w).2.is_boilerplate = (runBody_comb inp w).2.1.is_boilerplate := by
  rcases h : runBody_comb inp w with ⟨w2, o, e⟩
  cases e <;> simp [runCombined, h]

theorem runCombined_converted (inp : RunInputs) (w : World) :
    (runCombined inp w).2.converted_package_path =
      (runBody_comb inp w).2.1.converted_package_path := by
  rcases h : runBody_comb inp w with ⟨w2, o, e⟩
  cases e <;> simp [runCombined, h]

theorem runConverter_world (inp : RunInputs) (pagePaths : List String) (w : World) :
    (runConverter inp pagePaths w).1 = (runBody_conv inp pagePaths w).1 := by
  rcases h : runBody_conv inp pagePaths w with ⟨w2, o, e⟩
  cases e <;> simp [runConverter, h]

theorem runConverter_is_boilerplate (inp : RunInputs) (pagePaths : List String)
    (w : World) :
    (runConverter inp pagePaths w).2.is_boilerplate =
      (runBody_conv inp pagePaths w).2.1.is_boilerplate := by
  rcases h : runBody_conv inp pagePaths w with ⟨w2, o, e⟩
  cases e <;> simp [runConverter, h]

theorem runConverter_converted (inp : RunInputs) (pagePaths : List String) (w : World) :
    (runConverter inp pagePaths w).2.converted_package_path =
      (runBody_conv inp pagePaths w).2.1.converted_package_path := by
  rcases h : runBody_conv inp pagePaths w with ⟨w2, o, e⟩
  cases e <;> simp [runConverter, h]

theorem runBody_comb_false {inp : RunInputs} {w : World}
    (hv : ¬ (inp.zip_contents_path = "" ∨ w.dirExists = false))
    {pkg : String} {paths : List String}
    (hdet : detectBoilerplate_comb w = Except.ok (false, pkg, paths)) :
    runBody_comb inp w = (w, { noOutputs with
      is_boilerplate := some (boolString false),
      content_package_path := some pkg,
      page_paths := some (String.intercalate "," paths) }, none) := by
  rw [runBody_comb, if_neg hv, hdet]
  simp

theorem runBody_comb_true {inp : RunInputs} {w : World}
    (hv : ¬ (inp.zip_contents_path = "" ∨ w.dirExists = false))
    {pkg : String} {paths : List String}
    (hdet : detectBoilerplate_comb w = Except.ok (true, pkg, paths)) :
    (runBody_comb inp w).2.1.is_boilerplate = some (boolString true) := by
  rw [runBody_comb, if_neg hv, hdet]
  simp only []
  split
  · split
    · split
      · rfl
      · rfl
    · split
      · rfl
      · rfl
  · rfl

/-- C6 (counterexample to the claim as stated): a tree without
`content/sta-xwalk-boilerplate` but with `content/dam/sta-xwalk-boilerplate`
is still modified — the dam folder is renamed. -/
theorem C6_counterexample :
    renameFoldersInJcrRoot "acme"
        [["content"], ["content", "dam"], ["content", "dam", "sta-xwalk-boilerplate"]] =
      [["content"], ["content", "dam"], ["content", "dam", "acme"]] ∧
    ["content", "sta-xwalk-boilerplate"] ∉
      ([["content"], ["content", "dam"], ["content", "dam", "sta-xwalk-boilerplate"]] :
        List (List String)) := by
  constructor
  · decide
  · decide

/-- C6: as stated the claim fails — a tree without
`content/sta-xwalk-boilerplate` can still change, because the dam location is
inspected independently (`C6_counterexample`).  Amended: when both inspected
locations are absent the rename is a no-op, and when only
`content/sta-xwalk-boilerplate` is absent every path outside the dam subtree
is untouched. -/
theorem C6_rename_no_op {repo : String} {fs : List (List String)}
    (h1 : ["content", "sta-xwalk-boilerplate"] ∉ fs) :
    (["content", "dam", "sta-xwalk-boilerplate"] ∉ fs →
      renameFoldersInJcrRoot repo fs = fs) ∧
    (∀ p ∈ fs, ¬ ["content", "dam", "sta-xwalk-boilerplate"] <+: p →
      p ∈ renameFoldersInJcrRoot repo fs) := by
  constructor
  · intro h2
    simp only [renameFoldersInJcrRoot]
    rw [if_neg h1, if_neg h2]
  · intro p hp hnp
    simp only [renameFoldersInJcrRoot]
    rw [if_neg h1]
    by_cases hd : ["content", "dam", "sta-xwalk-boilerplate"] ∈ fs
    · rw [if_pos hd]
      refine List.mem_map.mpr ⟨p, hp, ?_⟩
      rw [if_neg (fun hb => hnp (List.isPrefixOf_iff_prefix.mp hb))]
    · rw [if_neg hd]
      exact hp

theorem C6_rename_no_op_witness :
    ((["content", "dam", "sta-xwalk-boilerplate"] ∉
        ([["content"], ["content", "other"]] : List (List String)) →
      renameFoldersInJcrRoot "acme" [["content"], ["content", "other"]] =
        [["content"], ["content", "other"]]) ∧
    (∀ p ∈ ([["content"], ["content", "other"]] : List (List String)),
      ¬ ["content", "dam", "sta-xwalk-boilerplate"] <+: p →
      p ∈ renameFoldersInJcrRoot "acme" [["content"], ["content", "other"]])) :=
  C6_rename_no_op (by decide)

/-- C7: in both orchestrations the classifier runs on the original, untouched
data before any rewrite: the `is_boilerplate` output reproduces the
classification of the input world's manifest (combined) or of the input path
list (converter), and a negative classification leaves the world unchanged
with no conversion output set. -/
theorem C7_classification_before_rewrite (inp : RunInputs) (pagePaths : List String)
    (w : World) (hzp : inp.zip_contents_path ≠ "") (hdir : w.dirExists = true) :
    (∀ b pkg paths, detectBoilerplate_comb w = Except.ok (b, pkg, paths) →
      (runCombined inp w).2.is_boilerplate = some (boolString b) ∧
      (b = false → (runCombined inp w).1 = w ∧
        (runCombined inp w).2.converted_package_path = none)) ∧
    (inp.repo_name ≠ "" →
      (runConverter inp pagePaths w).2.is_boilerplate =
        some (boolString (isBoilerplatePackage_perm pagePaths)) ∧
      (isBoilerplatePackage_perm pagePaths = false →
        (runConverter inp pagePaths w).1 = w ∧
        (runConverter inp pagePaths w).2.converted_package_path = none)) := by
  have hv : ¬ (inp.zip_contents_path = "" ∨ w.dirExists = false) := by
    simp [hzp, hdir]
  constructor
  · intro b pkg paths hdet
    cases b with
    | false =>
        refine ⟨?_, fun _ => ⟨?_, ?_⟩⟩
        · rw [runCombined_is_boilerplate, runBody_comb_false hv hdet]
        · rw [runCombined_world, runBody_comb_false hv hdet]
        · rw [runCombined_converted, runBody_comb_false hv hdet]
          rfl
    | true =>
        refine ⟨?_, fun hfalse => by simp at hfalse⟩
        rw [runCombined_is_boilerplate, runBody_comb_true hv hdet]
  · intro hrepo
    have hbody : ∀ b, isBoilerplatePackage_perm pagePaths = b → b = false →
        runBody_conv inp pagePaths w = (w, { noOutputs with
          is_boilerplate := some (boolString false) }, none) := by
      intro b hb hbf
      rw [runBody_conv, if_neg hv, if_neg hrepo]
      simp only [hb, hbf]
      simp
    constructor
    · rw [runConverter_is_boilerplate, runBody_conv, if_neg hv, if_neg hrepo]
      simp only []
      split
      · split
        · rfl
        · rfl
      · rfl
    · intro hfalse
      constructor
      · rw [runConverter_world, hbody _ hfalse rfl]
      · rw [runConverter_converted, hbody _ hfalse rfl]
        rfl

theorem C7_classification_before_rewrite_witness :
    ((∀ b pkg paths, detectBoilerplate_comb
        ⟨true, false, none, true, (lineSC ("/content/acme/foo".data)), false, false,
          [], false, false, false, false, false, false, true⟩ =
        Except.ok (b, pkg, paths) →
      (runCombined ⟨"work", "acme", "true"⟩
        ⟨true, false, none, true, (lineSC ("/content/acme/foo".data)), false, false,
          [], false, false, false, false, false, false, true⟩).2.is_boilerplate =
        some (boolString b) ∧
      (b = false → (runCombined ⟨"work", "acme", "true"⟩
        ⟨true, false, none, true, (lineSC ("/content/acme/foo".data)), false, false,
          [], false, false, false, false, false, false, true⟩).1 =
        ⟨true, false, none, true, (lineSC ("/content/acme/foo".data)), false, false,
          [], false, false, false, false, false, false, true⟩ ∧
      (runCombined ⟨"work", "acme", "true"⟩
        ⟨true, false, none, true, (lineSC ("/content/acme/foo".data)), false, false,
          [], false, false, false, false, false, false, true⟩).2.converted_package_path
        = none)) ∧
    (("acme" : String) ≠ "" →
      (runConverter ⟨"work", "acme", "true"⟩ ["/content/acme/foo"]
        ⟨true, false, none, true, (lineSC ("/content/acme/foo".data)), false, false,
          [], false, false, false, false, false, false, true⟩).2.is_boilerplate =
        some (boolString (isBoilerplatePackage_perm ["/content/acme/foo"])) ∧
      (isBoilerplatePackage_perm ["/content/acme/foo"] = false →
        (runConverter ⟨"work", "acme", "true"⟩ ["/content/acme/foo"]
          ⟨true, false, none, true, (lineSC ("/content/acme/foo".data)), false, false,
            [], false, false, false, false, false, false, true⟩).1 =
          ⟨true, false, none, true, (lineSC ("/content/acme/foo".data)), false, false,
            [], false, false, false, false, false, false, true⟩ ∧
        (runConverter ⟨"work", "acme", "true"⟩ ["/content/acme/foo"]
          ⟨true, false, none, true, (lineSC ("/content/acme/foo".data)), false, false,
            [], false, false, false, false, false, false, true⟩).2.converted_package_path
          = none))) :=
  C7_classification_before_rewrite ⟨"work", "acme", "true"⟩ ["/content/acme/foo"] _
    (by decide) rfl

/-- C8 (counterexample to the claim as stated): in the combined variant a
failed archive write propagates before the cleanup line runs — there is no
`try`/`finally` — so `temp_package` survives the failure; the converter
variant cleans up on the same failure. -/
theorem C8_counterexample :
    (createPackageFromExtractedContent_comb "acme"
        ⟨true, false, none, true, [], true, true, [], false, false, false, false,
          false, false, false⟩).1.hasTempPackage = true ∧
    (createPackageFromExtractedContent_comb "acme"
        ⟨true, false, none, true, [], true, true, [], false, false, false, false,
          false, false, false⟩).2 = Except.error "zip write failed" ∧
    (createPackageFromExtractedContent_conv "acme"
        ⟨true, false, none, true, [], true, true, [], false, false, false, false,
          false, false, false⟩).1.hasTempPackage = false := by
  refine ⟨rfl, rfl, rfl⟩

/-- C8: as stated the claim fails for the combined variant, which leaves its
`temp_package` directory behind when the archive write fails
(`C8_counterexample`).  Amended: the converter variant removes its temporary
directory on every path; the combined variant removes it on success but
keeps it exactly on the failing archive write. -/
theorem C8_temp_cleanup (repo : String) (w : World)
    (hpre : w.hasTempPackage = false) :
    (createPackageFromExtractedContent_conv repo w).1.hasTempPackage = false ∧
    (w.zipOk = true →
      (createPackageFromExtractedContent_comb repo w).1.hasTempPackage = false) ∧
    (w.zipOk = false → w.hasJcrRoot = true → w.hasMetaInf = true →
      w.hasFilterXml = true →
      (createPackageFromExtractedContent_comb repo w).1.hasTempPackage = true) := by
  refine ⟨?_, ?_, ?_⟩
  · simp only [createPackageFromExtractedContent_conv]
    split
    · exact hpre
    · split
      · exact hpre
      · split
        · rfl
        · rfl
  · intro hz
    simp only [createPackageFromExtractedContent_comb]
    split
    · exact hpre
    · split
      · exact hpre
      · rfl
  · intro hz hj hm hf
    simp only [createPackageFromExtractedContent_comb]
    split
    · rename_i hcond
      exact absurd ⟨hj, hm⟩ hcond
    · split
      · rename_i hcond
        exact absurd hf (by simpa using hcond)
      · rw [if_neg (show ¬ (w.zipOk = true) from by rw [hz]; exact Bool.false_ne_true)]

theorem C8_temp_cleanup_witness :
    ((createPackageFromExtractedContent_conv "acme"
        ⟨true, false, none, true, [], true, true, [], false, false, false, false,
          false, false, false⟩).1.hasTempPackage = false ∧
    ((⟨true, false, none, true, [], true, true, [], false, false, false, false,
          false, false, false⟩ : World).zipOk = true →
      (createPackageFromExtractedContent_comb "acme"
        ⟨true, false, none, true, [], true, true, [], false, false, false, false,
          false, false, false⟩).1.hasTempPackage = false) ∧
    ((⟨true, false, none, true, [], true, true, [], false, false, false, false,
          false, false, false⟩ : World).zipOk = false →
      (⟨true, false, none, true, [], true, true, [], false, false, false, false,
          false, false, false⟩ : World).hasJcrRoot = true →
      (⟨true, false, none, true, [], true, true, [], false, false, false, false,
          false, false, false⟩ : World).hasMetaInf = true →
      (⟨true, false, none, true, [], true, true, [], false, false, false, false,
          false, false, false⟩ : World).hasFilterXml = true →
      (createPackageFromExtractedContent_comb "acme"
        ⟨true, false, none, true, [], true, true, [], false, false, false, false,
          false, false, false⟩).1.hasTempPackage = true)) :=
  C8_temp_cleanup "acme" _ rfl

theorem runBody_comb_o_error (inp : RunInputs) (w : World) :
    (runBody_comb inp w).2.1.error_message = none := by
  rw [runBody_comb]
  split
  · rfl
  · split
    · rfl
    · split
      · split
        · split
          · rfl
          · rfl
        · split
          · rfl
          · rfl
      · rfl

theorem runBody_det_o_error (inp : RunInputs) (w : World) :
    (runBody_det inp w).1.error_message = none := by
  rw [runBody_det]
  split
  · rfl
  · split
    · rfl
    · rfl

/-- C9: no failure escapes either `run`: when the body succeeds no error
output is set, and when the body fails with any message the top-level
handler reports exactly that message through `error_message`, with the
script's prefix.  In particular a working directory holding neither a
`.zip` nor a manifest yields the not-found report of each script. -/
theorem C9_errors_reported (inp : RunInputs) (w : World) :
    ((runCombined inp w).2.error_message = none ↔ (runBody_comb inp w).2.2 = none) ∧
    (∀ e, (runBody_comb inp w).2.2 = some e →
      (runCombined inp w).2.error_message =
        some ("Xwalk operation failed: " ++ e)) ∧
    ((runDetector inp w).error_message = none ↔ (runBody_det inp w).2 = none) ∧
    (∀ e, (runBody_det inp w).2 = some e →
      (runDetector inp w).error_message =
        some ("Boilerplate detection failed: " ++ e)) ∧
    (inp.zip_contents_path ≠ "" → w.dirExists = true → w.hasZip = false →
      w.hasFilterXml = false →
      (runCombined inp w).2.error_message = some
        "Xwalk operation failed: No .zip files found in the specified directory and no boilerplate content detected." ∧
      (runDetector inp w).error_message = some
        "Boilerplate detection failed: No .zip files found in the specified directory.") := by
  have hoc := runBody_comb_o_error inp w
  have hod := runBody_det_o_error inp w
  refine ⟨?_, ?_, ?_, ?_, ?_⟩
  · rcases h : runBody_comb inp w with ⟨w2, o, e⟩
    rw [h] at hoc
    simp only [] at hoc
    cases e with
    | none => simp [runCombined, h, hoc]
    | some e => simp [runCombined, h]
  · intro e he
    rcases h : runBody_comb inp w with ⟨w2, o, e2⟩
    rw [h] at he
    simp only [] at he
    subst he
    simp [runCombined, h]
  · rcases h : runBody_det inp w with ⟨o, e⟩
    rw [h] at hod
    simp only [] at hod
    cases e with
    | none => simp [runDetector, h, hod]
    | some e => simp [runDetector, h]
  · intro e he
    rcases h : runBody_det inp w with ⟨o, e2⟩
    rw [h] at he
    simp only [] at he
    subst he
    simp [runDetector, h]
  · intro hzp hdir hz0 hf0
    have hv : ¬ (inp.zip_contents_path = "" ∨ w.dirExists = false) := by
      simp [hzp, hdir]
    have hdet : detectBoilerplate_comb w = Except.error
        "No .zip files found in the specified directory and no boilerplate content detected." := by
      rw [detectBoilerplate_comb,
        if_neg (fun hc => by rw [hf0] at hc; exact Bool.false_ne_true hc.2),
        if_pos hz0]
    have hdetd : detectBoilerplate_det w = Except.error
        "No .zip files found in the specified directory." := by
      rw [detectBoilerplate_det, if_pos hz0]
    have hbody : runBody_comb inp w = (w, noOutputs, some
        "No .zip files found in the specified directory and no boilerplate content detected.") := by
      rw [runBody_comb, if_neg hv, hdet]
    have hbodyd : runBody_det inp w = (noOutputs, some
        "No .zip files found in the specified directory.") := by
      rw [runBody_det, if_neg hv, hdetd]
    constructor
    · rw [runCombined, hbody]
      rfl
    · rw [runDetector, hbodyd]
      rfl

theorem C2_strict_classifier_witness :
    isBoilerplatePackage_det ["/content/sta-xwalk-boilerplate/block-collection",
      "/content/sta-xwalk-boilerplate/tools",
      "/content/dam/sta-xwalk-boilerplate/block-collection"] =
      isBoilerplatePackage_det BOILERPLATE_PATHS :=
  C2_strict_classifier.2.1 _ _ (by decide)

end Swetabar
